import Mathlib

/-!
# A verification development for `src/vector.h`

`Vector<T>` owns a heap block `buffer_` of `capacity_` slots of which the first `size_` are live.
The embedding keeps the three fields, an explicit heap of array blocks (so that pointer identity,
aliasing and release of storage can be stated), and a fault oracle: every operation that may throw
in C++ (an array `new`, a copy assignment of a `T`, a potentially throwing move assignment, the
construction of `T()`) consults `fails` at the current clock value and advances the clock.
The parameters `const T& value` and `T&& value` of `Resize` and `PushBack` are references: the
argument is an object outside the container or an element of the container itself, and it is
read at the point of the call where the code reads it.
-/

namespace VectorH

/-! ## Machine integers and the element type -/

/-- Arithmetic on `size_t` is modulo `2 ^ 64`. -/
def SIZE_MOD : Nat := 18446744073709551616

/-- Largest array length an array `new` expression can deliver (`PTRDIFF_MAX`); a longer request
throws `std::bad_array_new_length`. -/
def MAX_ARRAY_LEN : Nat := 9223372036854775807

/-- `++n` on a `size_t`. -/
def incr (n : Nat) : Nat := (n + 1) % SIZE_MOD

/-- `--n` on a `size_t`. -/
def decr (n : Nat) : Nat := (n + SIZE_MOD - 1) % SIZE_MOD

/-- `n * 2` on a `size_t`. -/
def twice (n : Nat) : Nat := (n * 2) % SIZE_MOD

/-- What the container uses of its element type `T`: the value of `T()`, whether
`std::move_if_noexcept` selects a move (the move cannot throw), the value a move leaves in its
source, and the ordering `operator<`. -/
structure ElemTraits (T : Type) where
  dflt : T
  nothrowMove : Bool
  movedFrom : T → T
  lt : T → T → Bool

/-! ## The heap of array blocks -/

/-- Address `a` holds `some blk` while the array allocated there is alive and `none` once it has
been deleted. Addresses are never reused. -/
abbrev Heap (T : Type) := List (Option (List T))

/-- The block at address `a`, if it is alive. -/
def Heap.block {T : Type} (h : Heap T) (a : Nat) : Option (List T) := (h.get? a).join

/-- The slots behind pointer `p` (nothing behind `nullptr` or a dead block). -/
def Heap.read {T : Type} (h : Heap T) (p : Option Nat) : List T :=
  match p with
  | none => []
  | some a => (h.block a).getD []

/-- Store the slots `blk` behind pointer `p`. -/
def Heap.write {T : Type} (h : Heap T) (p : Option Nat) (blk : List T) : Heap T :=
  match p with
  | none => h
  | some a => h.set a (some blk)

/-- The effect of `delete[] p` (a no-op on `nullptr`). -/
def Heap.free {T : Type} (h : Heap T) (p : Option Nat) : Heap T :=
  match p with
  | none => h
  | some a => h.set a none

/-- The effect of `new T[n]` attempted at clock `clk`: `none` when it throws, otherwise the fresh
address and the heap extended by a block of `n` default-constructed slots. -/
def newArray {T : Type} (E : ElemTraits T) (fails : Nat → Bool) (h : Heap T) (clk n : Nat) :
    Option (Nat × Heap T) :=
  if fails clk = true ∨ MAX_ARRAY_LEN < n then none
  else some (h.length, h ++ [some (List.replicate n E.dflt)])

/-! ## The object and the machine state -/

/-- The three data members of `Vector<T>`. -/
structure Vector where
  buffer_ : Option Nat
  size_ : Nat
  capacity_ : Nat
  deriving DecidableEq, Repr

/-- The state a member function runs in: the heap, the clock of fallible steps and `*this`. -/
structure State (T : Type) where
  heap : Heap T
  clock : Nat
  self : Vector
  deriving DecidableEq, Repr

/-- How a call ends: normally, or by an exception leaving the function. -/
inductive Outcome where
  | returned
  | threw
  deriving DecidableEq, Repr

/-- The outcome of a call and the state it leaves. -/
structure Result (T : Type) where
  outcome : Outcome
  st : State T
  deriving DecidableEq, Repr

/-- Result of a loop that assigns into one block. -/
structure FillRes (T : Type) where
  ok : Bool
  blk : List T
  clock : Nat
  deriving DecidableEq, Repr

/-- Result of a loop that transfers elements from an old block into a new one. -/
structure XferRes (T : Type) where
  ok : Bool
  old : List T
  new : List T
  clock : Nat
  deriving DecidableEq, Repr

/-! ## Reference parameters

`Resize(size_t, const T& value)`, `PushBack(const T& value)` and `PushBack(T&& value)` take their
argument by reference and read it in the middle of their work, so it matters whether the argument
is an element of the container itself, as in `v.PushBack(v[0])`. -/

/-- What a reference parameter `value` is bound to: `val x` is an object outside the block of the
container, holding `x`; `slot k` is `buffer_[k]` of the block the container owns when the call
starts, which exists for `k < capacity_` (through a slot that does not exist the model reads
`T()`). -/
inductive Arg (T : Type) where
  | val (x : T)
  | slot (k : Nat)
  deriving DecidableEq, Repr

/-- The value read through the reference while `blk` is the content of the block the container
owned when the call started. -/
def Arg.get {T : Type} (E : ElemTraits T) (blk : List T) : Arg T → T
  | .val x => x
  | .slot k => blk.getD k E.dflt

/-- The block the container owned when the call started, holding `blk`, after the object behind
the reference has been moved from: a slot of the block is left holding `movedFrom`. -/
def Arg.moved {T : Type} (E : ElemTraits T) (blk : List T) : Arg T → List T
  | .val _ => blk
  | .slot k => blk.set k (E.movedFrom (blk.getD k E.dflt))

/-! ## Loops -/

/-- The loop `for (i = i0; i < i0 + k; ++i) blk[i] = value;`, each assignment fallible. -/
def fillLoop {T : Type} (fails : Nat → Bool) (value : T) :
    (k i : Nat) → (blk : List T) → (clk : Nat) → FillRes T
  | 0, _, blk, clk => ⟨true, blk, clk⟩
  | k + 1, i, blk, clk =>
    if fails clk then ⟨false, blk, clk + 1⟩
    else fillLoop fails value k (i + 1) (blk.set i value) (clk + 1)

/-- The loop `for (i = i0; i < i0 + k; ++i) buffer_[i] = value;` on the block the container owns,
which `value` may refer into: every assignment reads through the reference. -/
def fillLoopArg {T : Type} (E : ElemTraits T) (fails : Nat → Bool) (value : Arg T) :
    (k i : Nat) → (blk : List T) → (clk : Nat) → FillRes T
  | 0, _, blk, clk => ⟨true, blk, clk⟩
  | k + 1, i, blk, clk =>
    if fails clk then ⟨false, blk, clk + 1⟩
    else fillLoopArg E fails value k (i + 1) (blk.set i (value.get E blk)) (clk + 1)

/-- The loop `for (i = i0; i < i0 + k; ++i) dst[i] = src[i];`, each copy assignment fallible. -/
def copyLoop {T : Type} (E : ElemTraits T) (fails : Nat → Bool) (src : List T) :
    (k i : Nat) → (dst : List T) → (clk : Nat) → FillRes T
  | 0, _, dst, clk => ⟨true, dst, clk⟩
  | k + 1, i, dst, clk =>
    if fails clk then ⟨false, dst, clk + 1⟩
    else copyLoop E fails src k (i + 1) (dst.set i (src.getD i E.dflt)) (clk + 1)

/-- The loop `for (i = i0; i < i0 + k; ++i) new_buffer[i] = std::move_if_noexcept(buffer_[i]);`.
With a non-throwing move each step moves (it cannot fail and leaves `movedFrom` in the old slot);
otherwise each step is a fallible copy assignment. -/
def transferLoop {T : Type} (E : ElemTraits T) (fails : Nat → Bool) :
    (k i : Nat) → (old new : List T) → (clk : Nat) → XferRes T
  | 0, _, old, new, clk => ⟨true, old, new, clk⟩
  | k + 1, i, old, new, clk =>
    if E.nothrowMove then
      transferLoop E fails k (i + 1) (old.set i (E.movedFrom (old.getD i E.dflt)))
        (new.set i (old.getD i E.dflt)) clk
    else if fails clk then ⟨false, old, new, clk + 1⟩
    else transferLoop E fails k (i + 1) old (new.set i (old.getD i E.dflt)) (clk + 1)

/-- The loop of the sequence constructors: `while (it != end) { buffer_[i] = *it; ++it; ++i; }`. -/
def initLoop {T : Type} (fails : Nat → Bool) :
    (vals : List T) → (i : Nat) → (blk : List T) → (clk : Nat) → FillRes T
  | [], _, blk, clk => ⟨true, blk, clk⟩
  | x :: xs, i, blk, clk =>
    if fails clk then ⟨false, blk, clk + 1⟩
    else initLoop fails xs (i + 1) (blk.set i x) (clk + 1)

/-! ## Constructors, destructor, assignment -/

/-- The object a constructor starts from: the default member initialisers
`buffer_{nullptr}, size_{0}, capacity_{0}`. -/
def Vector.init : Vector := ⟨none, 0, 0⟩

/-- The constructor `Vector()`. -/
def defaultCtor {T : Type} (h : Heap T) (clk : Nat) : State T := ⟨h, clk, ⟨none, 0, 0⟩⟩

/-- The destructor `~Vector()`: `delete[] buffer_`. -/
def destroy {T : Type} (h : Heap T) (v : Vector) : Heap T := h.free v.buffer_

/-- The constructor `Vector(const Vector& other)`, run on heap `h` at clock `clk`. On a throw the
state is the one the handler leaves behind. -/
def copyCtor {T : Type} (E : ElemTraits T) (fails : Nat → Bool) (h : Heap T) (clk : Nat)
    (other : Vector) : Result T :=
  let size_ := other.size_
  let capacity_ := other.capacity_
  if 0 < capacity_ then
    match newArray E fails h clk capacity_ with
    | none =>
      -- `new` threw: `buffer_` is still `nullptr`
      ⟨.threw, ⟨h, clk + 1, ⟨none, 0, 0⟩⟩⟩
    | some (p, h1) =>
      let r := copyLoop E fails (h1.read other.buffer_) size_ 0 (h1.read (some p)) (clk + 1)
      if r.ok then ⟨.returned, ⟨h1.write (some p) r.blk, r.clock, ⟨some p, size_, capacity_⟩⟩⟩
      else ⟨.threw, ⟨(h1.write (some p) r.blk).free (some p), r.clock, ⟨none, 0, 0⟩⟩⟩
  else
    let r := copyLoop E fails (h.read other.buffer_) size_ 0 (h.read none) clk
    if r.ok then ⟨.returned, ⟨h.write none r.blk, r.clock, ⟨none, size_, capacity_⟩⟩⟩
    else ⟨.threw, ⟨(h.write none r.blk).free none, r.clock, ⟨none, 0, 0⟩⟩⟩

/-- The constructor `Vector(Vector&& other)`: the new object and what is left of `other`. -/
def moveCtor (other : Vector) : Vector × Vector :=
  (⟨other.buffer_, other.size_, other.capacity_⟩, ⟨none, 0, 0⟩)

/-- The constructor `Vector(std::initializer_list<T>&& init_list)`. -/
def initListCtor {T : Type} (E : ElemTraits T) (fails : Nat → Bool) (h : Heap T) (clk : Nat)
    (init_list : List T) : Result T :=
  let capacity_ := init_list.length
  if 0 < capacity_ then
    match newArray E fails h clk capacity_ with
    | none => ⟨.threw, ⟨h, clk + 1, ⟨none, 0, 0⟩⟩⟩
    | some (p, h1) =>
      let r := initLoop fails init_list 0 (h1.read (some p)) (clk + 1)
      if r.ok then
        ⟨.returned, ⟨h1.write (some p) r.blk, r.clock, ⟨some p, init_list.length, capacity_⟩⟩⟩
      else ⟨.threw, ⟨(h1.write (some p) r.blk).free (some p), r.clock, ⟨none, 0, 0⟩⟩⟩
  else
    let r := initLoop fails init_list 0 (h.read none) clk
    if r.ok then ⟨.returned, ⟨h.write none r.blk, r.clock, ⟨none, init_list.length, capacity_⟩⟩⟩
    else ⟨.threw, ⟨(h.write none r.blk).free none, r.clock, ⟨none, 0, 0⟩⟩⟩

/-- The constructor `Vector(Iterator first, Iterator last)`; `range` lists the values of
`[first, last)`. -/
def rangeCtor {T : Type} (E : ElemTraits T) (fails : Nat → Bool) (h : Heap T) (clk : Nat)
    (range : List T) : Result T :=
  let capacity_ := range.length
  if 0 < capacity_ then
    match newArray E fails h clk capacity_ with
    | none => ⟨.threw, ⟨h, clk + 1, ⟨none, 0, 0⟩⟩⟩
    | some (p, h1) =>
      let r := initLoop fails range 0 (h1.read (some p)) (clk + 1)
      if r.ok then
        ⟨.returned, ⟨h1.write (some p) r.blk, r.clock, ⟨some p, range.length, range.length⟩⟩⟩
      else ⟨.threw, ⟨(h1.write (some p) r.blk).free (some p), r.clock, ⟨none, 0, 0⟩⟩⟩
  else
    let r := initLoop fails range 0 (h.read none) clk
    if r.ok then ⟨.returned, ⟨h.write none r.blk, r.clock, ⟨none, range.length, range.length⟩⟩⟩
    else ⟨.threw, ⟨(h.write none r.blk).free none, r.clock, ⟨none, 0, 0⟩⟩⟩

/-- The member `Swap(Vector& other)`: the new `*this` and the new `other`. -/
def Swap (self other : Vector) : Vector × Vector :=
  (⟨other.buffer_, other.size_, other.capacity_⟩, ⟨self.buffer_, self.size_, self.capacity_⟩)

/-- The accessor `Size()`. -/
def Size (v : Vector) : Nat := v.size_

/-- The accessor `Capacity()`. -/
def Capacity (v : Vector) : Nat := v.capacity_

/-- The accessor `Empty()`. -/
def Empty (v : Vector) : Bool := v.size_ == 0

/-- The accessor `Data()`. -/
def Data (v : Vector) : Option Nat := v.buffer_

/-- The unchecked `operator[]`: the slot `buffer_[idx]`, `none` where the C++ access is outside
the block. -/
def index {T : Type} (h : Heap T) (v : Vector) (idx : Nat) : Option T :=
  (h.read v.buffer_).get? idx

/-- The accessor `Front()`. -/
def Front {T : Type} (h : Heap T) (v : Vector) : Option T := index h v 0

/-- The accessor `Back()`: `buffer_[size_ - 1]`. -/
def Back {T : Type} (h : Heap T) (v : Vector) : Option T :=
  index h v (decr v.size_)

/-- The checked accessor `At(idx)`: `none` stands for `std::out_of_range`. -/
def At {T : Type} (h : Heap T) (v : Vector) (idx : Nat) : Option (Option T) :=
  if idx ≥ v.size_ then none else some (index h v idx)

/-- The live elements `buffer_[0], ..., buffer_[size_ - 1]`, as `begin()`..`end()` enumerates
them. -/
def elems {T : Type} (h : Heap T) (v : Vector) : List T := (h.read v.buffer_).take v.size_

/-- The copy assignment `operator=(const Vector& other)`. `thisAddr` and `otherAddr` are the
addresses of the two objects, compared by `this != &other`. -/
def copyAssign {T : Type} (E : ElemTraits T) (fails : Nat → Bool) (s : State T)
    (thisAddr otherAddr : Nat) (other : Vector) : Result T :=
  if thisAddr ≠ otherAddr then
    -- the three `std::exchange` calls leave `*this` as `(nullptr, 0, 0)`
    let copy_buffer := s.self.buffer_
    let copy_size := s.self.size_
    let copy_capacity := s.self.capacity_
    let r := copyCtor E fails s.heap s.clock other
    match r.outcome with
    | .returned =>
      -- `Vector(other).Swap(*this)`, then the temporary dies, then `delete[] copy_buffer`
      let sw := Swap r.st.self ⟨none, 0, 0⟩
      ⟨.returned, ⟨(destroy r.st.heap sw.1).free copy_buffer, r.st.clock, sw.2⟩⟩
    | .threw => ⟨.threw, ⟨r.st.heap, r.st.clock, ⟨copy_buffer, copy_size, copy_capacity⟩⟩⟩
  else ⟨.returned, s⟩

/-- The move assignment `operator=(Vector&& other)`: the state with the new `*this`, and what is
left of `other`. -/
def moveAssign {T : Type} (s : State T) (thisAddr otherAddr : Nat) (other : Vector) :
    State T × Vector :=
  if thisAddr ≠ otherAddr then
    let mc := moveCtor other
    let sw := Swap mc.1 s.self
    (⟨destroy s.heap sw.1, s.clock, sw.2⟩, mc.2)
  else (s, other)

/-! ## Capacity and mutation -/

/-- The member `Resize(size_t size, const T& value)`. In place, every assignment
`buffer_[i] = value` reads `value` in the block it writes. When reallocating, the elements are
transferred out of the old block first, and the assignments `new_buffer[i] = value` read `value`
in the old block as the transfer left it. -/
def Resize {T : Type} (E : ElemTraits T) (fails : Nat → Bool) (s : State T) (size : Nat)
    (value : Arg T) : Result T :=
  if size = s.self.size_ then ⟨.returned, s⟩
  else
    let copy_buffer := s.self.buffer_
    let copy_size := s.self.size_
    let copy_capacity := s.self.capacity_
    if size ≤ s.self.capacity_ then
      let r := fillLoopArg E fails value (size - s.self.size_) s.self.size_
        (s.heap.read s.self.buffer_) s.clock
      if r.ok then
        ⟨.returned, ⟨s.heap.write s.self.buffer_ r.blk, r.clock,
          ⟨s.self.buffer_, size, s.self.capacity_⟩⟩⟩
      else
        ⟨.threw, ⟨s.heap.write s.self.buffer_ r.blk, r.clock,
          ⟨s.self.buffer_, copy_size, s.self.capacity_⟩⟩⟩
    else
      let new_cap := max (twice s.self.capacity_) size
      match newArray E fails s.heap s.clock new_cap with
      | none => ⟨.threw, ⟨s.heap, s.clock + 1, ⟨copy_buffer, copy_size, copy_capacity⟩⟩⟩
      | some (new_buffer, h1) =>
        let x := transferLoop E fails s.self.size_ 0 (h1.read s.self.buffer_)
          (h1.read (some new_buffer)) (s.clock + 1)
        let h2 := (h1.write s.self.buffer_ x.old).write (some new_buffer) x.new
        if x.ok then
          let r := fillLoop fails (value.get E x.old) (size - s.self.size_) s.self.size_ x.new
            x.clock
          let h3 := h2.write (some new_buffer) r.blk
          if r.ok then
            ⟨.returned, ⟨h3.free copy_buffer, r.clock, ⟨some new_buffer, size, new_cap⟩⟩⟩
          else
            ⟨.threw, ⟨h3.free (some new_buffer), r.clock,
              ⟨copy_buffer, copy_size, copy_capacity⟩⟩⟩
        else
          ⟨.threw, ⟨h2.free (some new_buffer), x.clock, ⟨copy_buffer, copy_size, copy_capacity⟩⟩⟩

/-- The member `Resize(size_t size)`: as above with `T()` for the value; building `T()` and
assigning it is one fallible step. -/
def ResizeDefault {T : Type} (E : ElemTraits T) (fails : Nat → Bool) (s : State T) (size : Nat) :
    Result T :=
  if size = s.self.size_ then ⟨.returned, s⟩
  else
    let copy_buffer := s.self.buffer_
    let copy_size := s.self.size_
    let copy_capacity := s.self.capacity_
    if size ≤ s.self.capacity_ then
      let r := fillLoop fails E.dflt (size - s.self.size_) s.self.size_
        (s.heap.read s.self.buffer_) s.clock
      if r.ok then
        ⟨.returned, ⟨s.heap.write s.self.buffer_ r.blk, r.clock,
          ⟨s.self.buffer_, size, s.self.capacity_⟩⟩⟩
      else
        ⟨.threw, ⟨s.heap.write s.self.buffer_ r.blk, r.clock,
          ⟨s.self.buffer_, copy_size, s.self.capacity_⟩⟩⟩
    else
      let new_cap := max (twice s.self.capacity_) size
      match newArray E fails s.heap s.clock new_cap with
      | none => ⟨.threw, ⟨s.heap, s.clock + 1, ⟨copy_buffer, copy_size, copy_capacity⟩⟩⟩
      | some (new_buffer, h1) =>
        let x := transferLoop E fails s.self.size_ 0 (h1.read s.self.buffer_)
          (h1.read (some new_buffer)) (s.clock + 1)
        let h2 := (h1.write s.self.buffer_ x.old).write (some new_buffer) x.new
        if x.ok then
          let r := fillLoop fails E.dflt (size - s.self.size_) s.self.size_ x.new x.clock
          let h3 := h2.write (some new_buffer) r.blk
          if r.ok then
            ⟨.returned, ⟨h3.free copy_buffer, r.clock, ⟨some new_buffer, size, new_cap⟩⟩⟩
          else
            ⟨.threw, ⟨h3.free (some new_buffer), r.clock,
              ⟨copy_buffer, copy_size, copy_capacity⟩⟩⟩
        else
          ⟨.threw, ⟨h2.free (some new_buffer), x.clock, ⟨copy_buffer, copy_size, copy_capacity⟩⟩⟩

/-- The constructor `Vector(size_t size)`: `Resize(size)` on the initial members. -/
def sizedCtor {T : Type} (E : ElemTraits T) (fails : Nat → Bool) (h : Heap T) (clk : Nat)
    (size : Nat) : Result T :=
  ResizeDefault E fails ⟨h, clk, Vector.init⟩ size

/-- The constructor `Vector(size_t size, const T& value)`: `Resize(size, value)` on the initial
members. The object under construction has no slot yet, so `value` is an object outside it. -/
def sizedValueCtor {T : Type} (E : ElemTraits T) (fails : Nat → Bool) (h : Heap T) (clk : Nat)
    (size : Nat) (value : T) : Result T :=
  Resize E fails ⟨h, clk, Vector.init⟩ size (.val value)

/-- The member `Reserve(size_t capacity)`. -/
def Reserve {T : Type} (E : ElemTraits T) (fails : Nat → Bool) (s : State T) (capacity : Nat) :
    Result T :=
  if capacity ≤ s.self.capacity_ then ⟨.returned, s⟩
  else
    let copy_size := s.self.size_
    let copy_capacity := s.self.capacity_
    let copy_buffer := s.self.buffer_
    if s.self.capacity_ < capacity then
      match newArray E fails s.heap s.clock capacity with
      | none => ⟨.threw, ⟨s.heap, s.clock + 1, ⟨copy_buffer, copy_size, copy_capacity⟩⟩⟩
      | some (new_buffer, h1) =>
        let x := transferLoop E fails s.self.size_ 0 (h1.read s.self.buffer_)
          (h1.read (some new_buffer)) (s.clock + 1)
        let h2 := (h1.write s.self.buffer_ x.old).write (some new_buffer) x.new
        if x.ok then
          ⟨.returned, ⟨h2.free copy_buffer, x.clock, ⟨some new_buffer, s.self.size_, capacity⟩⟩⟩
        else
          ⟨.threw, ⟨h2.free (some new_buffer), x.clock, ⟨copy_buffer, copy_size, copy_capacity⟩⟩⟩
    else ⟨.returned, ⟨s.heap, s.clock, ⟨s.self.buffer_, s.self.size_, capacity⟩⟩⟩

/-- The member `ShrinkToFit()`. -/
def ShrinkToFit {T : Type} (E : ElemTraits T) (fails : Nat → Bool) (s : State T) : Result T :=
  if s.self.size_ = s.self.capacity_ then ⟨.returned, s⟩
  else
    let copy_size := s.self.size_
    let copy_capacity := s.self.capacity_
    let copy_buffer := s.self.buffer_
    if s.self.size_ = 0 then
      -- `new_buffer = nullptr` and the loop body never runs
      ⟨.returned, ⟨s.heap.free copy_buffer, s.clock, ⟨none, s.self.size_, s.self.size_⟩⟩⟩
    else
      match newArray E fails s.heap s.clock s.self.size_ with
      | none => ⟨.threw, ⟨s.heap, s.clock + 1, ⟨copy_buffer, copy_size, copy_capacity⟩⟩⟩
      | some (new_buffer, h1) =>
        let x := transferLoop E fails s.self.size_ 0 (h1.read s.self.buffer_)
          (h1.read (some new_buffer)) (s.clock + 1)
        let h2 := (h1.write s.self.buffer_ x.old).write (some new_buffer) x.new
        if x.ok then
          ⟨.returned, ⟨h2.free copy_buffer, x.clock,
            ⟨some new_buffer, s.self.size_, s.self.size_⟩⟩⟩
        else
          ⟨.threw, ⟨h2.free (some new_buffer), x.clock, ⟨copy_buffer, copy_size, copy_capacity⟩⟩⟩

/-- The member `Clear()`. -/
def Clear {T : Type} (s : State T) : State T :=
  ⟨s.heap, s.clock, ⟨s.self.buffer_, 0, s.self.capacity_⟩⟩

/-- The member `PopBack()`: `--size_`. -/
def PopBack {T : Type} (s : State T) : State T :=
  ⟨s.heap, s.clock, ⟨s.self.buffer_, decr s.self.size_, s.self.capacity_⟩⟩

/-- The member `PushBack(const T& value)`. Each branch reads `value` once, in the assignment that
stores it; in the growth branch that is after the elements have been transferred out of the old
block. -/
def PushBack {T : Type} (E : ElemTraits T) (fails : Nat → Bool) (s : State T) (value : Arg T) :
    Result T :=
  let copy_buffer := s.self.buffer_
  let copy_size := s.self.size_
  let copy_capacity := s.self.capacity_
  if s.self.capacity_ = 0 then
    match newArray E fails s.heap s.clock 1 with
    | none =>
      -- handler: `delete buffer_; buffer_ = nullptr;` and no rethrow
      ⟨.returned, ⟨s.heap.free s.self.buffer_, s.clock + 1,
        ⟨none, s.self.size_, s.self.capacity_⟩⟩⟩
    | some (p, h1) =>
      if fails (s.clock + 1) then
        -- `buffer_[0] = value` threw; same handler, `buffer_` is the new block
        ⟨.returned, ⟨h1.free (some p), s.clock + 2, ⟨none, s.self.size_, s.self.capacity_⟩⟩⟩
      else
        ⟨.returned, ⟨h1.write (some p) ((h1.read (some p)).set 0 (value.get E (h1.read copy_buffer))),
          s.clock + 2, ⟨some p, incr s.self.size_, incr s.self.capacity_⟩⟩⟩
  else if s.self.size_ < s.self.capacity_ then
    if fails s.clock then
      ⟨.threw, ⟨s.heap, s.clock + 1, ⟨s.self.buffer_, copy_size, s.self.capacity_⟩⟩⟩
    else
      ⟨.returned, ⟨s.heap.write s.self.buffer_
          ((s.heap.read s.self.buffer_).set s.self.size_ (value.get E (s.heap.read s.self.buffer_))),
        s.clock + 1, ⟨s.self.buffer_, incr s.self.size_, s.self.capacity_⟩⟩⟩
  else
    let new_cap := twice s.self.capacity_
    match newArray E fails s.heap s.clock new_cap with
    | none => ⟨.threw, ⟨s.heap, s.clock + 1, ⟨copy_buffer, copy_size, copy_capacity⟩⟩⟩
    | some (new_buffer, h1) =>
      let x := transferLoop E fails s.self.size_ 0 (h1.read s.self.buffer_)
        (h1.read (some new_buffer)) (s.clock + 1)
      let h2 := (h1.write s.self.buffer_ x.old).write (some new_buffer) x.new
      if x.ok then
        if fails x.clock then
          ⟨.threw, ⟨h2.free (some new_buffer), x.clock + 1,
            ⟨copy_buffer, copy_size, copy_capacity⟩⟩⟩
        else
          ⟨.returned, ⟨(h2.write (some new_buffer)
              (x.new.set s.self.size_ (value.get E x.old))).free copy_buffer,
            x.clock + 1, ⟨some new_buffer, incr s.self.size_, new_cap⟩⟩⟩
      else
        ⟨.threw, ⟨h2.free (some new_buffer), x.clock, ⟨copy_buffer, copy_size, copy_capacity⟩⟩⟩

/-- Whether the move assignment of the pushed value throws at clock `clk`: never for a type with
a non-throwing move. -/
def moveFails {T : Type} (E : ElemTraits T) (fails : Nat → Bool) (clk : Nat) : Bool :=
  !E.nothrowMove && fails clk

/-- The clock after the move assignment of the pushed value. -/
def moveClock {T : Type} (E : ElemTraits T) (clk : Nat) : Nat :=
  if E.nothrowMove then clk else clk + 1

/-- The member `PushBack(T&& value)`: as the copy overload, with `std::move(value)` assigned. The
move takes the value out of the object behind `value`; when that object is a slot of the
container, the slot is left moved-from. What the move leaves in an object outside the container
is not part of the state. -/
def PushBackMove {T : Type} (E : ElemTraits T) (fails : Nat → Bool) (s : State T) (value : Arg T) :
    Result T :=
  let copy_buffer := s.self.buffer_
  let copy_size := s.self.size_
  let copy_capacity := s.self.capacity_
  if s.self.capacity_ = 0 then
    match newArray E fails s.heap s.clock 1 with
    | none =>
      ⟨.returned, ⟨s.heap.free s.self.buffer_, s.clock + 1,
        ⟨none, s.self.size_, s.self.capacity_⟩⟩⟩
    | some (p, h1) =>
      if moveFails E fails (s.clock + 1) then
        ⟨.returned, ⟨h1.free (some p), moveClock E (s.clock + 1),
          ⟨none, s.self.size_, s.self.capacity_⟩⟩⟩
      else
        ⟨.returned, ⟨(h1.write (some p)
            ((h1.read (some p)).set 0 (value.get E (h1.read copy_buffer)))).write copy_buffer
              (value.moved E (h1.read copy_buffer)),
          moveClock E (s.clock + 1), ⟨some p, incr s.self.size_, incr s.self.capacity_⟩⟩⟩
  else if s.self.size_ < s.self.capacity_ then
    if moveFails E fails s.clock then
      ⟨.threw, ⟨s.heap, moveClock E s.clock, ⟨s.self.buffer_, copy_size, s.self.capacity_⟩⟩⟩
    else
      ⟨.returned, ⟨s.heap.write s.self.buffer_
          (value.moved E ((s.heap.read s.self.buffer_).set s.self.size_
            (value.get E (s.heap.read s.self.buffer_)))),
        moveClock E s.clock, ⟨s.self.buffer_, incr s.self.size_, s.self.capacity_⟩⟩⟩
  else
    let new_cap := twice s.self.capacity_
    match newArray E fails s.heap s.clock new_cap with
    | none => ⟨.threw, ⟨s.heap, s.clock + 1, ⟨copy_buffer, copy_size, copy_capacity⟩⟩⟩
    | some (new_buffer, h1) =>
      let x := transferLoop E fails s.self.size_ 0 (h1.read s.self.buffer_)
        (h1.read (some new_buffer)) (s.clock + 1)
      let h2 := (h1.write s.self.buffer_ x.old).write (some new_buffer) x.new
      if x.ok then
        if moveFails E fails x.clock then
          ⟨.threw, ⟨h2.free (some new_buffer), moveClock E x.clock,
            ⟨copy_buffer, copy_size, copy_capacity⟩⟩⟩
        else
          ⟨.returned, ⟨((h2.write (some new_buffer)
              (x.new.set s.self.size_ (value.get E x.old))).write copy_buffer
                (value.moved E x.old)).free copy_buffer,
            moveClock E x.clock, ⟨some new_buffer, incr s.self.size_, new_cap⟩⟩⟩
      else
        ⟨.threw, ⟨h2.free (some new_buffer), x.clock, ⟨copy_buffer, copy_size, copy_capacity⟩⟩⟩

/-! ## Well-formed objects -/

/-- Pointer `p` owns a live block of exactly `cap` slots; `nullptr` owns nothing, and goes with
capacity `0` only. -/
def Owns {T : Type} (h : Heap T) (p : Option Nat) (cap : Nat) : Prop :=
  match p with
  | none => cap = 0
  | some a => 0 < cap ∧ (h.block a).map List.length = some cap

instance Owns.decide {T : Type} (h : Heap T) (cap : Nat) : (p : Option Nat) → Decidable (Owns h p cap)
  | none => inferInstanceAs (Decidable (cap = 0))
  | some a => inferInstanceAs (Decidable (0 < cap ∧ (h.block a).map List.length = some cap))

/-- The data-model invariant of a `Vector` living in heap `h`: `size_ <= capacity_`, the capacity
is one an array `new` can have delivered, and `buffer_` owns a block of `capacity_` slots. -/
def WF {T : Type} (h : Heap T) (v : Vector) : Prop :=
  v.size_ ≤ v.capacity_ ∧ v.capacity_ ≤ MAX_ARRAY_LEN ∧ Owns h v.buffer_ v.capacity_

instance WF.decide {T : Type} (h : Heap T) (v : Vector) : Decidable (WF h v) :=
  inferInstanceAs (Decidable (_ ∧ _ ∧ _))

/-- No fallible step fails from clock `clk` on. -/
def NoFault (fails : Nat → Bool) (clk : Nat) : Prop := ∀ j, clk ≤ j → fails j = false

/-- Some fallible step attempted at a clock value in `[c0, c1)` failed. -/
def FaultIn (fails : Nat → Bool) (c0 c1 : Nat) : Prop := ∃ j, c0 ≤ j ∧ j < c1 ∧ fails j = true

/-- The values `src[i], ..., src[i + k - 1]` as the indexing of the loops reads them. -/
def window {T : Type} (E : ElemTraits T) (src : List T) : (k i : Nat) → List T
  | 0, _ => []
  | k + 1, i => src.getD i E.dflt :: window E src k (i + 1)

/-! ## The common shape of the in-place and the reallocating paths

`Resize`, `Reserve`, `ShrinkToFit` and both `PushBack` overloads share two code shapes: write into
the spare slots of the current block, or allocate a block, transfer the live elements, write the
new slots and commit. `inplace` and `regrow` are these shapes with the slot-writing step `fill`
left open; the member functions above are proved equal to instances of them. A call whose
argument is an element of the container is proved equal to the call with an outside argument
holding the value the element has when the member reads it (`pushArgBlock`, `resizeArgBlock`). -/

/-- Write new slots into the current block with `fill`; commit the new size on success. -/
def inplace {T : Type} (fill : List T → Nat → FillRes T) (s : State T) (sizeAfter : Nat) :
    Result T :=
  let r := fill (s.heap.read s.self.buffer_) s.clock
  if r.ok then
    ⟨.returned, ⟨s.heap.write s.self.buffer_ r.blk, r.clock,
      ⟨s.self.buffer_, sizeAfter, s.self.capacity_⟩⟩⟩
  else ⟨.threw, ⟨s.heap.write s.self.buffer_ r.blk, r.clock, s.self⟩⟩

/-- Allocate `new_cap` slots, transfer the live elements, write new slots with `fill`, then commit
and release the old block; on any failure release the new block and keep the old members. -/
def regrow {T : Type} (E : ElemTraits T) (fails : Nat → Bool) (fill : List T → Nat → FillRes T)
    (s : State T) (new_cap sizeAfter : Nat) : Result T :=
  match newArray E fails s.heap s.clock new_cap with
  | none => ⟨.threw, ⟨s.heap, s.clock + 1, s.self⟩⟩
  | some (new_buffer, h1) =>
    let x := transferLoop E fails s.self.size_ 0 (h1.read s.self.buffer_)
      (h1.read (some new_buffer)) (s.clock + 1)
    let h2 := (h1.write s.self.buffer_ x.old).write (some new_buffer) x.new
    if x.ok then
      let r := fill x.new x.clock
      let h3 := h2.write (some new_buffer) r.blk
      if r.ok then
        ⟨.returned, ⟨h3.free s.self.buffer_, r.clock, ⟨some new_buffer, sizeAfter, new_cap⟩⟩⟩
      else ⟨.threw, ⟨h3.free (some new_buffer), r.clock, s.self⟩⟩
    else ⟨.threw, ⟨h2.free (some new_buffer), x.clock, s.self⟩⟩

/-- The single assignment `blk[i] = value` of `PushBack(const T&)`, a fallible copy. -/
def copyStep {T : Type} (fails : Nat → Bool) (i : Nat) (value : T) (blk : List T) (clk : Nat) :
    FillRes T :=
  if fails clk then ⟨false, blk, clk + 1⟩ else ⟨true, blk.set i value, clk + 1⟩

/-- The single assignment `blk[i] = std::move(value)` of `PushBack(T&&)`. -/
def moveStep {T : Type} (E : ElemTraits T) (fails : Nat → Bool) (i : Nat) (value : T)
    (blk : List T) (clk : Nat) : FillRes T :=
  if moveFails E fails clk then ⟨false, blk, moveClock E clk⟩
  else ⟨true, blk.set i value, moveClock E clk⟩

/-- The single assignment `blk[i] = std::move(value)` of `PushBack(T&&)` in the block `value` may
refer into. -/
def moveStepArg {T : Type} (E : ElemTraits T) (fails : Nat → Bool) (i : Nat) (value : Arg T)
    (blk : List T) (clk : Nat) : FillRes T :=
  if moveFails E fails clk then ⟨false, blk, moveClock E clk⟩
  else ⟨true, value.moved E (blk.set i (value.get E blk)), moveClock E clk⟩

/-- The capacity-zero branch of `PushBack`, with the assignment of the value left open as `fill`:
a failure is caught and not rethrown. -/
def pushZero {T : Type} (E : ElemTraits T) (fails : Nat → Bool) (fill : List T → Nat → FillRes T)
    (s : State T) : Result T :=
  match newArray E fails s.heap s.clock 1 with
  | none =>
    ⟨.returned, ⟨s.heap.free s.self.buffer_, s.clock + 1, ⟨none, s.self.size_, s.self.capacity_⟩⟩⟩
  | some (p, h1) =>
    let r := fill (h1.read (some p)) (s.clock + 1)
    if r.ok then
      ⟨.returned, ⟨h1.write (some p) r.blk, r.clock,
        ⟨some p, incr s.self.size_, incr s.self.capacity_⟩⟩⟩
    else ⟨.returned, ⟨h1.free (some p), r.clock, ⟨none, s.self.size_, s.self.capacity_⟩⟩⟩

/-- The three branches of `PushBack`, with the assignment of the value at index `i` left open as
`fill i`. -/
def pushCore {T : Type} (E : ElemTraits T) (fails : Nat → Bool)
    (fill : Nat → List T → Nat → FillRes T) (s : State T) : Result T :=
  if s.self.capacity_ = 0 then pushZero E fails (fill 0) s
  else if s.self.size_ < s.self.capacity_ then inplace (fill s.self.size_) s (incr s.self.size_)
  else regrow E fails (fill s.self.size_) s (twice s.self.capacity_) (incr s.self.size_)

/-- The old block after the transfer loop has run over its first `k` slots: moved-from values with
a non-throwing move, the block as it was when the transfer copies. -/
def transferred {T : Type} (E : ElemTraits T) (k : Nat) (blk : List T) : List T :=
  if E.nothrowMove then (blk.take k).map E.movedFrom ++ blk.drop k else blk

/-- The content of the container's block at the moment `PushBack` reads its argument. -/
def pushArgBlock {T : Type} (E : ElemTraits T) (s : State T) : List T :=
  if s.self.capacity_ = 0 ∨ s.self.size_ < s.self.capacity_ then s.heap.read s.self.buffer_
  else transferred E s.self.size_ (s.heap.read s.self.buffer_)

/-- The content of the container's block at the moment `Resize(size, value)` reads its
argument. -/
def resizeArgBlock {T : Type} (E : ElemTraits T) (s : State T) (size : Nat) : List T :=
  if size ≤ s.self.capacity_ then s.heap.read s.self.buffer_
  else transferred E s.self.size_ (s.heap.read s.self.buffer_)

/-- What the proofs use of a slot-writing step `fill` that stores `vals` from index `i` on. -/
structure FillSpec {T : Type} (fails : Nat → Bool) (fill : List T → Nat → FillRes T) (i : Nat)
    (vals : List T) : Prop where
  length : ∀ blk clk, (fill blk clk).blk.length = blk.length
  clock_le : ∀ blk clk, clk ≤ (fill blk clk).clock
  take : ∀ blk clk, (fill blk clk).blk.take i = blk.take i
  ok_blk : ∀ blk clk, (fill blk clk).ok = true → i + vals.length ≤ blk.length →
    (fill blk clk).blk = blk.take i ++ vals ++ blk.drop (i + vals.length)
  ok_iff : ∀ blk clk, (fill blk clk).ok = true ↔ ¬ FaultIn fails clk (fill blk clk).clock

/-- Heap `h'` extends heap `h` and agrees with it on every old block except the one behind
`own`. -/
def Frame {T : Type} (h h' : Heap T) (own : Option Nat) : Prop :=
  h.length ≤ h'.length ∧ ∀ a, a < h.length → own ≠ some a → h'.block a = h.block a

/-- What every member function guarantees of its result, whatever the outcome: the object is
well formed, blocks of other objects are untouched, and `buffer_` is the old pointer, `nullptr`
or a freshly allocated block. -/
def Sound {T : Type} (s : State T) (r : Result T) : Prop :=
  WF r.st.heap r.st.self ∧ Frame s.heap r.st.heap s.self.buffer_ ∧ s.clock ≤ r.st.clock ∧
  (r.st.self.buffer_ = s.self.buffer_ ∨ r.st.self.buffer_ = none ∨
    ∃ a, r.st.self.buffer_ = some a ∧ s.heap.length ≤ a)

/-- The write `v[idx] = x` through the reference `operator[]` returns. -/
def storeIndex {T : Type} (s : State T) (idx : Nat) (x : T) : State T :=
  ⟨s.heap.write s.self.buffer_ ((s.heap.read s.self.buffer_).set idx x), s.clock, s.self⟩

/-! ## Programs over several objects

A world holds the heap, the clock and the `Vector` objects alive so far; an object is named by
its position in `objs`, which plays the role of its address. -/

/-- The heap, the clock and the objects constructed so far. -/
structure World (T : Type) where
  heap : Heap T
  clock : Nat
  objs : List Vector
  deriving DecidableEq, Repr

/-- The public operations a program can apply. -/
inductive Op (T : Type) where
  | defaultCtor
  | copyCtor (src : Nat)
  | moveCtor (src : Nat)
  | initListCtor (vals : List T)
  | rangeCtor (vals : List T)
  | sizedCtor (n : Nat)
  | sizedValueCtor (n : Nat) (x : T)
  | copyAssign (dst src : Nat)
  | moveAssign (dst src : Nat)
  | reserve (i n : Nat)
  | shrinkToFit (i : Nat)
  | resize (i n : Nat) (x : Arg T)
  | resizeDefault (i n : Nat)
  | clear (i : Nat)
  | pushBack (i : Nat) (x : Arg T)
  | pushBackMove (i : Nat) (x : Arg T)
  | popBack (i : Nat)
  | swap (i j : Nat)
  | store (i idx : Nat) (x : T)

/-- Run a member function on object `i` and store the object back. -/
def World.member {T : Type} (w : World T) (i : Nat) (f : State T → Result T) : World T :=
  match w.objs.get? i with
  | none => w
  | some v =>
    let r := f ⟨w.heap, w.clock, v⟩
    ⟨r.st.heap, r.st.clock, w.objs.set i r.st.self⟩

/-- Record the result of a constructor call: a new object exists only if the constructor
returned. -/
def World.construct {T : Type} (w : World T) (r : Result T) : World T :=
  match r.outcome with
  | .returned => ⟨r.st.heap, r.st.clock, w.objs ++ [r.st.self]⟩
  | .threw => ⟨r.st.heap, r.st.clock, w.objs⟩

/-- One call of a public operation. A call on an object that does not exist does nothing. -/
def step {T : Type} (E : ElemTraits T) (fails : Nat → Bool) (w : World T) : Op T → World T
  | .defaultCtor => ⟨w.heap, w.clock, w.objs ++ [(defaultCtor w.heap w.clock).self]⟩
  | .copyCtor src =>
    match w.objs.get? src with
    | none => w
    | some o => w.construct (copyCtor E fails w.heap w.clock o)
  | .moveCtor src =>
    match w.objs.get? src with
    | none => w
    | some o => ⟨w.heap, w.clock, w.objs.set src (moveCtor o).2 ++ [(moveCtor o).1]⟩
  | .initListCtor vals => w.construct (initListCtor E fails w.heap w.clock vals)
  | .rangeCtor vals => w.construct (rangeCtor E fails w.heap w.clock vals)
  | .sizedCtor n => w.construct (sizedCtor E fails w.heap w.clock n)
  | .sizedValueCtor n x => w.construct (sizedValueCtor E fails w.heap w.clock n x)
  | .copyAssign dst src =>
    match w.objs.get? src with
    | none => w
    | some o => w.member dst (fun s => copyAssign E fails s dst src o)
  | .moveAssign dst src =>
    match w.objs.get? dst, w.objs.get? src with
    | some d, some o =>
      let m := moveAssign ⟨w.heap, w.clock, d⟩ dst src o
      ⟨m.1.heap, m.1.clock, (w.objs.set src m.2).set dst m.1.self⟩
    | _, _ => w
  | .reserve i n => w.member i (fun s => Reserve E fails s n)
  | .shrinkToFit i => w.member i (fun s => ShrinkToFit E fails s)
  | .resize i n x => w.member i (fun s => Resize E fails s n x)
  | .resizeDefault i n => w.member i (fun s => ResizeDefault E fails s n)
  | .clear i => w.member i (fun s => ⟨.returned, Clear s⟩)
  | .pushBack i x => w.member i (fun s => PushBack E fails s x)
  | .pushBackMove i x => w.member i (fun s => PushBackMove E fails s x)
  | .popBack i => w.member i (fun s => ⟨.returned, PopBack s⟩)
  | .swap i j =>
    match w.objs.get? i, w.objs.get? j with
    | some a, some b => ⟨w.heap, w.clock, (w.objs.set i (Swap a b).1).set j (Swap a b).2⟩
    | _, _ => w
  | .store i idx x => w.member i (fun s => ⟨.returned, storeIndex s idx x⟩)

/-- The precondition of a call: `PopBack` needs a non-empty container, and a write through
`operator[]` an index below `size()`. -/
def Op.valid {T : Type} (w : World T) : Op T → Prop
  | .popBack i => ∀ v, w.objs.get? i = some v → v.size_ ≠ 0
  | .store i idx _ => ∀ v, w.objs.get? i = some v → idx < v.size_
  | _ => True

/-- Run a program. -/
def run {T : Type} (E : ElemTraits T) (fails : Nat → Bool) (w : World T) : List (Op T) → World T
  | [] => w
  | op :: rest => run E fails (step E fails w op) rest

/-- Every call of the program meets its precondition in the world it is applied to. -/
def ValidFrom {T : Type} (E : ElemTraits T) (fails : Nat → Bool) (w : World T) :
    List (Op T) → Prop
  | [] => True
  | op :: rest => op.valid w ∧ ValidFrom E fails (step E fails w op) rest

/-- The world holding one default-constructed `Vector`. -/
def World.initial {T : Type} : World T := ⟨[], 0, [(defaultCtor ([] : Heap T) 0).self]⟩

/-- The invariant of a world: every object is well formed and no block has two owners. -/
def Inv {T : Type} (w : World T) : Prop :=
  (∀ i v, w.objs.get? i = some v → WF w.heap v) ∧
  (∀ i j vi vj a, i ≠ j → w.objs.get? i = some vi → w.objs.get? j = some vj →
    vi.buffer_ = some a → vj.buffer_ ≠ some a)

/-! ## Concrete element types and oracles used in examples -/

/-- The element type `int`: moving is copying and cannot throw. -/
def intTraits : ElemTraits Int := ⟨0, true, id, fun a b => decide (a < b)⟩

/-- An element type like `std::string`: the move cannot throw and leaves its source empty, the
copy may throw. -/
def stringTraits : ElemTraits String := ⟨"", true, fun _ => "", fun a b => decide (a < b)⟩

/-- The oracle under which nothing fails. -/
def never : Nat → Bool := fun _ => false

/-- The oracle under which exactly the fallible step at clock `k` fails. -/
def failAt (k : Nat) : Nat → Bool := fun j => j == k

/-- The object a mutating member call works on, for the calls that involve one object only. -/
def Op.target {T : Type} : Op T → Option Nat
  | .reserve i _ => some i
  | .shrinkToFit i => some i
  | .resize i _ _ => some i
  | .resizeDefault i _ => some i
  | .clear i => some i
  | .pushBack i _ => some i
  | .pushBackMove i _ => some i
  | .popBack i => some i
  | .store i _ _ => some i
  | _ => none

/-! ## Comparison operators -/

/-- The algorithm `std::lexicographical_compare` on the two ranges, with `lt` for `operator<` of
the elements. -/
def lexicographical_compare {T : Type} (lt : T → T → Bool) : List T → List T → Bool
  | [], [] => false
  | [], _ :: _ => true
  | _ :: _, [] => false
  | x :: xs, y :: ys =>
    if lt x y then true
    else if lt y x then false
    else lexicographical_compare lt xs ys

/-- The operator `first < second` on the ranges `[buffer_, buffer_ + size_)`. -/
def opLt {T : Type} (E : ElemTraits T) (h : Heap T) (first second : Vector) : Bool :=
  lexicographical_compare E.lt (elems h first) (elems h second)

/-- The operator `first > second`. -/
def opGt {T : Type} (E : ElemTraits T) (h : Heap T) (first second : Vector) : Bool :=
  lexicographical_compare E.lt (elems h second) (elems h first)

/-- The operator `first <= second`: `!(first > second)`. -/
def opLe {T : Type} (E : ElemTraits T) (h : Heap T) (first second : Vector) : Bool :=
  !(opGt E h first second)

/-- The operator `first >= second`: `!(first < second)`. -/
def opGe {T : Type} (E : ElemTraits T) (h : Heap T) (first second : Vector) : Bool :=
  !(opLt E h first second)

/-- The operator `first == second`: `first <= second && second <= first`. -/
def opEq {T : Type} (E : ElemTraits T) (h : Heap T) (first second : Vector) : Bool :=
  opLe E h first second && opLe E h second first

/-- The operator `first != second`: `!(first == second)`. -/
def opNe {T : Type} (E : ElemTraits T) (h : Heap T) (first second : Vector) : Bool :=
  !(opEq E h first second)

/-- The lexicographic order of two sequences in the words of the specification: at the first
position where the two elements differ under the ordering the left one is smaller, or there is
no such position below both lengths and the left sequence is shorter. -/
def LexBefore {T : Type} (lt : T → T → Bool) (a b : List T) : Prop :=
  (∃ i x y, a.get? i = some x ∧ b.get? i = some y ∧ lt x y = true ∧
    ∀ j u v, j < i → a.get? j = some u → b.get? j = some v → lt u v = false ∧ lt v u = false) ∨
  ((∀ j u v, a.get? j = some u → b.get? j = some v → lt u v = false ∧ lt v u = false) ∧
    a.length < b.length)

/-- The ordering `lt` is a strict total order. -/
def StrictTotal {T : Type} (lt : T → T → Bool) : Prop :=
  (∀ x, lt x x = false) ∧ (∀ x y, lt x y = true → lt y x = false) ∧
  (∀ x y, lt x y = false → lt y x = false → x = y)

/-- An element type whose ordering looks at the first component only, while its equality
compares both components. -/
def keyedTraits : ElemTraits (Int × Int) :=
  ⟨(0, 0), true, id, fun a b => decide (a.1 < b.1)⟩

/-! ## Runs of `PushBack` calls -/

/-- The state after the calls `PushBack(x)` for the arguments `x` of the list, in order. -/
def pushMany {T : Type} (E : ElemTraits T) (fails : Nat → Bool) : State T → List (Arg T) → State T
  | s, [] => s
  | s, x :: xs => pushMany E fails (PushBack E fails s x).st xs

/-- A call of `PushBack` is successful when it returns and no step inside it failed. -/
def PushSucceeds {T : Type} (E : ElemTraits T) (fails : Nat → Bool) (s : State T) (x : Arg T) :
    Prop :=
  (PushBack E fails s x).outcome = .returned ∧
    ¬ FaultIn fails s.clock (PushBack E fails s x).st.clock

/-- Every call of the run is successful. -/
def PushesSucceed {T : Type} (E : ElemTraits T) (fails : Nat → Bool) :
    State T → List (Arg T) → Prop
  | _, [] => True
  | s, x :: xs => PushSucceeds E fails s x ∧ PushesSucceed E fails (PushBack E fails s x).st xs

/-! ## Lemmas -/

variable {T : Type}

theorem Heap.block_lt {h : Heap T} {a : Nat} {blk : List T} (hb : h.block a = some blk) :
    a < h.length := by
  by_contra hn
  have : h[a]? = none := List.getElem?_eq_none (by omega)
  simp [Heap.block, this] at hb

theorem Heap.block_write (h : Heap T) (a b : Nat) (blk : List T) :
    (h.write (some a) blk).block b = if b = a ∧ a < h.length then some blk else h.block b := by
  by_cases hab : b = a
  · subst hab
    by_cases hl : b < h.length
    · simp [Heap.block, Heap.write, List.getElem?_set, hl]
    · have e1 : (h.set b (some blk))[b]? = none := List.getElem?_eq_none (by simp; omega)
      simp [Heap.block, Heap.write, hl, List.getElem?_eq_none (show h.length ≤ b by omega), e1]
  · have : ¬ a = b := fun e => hab e.symm
    simp [Heap.block, Heap.write, List.getElem?_set, hab, this]

theorem Heap.block_free (h : Heap T) (a b : Nat) :
    (h.free (some a)).block b = if b = a then none else h.block b := by
  by_cases hab : b = a
  · subst hab
    simp [Heap.block, Heap.free, List.getElem?_set]
  · have : ¬ a = b := fun e => hab e.symm
    simp [Heap.block, Heap.free, List.getElem?_set, hab, this]

theorem Heap.block_append (h : Heap T) (x : Option (List T)) (b : Nat) :
    Heap.block (h ++ [x]) b =
      if b < h.length then h.block b else if b = h.length then x else none := by
  by_cases hb : b < h.length
  · simp [Heap.block, List.getElem?_append_left hb, hb]
  · by_cases hb2 : b = h.length
    · subst hb2; simp [Heap.block]
    · simp [Heap.block, hb, hb2, List.getElem?_eq_none (show (h ++ [x]).length ≤ b by simp; omega)]

theorem Heap.block_ge (h : Heap T) (b : Nat) (hb : h.length ≤ b) : h.block b = none := by
  simp [Heap.block, List.getElem?_eq_none hb]

theorem Heap.read_some (h : Heap T) (a : Nat) : h.read (some a) = (h.block a).getD [] := rfl

theorem Heap.read_none (h : Heap T) : h.read none = [] := rfl

theorem Heap.write_none (h : Heap T) (blk : List T) : h.write none blk = h := rfl

theorem Heap.free_none (h : Heap T) : h.free none = h := rfl

theorem Heap.length_write (h : Heap T) (p : Option Nat) (blk : List T) :
    (h.write p blk).length = h.length := by
  cases p <;> simp [Heap.write]

theorem Heap.length_free (h : Heap T) (p : Option Nat) :
    (h.free p).length = h.length := by
  cases p <;> simp [Heap.free]

/-! ### Loop lemmas -/

theorem take_set_le (l : List T) (a : T) {n m : Nat} (h : m ≤ n) :
    (l.set n a).take m = l.take m := by
  apply List.ext_getElem?
  intro j
  simp only [List.getElem?_take]
  split
  · rw [List.getElem?_set_ne (by omega)]
  · rfl

theorem take_succ_set (l : List T) (a : T) {n : Nat} (h : n < l.length) :
    (l.set n a).take (n + 1) = l.take n ++ [a] := by
  rw [List.set_eq_take_append_cons_drop, if_pos h]
  have h1 : (l.take n).length = n := by simp; omega
  rw [List.take_append_eq_append_take]
  simp [h1]

theorem initLoop_length (fails : Nat → Bool) (vals : List T) (i : Nat) (blk : List T) (clk : Nat) :
    (initLoop fails vals i blk clk).blk.length = blk.length := by
  induction vals generalizing i blk clk with
  | nil => simp [initLoop]
  | cons x xs ih =>
    simp only [initLoop]
    split
    · rfl
    · rw [ih]; simp

theorem initLoop_take (fails : Nat → Bool) (vals : List T) (i : Nat) (blk : List T) (clk m : Nat)
    (hm : m ≤ i) : (initLoop fails vals i blk clk).blk.take m = blk.take m := by
  induction vals generalizing i blk clk with
  | nil => simp [initLoop]
  | cons x xs ih =>
    simp only [initLoop]
    split
    · rfl
    · rw [ih (i + 1) _ _ (by omega)]
      exact take_set_le _ _ hm

theorem initLoop_ok_blk (fails : Nat → Bool) (vals : List T) (i : Nat) (blk : List T) (clk : Nat)
    (hok : (initLoop fails vals i blk clk).ok = true) (hlen : i + vals.length ≤ blk.length) :
    (initLoop fails vals i blk clk).blk = blk.take i ++ vals ++ blk.drop (i + vals.length) := by
  induction vals generalizing i blk clk with
  | nil => simp [initLoop]
  | cons x xs ih =>
    simp only [initLoop] at hok ⊢
    simp only [List.length_cons] at hlen
    split at hok
    · simp at hok
    · rename_i hf
      rw [if_neg hf, ih (i + 1) _ _ hok (by simp; omega)]
      have hib : i < blk.length := by omega
      have hlt : i < i + 1 + xs.length := by omega
      rw [take_succ_set blk _ hib, List.drop_set_of_lt _ blk hlt]
      simp only [List.length_cons, List.append_assoc, List.singleton_append]
      congr 3
      omega

theorem initLoop_clock_le (fails : Nat → Bool) (vals : List T) (i : Nat) (blk : List T)
    (clk : Nat) : clk ≤ (initLoop fails vals i blk clk).clock := by
  induction vals generalizing i blk clk with
  | nil => simp [initLoop]
  | cons x xs ih =>
    simp only [initLoop]
    split
    · simp
    · have := ih (i + 1) (blk.set i x) (clk + 1)
      omega

theorem initLoop_ok_iff (fails : Nat → Bool) (vals : List T) (i : Nat) (blk : List T)
    (clk : Nat) :
    (initLoop fails vals i blk clk).ok = true ↔
      ∀ j, clk ≤ j → j < (initLoop fails vals i blk clk).clock → fails j = false := by
  induction vals generalizing i blk clk with
  | nil =>
    simp only [initLoop, true_iff]
    intro j h1 h2
    omega
  | cons x xs ih =>
    simp only [initLoop]
    split
    · rename_i hf
      simp only [Bool.false_eq_true, false_iff, not_forall]
      exact ⟨clk, by omega, by omega, by simp [hf]⟩
    · rename_i hf
      rw [ih]
      constructor
      · intro h j h1 h2
        by_cases hj : j = clk
        · subst hj; simpa using hf
        · exact h j (by omega) h2
      · intro h j h1 h2
        exact h j (by omega) h2

theorem initLoop_ok_clock (fails : Nat → Bool) (vals : List T) (i : Nat) (blk : List T)
    (clk : Nat) (hok : (initLoop fails vals i blk clk).ok = true) :
    (initLoop fails vals i blk clk).clock = clk + vals.length := by
  induction vals generalizing i blk clk with
  | nil => simp [initLoop]
  | cons x xs ih =>
    simp only [initLoop] at hok ⊢
    split at hok
    · simp at hok
    · rename_i hf
      rw [if_neg hf, ih _ _ _ hok]
      simp only [List.length_cons]
      omega

theorem initLoop_ok_of_never (fails : Nat → Bool) (vals : List T) (i : Nat) (blk : List T)
    (clk : Nat) (hn : ∀ j, clk ≤ j → fails j = false) :
    (initLoop fails vals i blk clk).ok = true :=
  (initLoop_ok_iff fails vals i blk clk).2 (fun j h1 _ => hn j h1)

theorem fillLoop_eq_initLoop (fails : Nat → Bool) (value : T) (k i : Nat) (blk : List T)
    (clk : Nat) :
    fillLoop fails value k i blk clk = initLoop fails (List.replicate k value) i blk clk := by
  induction k generalizing i blk clk with
  | zero => simp [fillLoop, initLoop]
  | succ k ih => simp only [fillLoop, List.replicate_succ, initLoop, ih]


theorem copyLoop_eq_initLoop (E : ElemTraits T) (fails : Nat → Bool) (src : List T) (k i : Nat)
    (dst : List T) (clk : Nat) :
    copyLoop E fails src k i dst clk = initLoop fails (window E src k i) i dst clk := by
  induction k generalizing i dst clk with
  | zero => simp [copyLoop, initLoop, window]
  | succ k ih => simp only [copyLoop, window, initLoop, ih]

theorem window_length (E : ElemTraits T) (src : List T) (k i : Nat) :
    (window E src k i).length = k := by
  induction k generalizing i with
  | zero => simp [window]
  | succ k ih => simp [window, ih]

theorem window_eq (E : ElemTraits T) (src : List T) (k i : Nat) (h : i + k ≤ src.length) :
    window E src k i = (src.drop i).take k := by
  induction k generalizing i with
  | zero => simp [window]
  | succ k ih =>
    rw [window, ih (i + 1) (by omega)]
    have hi : i < src.length := by omega
    rw [List.drop_eq_getElem_cons hi, List.take_succ_cons]
    simp [List.getD_eq_getElem?_getD, hi]

theorem window_set (E : ElemTraits T) (src : List T) (x : T) (k i j : Nat) (h : j < i) :
    window E (src.set j x) k i = window E src k i := by
  induction k generalizing i with
  | zero => simp [window]
  | succ k ih =>
    rw [window, window, ih (i + 1) (by omega)]
    congr 1
    simp [List.getD_eq_getElem?_getD, List.getElem?_set_ne (show j ≠ i by omega)]

theorem transferLoop_copy (E : ElemTraits T) (fails : Nat → Bool) (k i : Nat) (old new : List T)
    (clk : Nat) (hE : E.nothrowMove = false) :
    transferLoop E fails k i old new clk =
      ⟨(copyLoop E fails old k i new clk).ok, old, (copyLoop E fails old k i new clk).blk,
        (copyLoop E fails old k i new clk).clock⟩ := by
  induction k generalizing i new clk with
  | zero => simp [transferLoop, copyLoop]
  | succ k ih =>
    simp only [transferLoop, copyLoop, hE, Bool.false_eq_true, if_false]
    split
    · rfl
    · rw [ih]

theorem transferLoop_move (E : ElemTraits T) (fails : Nat → Bool) (k i : Nat) (old new : List T)
    (clk : Nat) (hE : E.nothrowMove = true) (ho : i + k ≤ old.length) (hn : i + k ≤ new.length) :
    transferLoop E fails k i old new clk =
      ⟨true, old.take i ++ (window E old k i).map E.movedFrom ++ old.drop (i + k),
        new.take i ++ window E old k i ++ new.drop (i + k), clk⟩ := by
  induction k generalizing i old new with
  | zero => simp [transferLoop, window]
  | succ k ih =>
    simp only [transferLoop, hE, if_true]
    rw [ih (i + 1) (old.set i (E.movedFrom (old.getD i E.dflt))) (new.set i (old.getD i E.dflt))
      (by simp; omega) (by simp; omega)]
    have hio : i < old.length := by omega
    have hin : i < new.length := by omega
    have hlt : i < i + 1 + k := by omega
    rw [take_succ_set old _ hio, take_succ_set new _ hin,
      List.drop_set_of_lt _ old hlt, List.drop_set_of_lt _ new hlt,
      window_set E old _ k (i + 1) i (Nat.lt_succ_self i)]
    have e : i + 1 + k = i + (k + 1) := by omega
    simp only [window, List.map_cons, List.append_assoc, List.singleton_append,
      List.cons_append, List.nil_append, e]


theorem newArray_ok (E : ElemTraits T) (fails : Nat → Bool) (h : Heap T) (clk n : Nat)
    (hf : fails clk = false) (hn : n ≤ MAX_ARRAY_LEN) :
    newArray E fails h clk n = some (h.length, h ++ [some (List.replicate n E.dflt)]) := by
  simp [newArray, hf]; omega

theorem Owns.zero {h : Heap T} {p : Option Nat} (ho : Owns h p 0) : p = none := by
  cases p with
  | none => rfl
  | some a => simp [Owns] at ho

theorem Owns.pos {h : Heap T} {p : Option Nat} {cap : Nat} (ho : Owns h p cap) (hc : cap ≠ 0) :
    ∃ a blk, p = some a ∧ h.block a = some blk ∧ blk.length = cap ∧ a < h.length := by
  cases p with
  | none => simp [Owns] at ho; omega
  | some a =>
    simp only [Owns, Option.map_eq_some'] at ho
    obtain ⟨_, blk, hb, hl⟩ := ho
    exact ⟨a, blk, rfl, hb, hl, Heap.block_lt hb⟩

/-- Summary of the transfer loop started at index `0`. -/
theorem transferLoop_zero (E : ElemTraits T) (fails : Nat → Bool) (k : Nat) (old new : List T)
    (clk : Nat) (ho : k ≤ old.length) (hn : k ≤ new.length) :
    (transferLoop E fails k 0 old new clk).old.length = old.length ∧
    (transferLoop E fails k 0 old new clk).new.length = new.length ∧
    clk ≤ (transferLoop E fails k 0 old new clk).clock ∧
    ((transferLoop E fails k 0 old new clk).ok = true →
      (transferLoop E fails k 0 old new clk).new = old.take k ++ new.drop k) ∧
    ((transferLoop E fails k 0 old new clk).ok = true ↔
      ∀ j, clk ≤ j → j < (transferLoop E fails k 0 old new clk).clock → fails j = false) ∧
    (E.nothrowMove = false → (transferLoop E fails k 0 old new clk).old = old) ∧
    (E.nothrowMove = true → (transferLoop E fails k 0 old new clk).ok = true ∧
      (transferLoop E fails k 0 old new clk).clock = clk ∧
      (transferLoop E fails k 0 old new clk).old = (old.take k).map E.movedFrom ++ old.drop k) := by
  cases hE : E.nothrowMove with
  | false =>
    rw [transferLoop_copy E fails k 0 old new clk hE, copyLoop_eq_initLoop]
    have hw := window_eq E old k 0 (by omega)
    simp only [List.drop_zero] at hw
    refine ⟨rfl, initLoop_length _ _ _ _ _, initLoop_clock_le _ _ _ _ _, ?_, initLoop_ok_iff _ _ _ _ _,
      fun _ => rfl, fun h => by simp at h⟩
    intro hok
    have := initLoop_ok_blk fails (window E old k 0) 0 new clk hok (by simp [window_length]; omega)
    simpa [hw, window_length, List.length_take, Nat.min_eq_left ho] using this
  | true =>
    rw [transferLoop_move E fails k 0 old new clk hE (by omega) (by omega)]
    have hw := window_eq E old k 0 (by omega)
    simp only [List.drop_zero] at hw
    simp only [hw, List.take_zero, List.nil_append, Nat.zero_add, List.length_append,
      List.length_map, List.length_take, List.length_drop, true_and, implies_true, and_true,
      le_refl, Bool.true_eq_false, false_implies]
    refine ⟨by omega, by omega, ?_⟩
    constructor
    · intro _ j h1 h2
      omega
    · intro _
      trivial


theorem Heap.write_write (h : Heap T) (p : Option Nat) (b1 b2 : List T) :
    (h.write p b1).write p b2 = h.write p b2 := by
  cases p <;> simp [Heap.write]

theorem Arg.get_set (E : ElemTraits T) (value : Arg T) (blk : List T) (i : Nat) :
    value.get E (blk.set i (value.get E blk)) = value.get E blk := by
  cases value with
  | val x => rfl
  | slot k =>
    simp only [Arg.get, List.getD_eq_getElem?_getD]
    by_cases hik : i = k
    · subst hik
      by_cases hlt : i < blk.length
      · rw [List.getElem?_set_self hlt]
        simp
      · rw [List.set_eq_of_length_le (by omega)]
    · rw [List.getElem?_set_ne hik]

theorem fillLoopArg_eq (E : ElemTraits T) (fails : Nat → Bool) (value : Arg T) (k i : Nat)
    (blk : List T) (clk : Nat) :
    fillLoopArg E fails value k i blk clk = fillLoop fails (value.get E blk) k i blk clk := by
  induction k generalizing i blk clk with
  | zero => rfl
  | succ k ih =>
    simp only [fillLoopArg, fillLoop]
    split
    · rfl
    · rw [ih, Arg.get_set]

theorem Resize_shape (E : ElemTraits T) (fails : Nat → Bool) (s : State T) (size : Nat) (value : T) :
    Resize E fails s size (.val value) =
      if size = s.self.size_ then ⟨.returned, s⟩
      else if size ≤ s.self.capacity_ then
        inplace (initLoop fails (List.replicate (size - s.self.size_) value) s.self.size_) s size
      else regrow E fails (initLoop fails (List.replicate (size - s.self.size_) value) s.self.size_)
        s (max (twice s.self.capacity_) size) size := by
  unfold Resize inplace regrow
  simp only [fillLoopArg_eq, Arg.get, fillLoop_eq_initLoop, Heap.write_write]

theorem ResizeDefault_eq (E : ElemTraits T) (fails : Nat → Bool) (s : State T) (size : Nat) :
    ResizeDefault E fails s size = Resize E fails s size (.val E.dflt) := by
  unfold ResizeDefault Resize
  simp only [fillLoopArg_eq, Arg.get]

theorem Reserve_eq (E : ElemTraits T) (fails : Nat → Bool) (s : State T) (capacity : Nat) :
    Reserve E fails s capacity =
      if capacity ≤ s.self.capacity_ then ⟨.returned, s⟩
      else regrow E fails (initLoop fails [] s.self.size_) s capacity s.self.size_ := by
  unfold Reserve regrow
  split
  · rfl
  · rename_i hc
    rw [if_pos (by omega)]
    simp only [initLoop, Heap.write_write, if_true]

theorem ShrinkToFit_eq (E : ElemTraits T) (fails : Nat → Bool) (s : State T) :
    ShrinkToFit E fails s =
      if s.self.size_ = s.self.capacity_ then ⟨.returned, s⟩
      else if s.self.size_ = 0 then
        ⟨.returned, ⟨s.heap.free s.self.buffer_, s.clock, ⟨none, s.self.size_, s.self.size_⟩⟩⟩
      else regrow E fails (initLoop fails [] s.self.size_) s s.self.size_ s.self.size_ := by
  unfold ShrinkToFit regrow
  simp only [initLoop, Heap.write_write, if_true]

theorem Heap.write_read (h : Heap T) (a : Nat) (blk : List T) (hb : h.block a = some blk) :
    h.write (some a) (h.read (some a)) = h := by
  have ha := Heap.block_lt hb
  simp only [Heap.write, Heap.read, hb, Option.getD_some]
  apply List.ext_getElem?
  intro j
  by_cases hj : j = a
  · subst hj
    simp only [Heap.block] at hb
    rw [List.getElem?_set_self (by omega)]
    cases hx : h[j]? with
    | none => simp [List.get?_eq_getElem?, hx] at hb
    | some o => simp [List.get?_eq_getElem?, hx] at hb; simp [hb]
  · rw [List.getElem?_set_ne (fun e => hj e.symm)]

theorem Heap.free_write (h : Heap T) (p : Option Nat) (blk : List T) :
    (h.write p blk).free p = h.free p := by
  cases p <;> simp [Heap.write, Heap.free]

theorem PushBack_shape (E : ElemTraits T) (fails : Nat → Bool) (s : State T) (value : T)
    (hwf : WF s.heap s.self) :
    PushBack E fails s (.val value) = pushCore E fails (fun i => copyStep fails i value) s := by
  obtain ⟨h, clk, ⟨buf, sz, cap⟩⟩ := s
  unfold PushBack pushCore pushZero inplace regrow copyStep
  simp only [Arg.get]
  split
  · split <;> [rfl; split <;> rfl]
  · rename_i hcap
    obtain ⟨a, blk, rfl, hblk, hlen, ha⟩ := hwf.2.2.pos hcap
    split
    · split
      · simp only [Bool.false_eq_true, if_false, Heap.write_read h a blk hblk]
      · rfl
    · split
      · rfl
      · simp only [Heap.write_write]
        split
        · split <;> simp
        · rfl

theorem PushBackMove_shape (E : ElemTraits T) (fails : Nat → Bool) (s : State T) (value : T)
    (hwf : WF s.heap s.self) :
    PushBackMove E fails s (.val value) = pushCore E fails (fun i => moveStep E fails i value) s := by
  obtain ⟨h, clk, ⟨buf, sz, cap⟩⟩ := s
  unfold PushBackMove pushCore pushZero inplace regrow moveStep
  simp only [Arg.get, Arg.moved]
  split
  · rename_i hcap
    subst hcap
    have hb : buf = none := hwf.2.2.zero
    subst hb
    simp only [Heap.write_none]
    split <;> [rfl; split <;> rfl]
  · rename_i hcap
    obtain ⟨a, blk, rfl, hblk, hlen, ha⟩ := hwf.2.2.pos hcap
    split
    · split
      · simp only [Bool.false_eq_true, if_false, Heap.write_read h a blk hblk]
      · rfl
    · split
      · rfl
      · simp only [Heap.write_write, Heap.free_write]
        split
        · split <;> simp
        · rfl


theorem Heap.block_write_opt (h : Heap T) (p : Option Nat) (b : Nat) (blk : List T) :
    (h.write p blk).block b = if p = some b ∧ b < h.length then some blk else h.block b := by
  cases p with
  | none => simp [Heap.write]
  | some a =>
    rw [Heap.block_write]
    by_cases hab : b = a
    · subst hab; simp
    · have : ¬ a = b := fun e => hab e.symm
      simp [hab, this]

theorem Heap.block_free_opt (h : Heap T) (p : Option Nat) (b : Nat) :
    (h.free p).block b = if p = some b then none else h.block b := by
  cases p with
  | none => simp [Heap.free]
  | some a =>
    rw [Heap.block_free]
    by_cases hab : b = a
    · subst hab; simp
    · have : ¬ a = b := fun e => hab e.symm
      simp [hab, this]

theorem Owns.lt {h : Heap T} {p : Option Nat} {cap a : Nat} (ho : Owns h p cap)
    (hp : p = some a) : a < h.length := by
  subst hp
  simp only [Owns, Option.map_eq_some'] at ho
  obtain ⟨_, blk, hb, _⟩ := ho
  exact Heap.block_lt hb

theorem Owns.read_length {h : Heap T} {p : Option Nat} {cap : Nat} (ho : Owns h p cap) :
    (h.read p).length = cap := by
  cases p with
  | none => simp [Owns] at ho; simp [Heap.read, ho]
  | some a =>
    simp only [Owns, Option.map_eq_some'] at ho
    obtain ⟨_, blk, hb, hl⟩ := ho
    simp [Heap.read, hb, hl]

theorem Owns.ne_length {h : Heap T} {p : Option Nat} {cap : Nat} (ho : Owns h p cap) :
    p ≠ some h.length := by
  intro hp
  have := ho.lt hp
  omega

theorem Heap.read_append_old (h : Heap T) (x : Option (List T)) (p : Option Nat)
    (hp : p ≠ some h.length) : Heap.read (h ++ [x]) p = h.read p := by
  cases p with
  | none => rfl
  | some a =>
    simp only [Heap.read, Heap.block_append]
    by_cases ha : a < h.length
    · simp [ha]
    · have : a ≠ h.length := fun e => hp (by rw [e])
      simp [ha, this, Heap.block_ge h a (by omega)]

theorem Heap.read_append_new (h : Heap T) (blk : List T) :
    Heap.read (h ++ [some blk]) (some h.length) = blk := by
  simp [Heap.read, Heap.block_append]


theorem initLoop_fillSpec (fails : Nat → Bool) (vals : List T) (i : Nat) :
    FillSpec fails (initLoop fails vals i) i vals where
  length := fun blk clk => initLoop_length fails vals i blk clk
  clock_le := fun blk clk => initLoop_clock_le fails vals i blk clk
  take := fun blk clk => initLoop_take fails vals i blk clk i (le_refl i)
  ok_blk := fun blk clk => initLoop_ok_blk fails vals i blk clk
  ok_iff := fun blk clk => by
    rw [initLoop_ok_iff]
    simp only [FaultIn, not_exists, not_and, Bool.not_eq_true]

theorem copyStep_eq_initLoop (fails : Nat → Bool) (i : Nat) (value : T) :
    copyStep fails i value = initLoop fails [value] i := by
  funext blk clk
  simp [copyStep, initLoop]

theorem copyStep_fillSpec (fails : Nat → Bool) (i : Nat) (value : T) :
    FillSpec fails (copyStep fails i value) i [value] := by
  rw [copyStep_eq_initLoop]
  exact initLoop_fillSpec fails [value] i

theorem moveStep_fillSpec (E : ElemTraits T) (fails : Nat → Bool) (i : Nat) (value : T) :
    FillSpec fails (moveStep E fails i value) i [value] := by
  cases hE : E.nothrowMove with
  | false =>
    have : moveStep E fails i value = copyStep fails i value := by
      funext blk clk
      simp [moveStep, copyStep, moveFails, moveClock, hE]
    rw [this]
    exact copyStep_fillSpec fails i value
  | true =>
    have e : moveStep E fails i value = fun blk clk => ⟨true, blk.set i value, clk⟩ := by
      funext blk clk
      simp [moveStep, moveFails, moveClock, hE]
    rw [e]
    refine ⟨fun blk clk => by simp, fun blk clk => le_refl _, fun blk clk => take_set_le _ _ (le_refl i),
      ?_, ?_⟩
    · intro blk clk _ hl
      simp only [List.length_singleton] at hl
      rw [List.set_eq_take_append_cons_drop, if_pos (by omega)]
      simp
    · intro blk clk
      simp only [FaultIn, true_iff, not_exists, not_and]
      intro j h1 h2
      omega

theorem FaultIn.mono {fails : Nat → Bool} {a b c d : Nat} (hf : FaultIn fails b c) (h1 : a ≤ b)
    (h2 : c ≤ d) : FaultIn fails a d := by
  obtain ⟨j, j1, j2, j3⟩ := hf
  exact ⟨j, by omega, by omega, j3⟩

theorem FaultIn.split {fails : Nat → Bool} {a b c : Nat} (hf : FaultIn fails a c) :
    FaultIn fails a b ∨ FaultIn fails b c := by
  obtain ⟨j, j1, j2, j3⟩ := hf
  by_cases hj : j < b
  · exact Or.inl ⟨j, j1, hj, j3⟩
  · exact Or.inr ⟨j, by omega, j2, j3⟩

theorem FaultIn.one {fails : Nat → Bool} {a : Nat} (hf : FaultIn fails a (a + 1)) :
    fails a = true := by
  obtain ⟨j, j1, j2, j3⟩ := hf
  have : j = a := by omega
  rw [← this]; exact j3

theorem NoFault.not_faultIn {fails : Nat → Bool} {a b c : Nat} (hn : NoFault fails a)
    (hab : a ≤ b) : ¬ FaultIn fails b c := by
  rintro ⟨j, j1, _, j3⟩
  have := hn j (by omega)
  simp [this] at j3

theorem Owns.transfer {h h' : Heap T} {p : Option Nat} {cap : Nat} (ho : Owns h p cap)
    (hb : ∀ a, p = some a → (h'.block a).map List.length = (h.block a).map List.length) :
    Owns h' p cap := by
  cases p with
  | none => exact ho
  | some a =>
    simp only [Owns] at ho ⊢
    rw [hb a rfl]
    exact ho

/-- The heap after a reallocation was rolled back: the fresh block is released and the old one
holds `O`. -/
theorem rollback_heap {h : Heap T} {buf : Option Nat} {cap : Nat} (B O N : List T)
    (ho : Owns h buf cap) (hO : O.length = cap) :
    Owns ((((h ++ [some B]).write buf O).write (some h.length) N).free (some h.length)) buf cap ∧
    Frame h ((((h ++ [some B]).write buf O).write (some h.length) N).free (some h.length)) buf ∧
    Heap.read ((((h ++ [some B]).write buf O).write (some h.length) N).free (some h.length)) buf
      = O := by
  have b1 : ∀ a, buf = some a → Heap.block ((((h ++ [some B]).write buf O).write
      (some h.length) N).free (some h.length)) a = some O := by
    intro a ha
    have hlt := ho.lt ha
    have hne1 : a ≠ h.length := by omega
    have hne2 : h.length ≠ a := by omega
    simp [Heap.block_free, Heap.block_write_opt, Heap.block_write, Heap.block_append,
      Heap.length_write, ha, hlt, hne1, hne2]
    omega
  refine ⟨?_, ⟨?_, ?_⟩, ?_⟩
  · cases buf with
    | none => exact ho
    | some a =>
      simp only [Owns] at ho ⊢
      simp [b1 a rfl, hO, ho.1]
  · simp [Heap.length_free, Heap.length_write]
  · intro a ha hb
    have hne1 : a ≠ h.length := by omega
    have hne2 : h.length ≠ a := by omega
    simp [Heap.block_free, Heap.block_write_opt, Heap.block_write, Heap.block_append,
      Heap.length_write, hb, ha, hne1, hne2]
  · cases buf with
    | none =>
      simp only [Owns] at ho
      subst ho
      simp [Heap.read, List.length_eq_zero.1 hO]
    | some a => simp [Heap.read, b1 a rfl]

/-- The heap after a reallocation was committed: the fresh block holds `N`, the old one is
released. -/
theorem commit_heap {h : Heap T} {buf : Option Nat} {cap : Nat} (B O N : List T)
    (ho : Owns h buf cap) :
    Heap.block ((((h ++ [some B]).write buf O).write (some h.length) N).free buf) h.length
      = some N ∧
    Frame h ((((h ++ [some B]).write buf O).write (some h.length) N).free buf) buf := by
  have hne := ho.ne_length
  refine ⟨?_, ?_, ?_⟩
  · simp [Heap.block_free_opt, Heap.block_write_opt, Heap.block_write, Heap.block_append,
      Heap.length_write, hne]
  · simp [Heap.length_free, Heap.length_write]
  · intro a ha hb
    have hne1 : a ≠ h.length := by omega
    have hne2 : h.length ≠ a := by omega
    simp [Heap.block_free_opt, Heap.block_write_opt, Heap.block_write, Heap.block_append,
      Heap.length_write, hb, ha, hne1, hne2]

/-- Everything the proofs use of the reallocating path. -/
theorem regrow_spec (E : ElemTraits T) (fails : Nat → Bool) (fill : List T → Nat → FillRes T)
    (s : State T) (new_cap sizeAfter : Nat) (vals : List T)
    (hwf : WF s.heap s.self) (hfill : FillSpec fails fill s.self.size_ vals)
    (hsz : sizeAfter = s.self.size_ + vals.length) (hcap : sizeAfter ≤ new_cap)
    (hpos : 0 < new_cap) :
    Sound s (regrow E fails fill s new_cap sizeAfter) ∧
    ((regrow E fails fill s new_cap sizeAfter).outcome = .returned →
      (regrow E fails fill s new_cap sizeAfter).st.self = ⟨some s.heap.length, sizeAfter, new_cap⟩ ∧
      elems (regrow E fails fill s new_cap sizeAfter).st.heap
        (regrow E fails fill s new_cap sizeAfter).st.self = elems s.heap s.self ++ vals ∧
      ¬ FaultIn fails s.clock (regrow E fails fill s new_cap sizeAfter).st.clock ∧
      new_cap ≤ MAX_ARRAY_LEN) ∧
    ((regrow E fails fill s new_cap sizeAfter).outcome = .threw →
      (regrow E fails fill s new_cap sizeAfter).st.self = s.self ∧
      (FaultIn fails s.clock (regrow E fails fill s new_cap sizeAfter).st.clock ∨
        MAX_ARRAY_LEN < new_cap) ∧
      (E.nothrowMove = false →
        (regrow E fails fill s new_cap sizeAfter).st.heap.read s.self.buffer_
          = s.heap.read s.self.buffer_) ∧
      (E.nothrowMove = true →
        (regrow E fails fill s new_cap sizeAfter).st.heap = s.heap ∨
          ∃ blk clk, (fill blk clk).ok = false)) ∧
    (NoFault fails s.clock → new_cap ≤ MAX_ARRAY_LEN →
      (regrow E fails fill s new_cap sizeAfter).outcome = .returned) := by
  obtain ⟨h, clk, ⟨buf, sz, cap⟩⟩ := s
  obtain ⟨w1, w2, w3⟩ := hwf
  simp only at w1 w2 w3 hsz hfill
  have hne := w3.ne_length
  have hrl := w3.read_length
  unfold regrow
  simp only [Sound, Frame, WF]
  by_cases hnew : fails clk = true ∨ MAX_ARRAY_LEN < new_cap
  · -- the allocation throws
    have e : newArray E fails h clk new_cap = none := by simp [newArray, hnew]
    rw [e]
    simp only [true_and, and_true, implies_true, le_refl, Nat.le_add_right, true_or,
      reduceCtorEq, false_implies, true_implies, w1, w2, w3]
    constructor
    · rcases hnew with hf | hm
      · exact Or.inl ⟨clk, le_refl _, by omega, hf⟩
      · exact Or.inr hm
    · intro hnf hm
      have := hnf clk (le_refl _)
      rcases hnew with hf | hm'
      · simp [this] at hf
      · omega
  · have e : newArray E fails h clk new_cap
        = some (h.length, h ++ [some (List.replicate new_cap E.dflt)]) := by
      simp [newArray, hnew]
    rw [e]
    simp only [Heap.read_append_old h _ buf hne, Heap.read_append_new]
    have hm : new_cap ≤ MAX_ARRAY_LEN := by
      by_contra hc
      exact hnew (Or.inr (by omega))
    have hf0 : fails clk = false := by
      cases hfc : fails clk with
      | false => rfl
      | true => exact absurd (Or.inl hfc) hnew
    obtain ⟨t1, t2, t3, t4, t5, t6, t7⟩ := transferLoop_zero E fails sz (h.read buf)
      (List.replicate new_cap E.dflt) (clk + 1) (by omega) (by simp; omega)
    generalize transferLoop E fails sz 0 (h.read buf) (List.replicate new_cap E.dflt) (clk + 1)
      = x at t1 t2 t3 t4 t5 t6 t7
    simp only [List.length_replicate] at t2
    have hnf1 : ¬ FaultIn fails clk (clk + 1) := fun hf => by simp [hf.one] at hf0
    by_cases hx : x.ok = true
    · simp only [hx, if_true]
      have hnf2 : ¬ FaultIn fails (clk + 1) x.clock := by
        rintro ⟨j, j1, j2, j3⟩
        have := t5.1 hx j j1 j2
        simp [this] at j3
      have f1 := hfill.length x.new x.clock
      have f2 := hfill.clock_le x.new x.clock
      have f4 := hfill.ok_blk x.new x.clock
      have f5 := hfill.ok_iff x.new x.clock
      generalize hrdef : fill x.new x.clock = r at f1 f2 f4 f5
      simp only [Heap.write_write]
      by_cases hr : r.ok = true
      · simp only [hr, if_true, reduceCtorEq, false_implies, implies_true, true_implies, and_true]
        obtain ⟨b1, b2⟩ := commit_heap (List.replicate new_cap E.dflt) x.old r.blk w3
        refine ⟨⟨⟨hcap, hm, ?_⟩, b2, by omega, Or.inr (Or.inr ⟨_, rfl, le_refl _⟩)⟩, trivial,
          ?_, ?_, hm⟩
        · simp [Owns, b1, hpos, f1, t2]
        · simp only [elems, Heap.read_some, b1, Option.getD_some]
          rw [f4 hr (by omega), t4 hx, hsz]
          have e1 : (List.take sz (h.read buf)).length = sz := by simp; omega
          rw [List.take_append_of_le_length (by simp; omega)]
          rw [List.take_append_eq_append_take, List.take_append_eq_append_take]
          simp [e1, List.take_take]
        · intro hf
          rcases hf.split (b := clk + 1) with h1 | h1
          · exact hnf1 h1
          · rcases h1.split (b := x.clock) with h2 | h2
            · exact hnf2 h2
            · exact (f5.1 hr) h2
      · simp only [hr, if_false, reduceCtorEq, false_implies, implies_true, true_implies,
          and_true, true_and, Bool.false_eq_true]
        have hff : FaultIn fails clk r.clock :=
          (not_not.1 (fun hc => hr (f5.2 hc))).mono (by omega) (le_refl _)
        obtain ⟨b1, b2, b3⟩ := rollback_heap (List.replicate new_cap E.dflt) x.old r.blk w3
          (t1.trans hrl)
        refine ⟨⟨⟨w1, w2, b1⟩, b2, by omega, Or.inl trivial⟩, ⟨Or.inl hff, ?_, ?_⟩, ?_⟩
        · intro hE
          rw [b3, t6 hE]
        · intro _
          exact Or.inr ⟨x.new, x.clock, by rw [hrdef]; simpa using hr⟩
        · intro hnf _
          exact absurd hff (hnf.not_faultIn (le_refl _))
    · simp only [hx, if_false, reduceCtorEq, false_implies, implies_true, true_implies,
        and_true, true_and, Bool.false_eq_true]
      have hff : FaultIn fails clk x.clock := by
        have : ¬ ∀ j, clk + 1 ≤ j → j < x.clock → fails j = false := fun hc => hx (t5.2 hc)
        simp only [not_forall, Bool.not_eq_false] at this
        obtain ⟨j, j1, j2, j3⟩ := this
        exact ⟨j, by omega, j2, j3⟩
      obtain ⟨b1, b2, b3⟩ := rollback_heap (List.replicate new_cap E.dflt) x.old x.new w3
        (t1.trans hrl)
      refine ⟨⟨⟨w1, w2, b1⟩, b2, by omega, Or.inl trivial⟩, ⟨Or.inl hff, ?_, ?_⟩, ?_⟩
      · intro hE
        rw [b3, t6 hE]
      · intro hE
        exact absurd (t7 hE).1 hx
      · intro hnf _
        exact absurd hff (hnf.not_faultIn (le_refl _))


/-- The heap after the current block was overwritten by a block of the same length. -/
theorem overwrite_heap {h : Heap T} {buf : Option Nat} {cap : Nat} (N : List T)
    (ho : Owns h buf cap) (hN : N.length = cap) :
    Owns (h.write buf N) buf cap ∧ Frame h (h.write buf N) buf ∧ (h.write buf N).read buf = N := by
  cases buf with
  | none =>
    simp only [Owns] at ho
    subst ho
    refine ⟨rfl, ⟨le_refl _, fun _ _ _ => rfl⟩, ?_⟩
    simp [Heap.read, List.length_eq_zero.1 hN]
  | some a =>
    have hlt := ho.lt rfl
    simp only [Owns] at ho
    refine ⟨?_, ⟨?_, ?_⟩, ?_⟩
    · simp [Owns, Heap.block_write, hlt, hN, ho.1]
    · simp [Heap.length_write]
    · intro b hb hne
      have : b ≠ a := fun e => hne (by rw [e])
      simp [Heap.block_write, this]
    · simp [Heap.read, Heap.block_write, hlt]

/-- Everything the proofs use of the in-place path. -/
theorem inplace_spec (fails : Nat → Bool) (fill : List T → Nat → FillRes T)
    (s : State T) (sizeAfter : Nat) (vals : List T)
    (hwf : WF s.heap s.self) (hfill : FillSpec fails fill s.self.size_ vals)
    (hfit : s.self.size_ + vals.length ≤ s.self.capacity_)
    (hsz : sizeAfter ≤ s.self.size_ + vals.length) :
    Sound s (inplace fill s sizeAfter) ∧
    ((inplace fill s sizeAfter).outcome = .returned →
      (inplace fill s sizeAfter).st.self = ⟨s.self.buffer_, sizeAfter, s.self.capacity_⟩ ∧
      elems (inplace fill s sizeAfter).st.heap (inplace fill s sizeAfter).st.self
        = (elems s.heap s.self ++ vals).take sizeAfter ∧
      ¬ FaultIn fails s.clock (inplace fill s sizeAfter).st.clock) ∧
    ((inplace fill s sizeAfter).outcome = .threw →
      (inplace fill s sizeAfter).st.self = s.self ∧
      FaultIn fails s.clock (inplace fill s sizeAfter).st.clock ∧
      elems (inplace fill s sizeAfter).st.heap s.self = elems s.heap s.self) ∧
    (NoFault fails s.clock → (inplace fill s sizeAfter).outcome = .returned) := by
  obtain ⟨h, clk, ⟨buf, sz, cap⟩⟩ := s
  obtain ⟨w1, w2, w3⟩ := hwf
  simp only at w1 w2 w3 hsz hfill hfit
  have hrl := w3.read_length
  unfold inplace
  simp only [Sound, WF]
  have f1 := hfill.length (h.read buf) clk
  have f2 := hfill.clock_le (h.read buf) clk
  have f3 := hfill.take (h.read buf) clk
  have f4 := hfill.ok_blk (h.read buf) clk
  have f5 := hfill.ok_iff (h.read buf) clk
  generalize hrdef : fill (h.read buf) clk = r at f1 f2 f3 f4 f5
  obtain ⟨b1, b2, b3⟩ := overwrite_heap r.blk w3 (f1.trans hrl)
  by_cases hr : r.ok = true
  · simp only [hr, if_true, reduceCtorEq, false_implies, implies_true, true_implies, and_true,
      true_and]
    refine ⟨⟨⟨by omega, w2, b1⟩, b2, f2, Or.inl trivial⟩, ?_, f5.1 hr⟩
    simp only [elems, b3]
    rw [f4 hr (by omega)]
    rw [List.append_assoc, ← List.append_assoc, List.take_append_of_le_length (by simp; omega)]
  · simp only [hr, if_false, reduceCtorEq, false_implies, implies_true, true_implies, and_true,
      true_and, Bool.false_eq_true]
    have hff : FaultIn fails clk r.clock := not_not.1 (fun hc => hr (f5.2 hc))
    refine ⟨⟨⟨w1, w2, b1⟩, b2, f2, Or.inl trivial⟩, ⟨hff, ?_⟩, ?_⟩
    · simp only [elems, b3, f3]
    · intro hnf
      exact absurd hff (hnf.not_faultIn (le_refl _))

/-- Everything the proofs use of the capacity-zero branch of `PushBack`. -/
theorem pushZero_spec (E : ElemTraits T) (fails : Nat → Bool) (fill : List T → Nat → FillRes T)
    (s : State T) (value : T)
    (hwf : WF s.heap s.self) (hfill : FillSpec fails fill 0 [value])
    (hcap : s.self.capacity_ = 0) :
    Sound s (pushZero E fails fill s) ∧
    (pushZero E fails fill s).outcome = .returned ∧
    (¬ FaultIn fails s.clock (pushZero E fails fill s).st.clock →
      (pushZero E fails fill s).st.self = ⟨some s.heap.length, 1, 1⟩ ∧
      elems (pushZero E fails fill s).st.heap (pushZero E fails fill s).st.self = [value]) ∧
    (FaultIn fails s.clock (pushZero E fails fill s).st.clock →
      (pushZero E fails fill s).st.self = s.self) ∧
    s.clock < (pushZero E fails fill s).st.clock := by
  obtain ⟨h, clk, ⟨buf, sz, cap⟩⟩ := s
  obtain ⟨w1, w2, w3⟩ := hwf
  simp only at w1 w2 w3 hcap hfill
  subst hcap
  have hb := w3.zero
  subst hb
  have hsz : sz = 0 := by omega
  subst hsz
  unfold pushZero
  simp only [Sound, WF, Frame]
  by_cases hnew : fails clk = true
  · have e : newArray E fails h clk 1 = none := by simp [newArray, hnew]
    rw [e]
    simp only [Heap.free_none, true_and, and_true, implies_true, le_refl, Nat.le_add_right,
      true_or, w3, Nat.lt_add_one]
    refine ⟨Nat.zero_le _, fun hc => ?_⟩
    exact absurd ⟨clk, le_refl _, by omega, hnew⟩ hc
  · have hf0 : fails clk = false := by simpa using hnew
    have e : newArray E fails h clk 1 = some (h.length, h ++ [some (List.replicate 1 E.dflt)]) :=
      newArray_ok E fails h clk 1 hf0 (by simp [MAX_ARRAY_LEN])
    rw [e]
    simp only [Heap.read_append_new]
    have hnf1 : ¬ FaultIn fails clk (clk + 1) := fun hf => by simp [hf.one] at hf0
    have f1 := hfill.length (List.replicate 1 E.dflt) (clk + 1)
    have f2 := hfill.clock_le (List.replicate 1 E.dflt) (clk + 1)
    have f4 := hfill.ok_blk (List.replicate 1 E.dflt) (clk + 1)
    have f5 := hfill.ok_iff (List.replicate 1 E.dflt) (clk + 1)
    generalize hrdef : fill (List.replicate 1 E.dflt) (clk + 1) = r at f1 f2 f4 f5
    have hi : incr 0 = 1 := by simp [incr, SIZE_MOD]
    by_cases hr : r.ok = true
    · simp only [hr, if_true, hi, true_and]
      have b1 : Heap.block ((h ++ [some (List.replicate 1 E.dflt)]).write (some h.length) r.blk)
          h.length = some r.blk := by
        simp [Heap.block_write]
      refine ⟨⟨⟨le_refl _, by simp [MAX_ARRAY_LEN], ?_⟩, ⟨?_, ?_⟩, by omega,
        Or.inr (Or.inr ⟨_, rfl, le_refl _⟩)⟩, ?_, ?_, by omega⟩
      · simp only [Owns, b1]
        simpa using f1
      · simp [Heap.length_write]
      · intro a ha _
        have : a ≠ h.length := by omega
        simp [Heap.block_write, Heap.block_append, ha, this]
      · intro _
        simp only [elems, Heap.read_some, b1, Option.getD_some]
        rw [f4 hr (by simp)]
        simp
      · intro hf
        rcases hf.split (b := clk + 1) with h1 | h1
        · exact absurd h1 hnf1
        · exact absurd h1 (f5.1 hr)
    · simp only [hr, if_false, true_and, Bool.false_eq_true]
      have hff : FaultIn fails clk r.clock :=
        (not_not.1 (fun hc => hr (f5.2 hc))).mono (by omega) (le_refl _)
      refine ⟨⟨⟨le_refl _, w2, w3⟩, ⟨?_, ?_⟩, by omega, Or.inl trivial⟩, ?_, ?_, by omega⟩
      · simp [Heap.length_free]
      · intro a ha _
        have : a ≠ h.length := by omega
        simp [Heap.block_free, Heap.block_append, ha, this]
      · intro hc
        exact absurd hff hc
      · intro _
        trivial



theorem elems_length {h : Heap T} {v : Vector} (hwf : WF h v) : (elems h v).length = v.size_ := by
  obtain ⟨w1, _, w3⟩ := hwf
  simp [elems, w3.read_length, w1]

theorem twice_eq {n : Nat} (hn : n ≤ MAX_ARRAY_LEN) : twice n = 2 * n := by
  simp only [twice, SIZE_MOD, MAX_ARRAY_LEN] at *
  omega

theorem incr_eq {n : Nat} (hn : n ≤ MAX_ARRAY_LEN) : incr n = n + 1 := by
  simp only [incr, SIZE_MOD, MAX_ARRAY_LEN] at *
  omega

/-- Everything the proofs use of `PushBack`, for either way of assigning the value. -/
theorem pushCore_spec (E : ElemTraits T) (fails : Nat → Bool)
    (fill : Nat → List T → Nat → FillRes T) (s : State T) (value : T)
    (hwf : WF s.heap s.self) (hfill : ∀ i, FillSpec fails (fill i) i [value]) :
    Sound s (pushCore E fails fill s) ∧
    ((pushCore E fails fill s).outcome = .returned →
      ¬ FaultIn fails s.clock (pushCore E fails fill s).st.clock →
      (pushCore E fails fill s).st.self.size_ = s.self.size_ + 1 ∧
      elems (pushCore E fails fill s).st.heap (pushCore E fails fill s).st.self
        = elems s.heap s.self ++ [value] ∧
      (pushCore E fails fill s).st.self.capacity_ =
        (if s.self.capacity_ = 0 then 1
          else if s.self.size_ < s.self.capacity_ then s.self.capacity_
          else 2 * s.self.capacity_) ∧
      (s.self.size_ < s.self.capacity_ →
        (pushCore E fails fill s).st.self.buffer_ = s.self.buffer_)) ∧
    ((pushCore E fails fill s).outcome = .returned →
      FaultIn fails s.clock (pushCore E fails fill s).st.clock →
      s.self.capacity_ = 0 ∧ (pushCore E fails fill s).st.self = s.self) ∧
    ((pushCore E fails fill s).outcome = .threw →
      (pushCore E fails fill s).st.self = s.self ∧ s.self.capacity_ ≠ 0 ∧
      (FaultIn fails s.clock (pushCore E fails fill s).st.clock ∨
        MAX_ARRAY_LEN < 2 * s.self.capacity_)) ∧
    (NoFault fails s.clock →
      (s.self.size_ = s.self.capacity_ → 2 * s.self.capacity_ ≤ MAX_ARRAY_LEN) →
      (pushCore E fails fill s).outcome = .returned) := by
  have hwf' := hwf
  obtain ⟨w1, w2, w3⟩ := hwf'
  have hi : incr s.self.size_ = s.self.size_ + 1 := incr_eq (by omega)
  have ht : twice s.self.capacity_ = 2 * s.self.capacity_ := twice_eq w2
  unfold pushCore
  by_cases hc : s.self.capacity_ = 0
  · simp only [hc, if_true]
    obtain ⟨p1, p2, p3, p4, _⟩ := pushZero_spec E fails (fill 0) s value hwf (hfill 0) hc
    have hs0 : s.self.size_ = 0 := by omega
    refine ⟨p1, ?_, ?_, ?_, fun _ _ => p2⟩
    · intro _ hnf
      obtain ⟨q1, q2⟩ := p3 hnf
      have he : elems s.heap s.self = [] := by simp [elems, hs0]
      rw [q2, he, q1, hs0]
      simp
    · intro _ hf
      exact ⟨trivial, p4 hf⟩
    · intro ht
      rw [p2] at ht
      cases ht
  · simp only [hc, if_false]
    by_cases hlt : s.self.size_ < s.self.capacity_
    · simp only [hlt, if_true, hi]
      obtain ⟨p1, p2, p3, p4⟩ := inplace_spec fails (fill s.self.size_) s (s.self.size_ + 1)
        [value] hwf (hfill _) (by simp; omega) (by simp)
      refine ⟨p1, ?_, ?_, ?_, fun hnf _ => p4 hnf⟩
      · intro hr _
        obtain ⟨q1, q2, _⟩ := p2 hr
        rw [q2, q1]
        refine ⟨rfl, ?_, rfl, fun _ => rfl⟩
        rw [List.take_of_length_le]
        simp [elems_length hwf]
      · intro hr hf
        exact absurd hf (p2 hr).2.2
      · intro ht
        obtain ⟨q1, q2, _⟩ := p3 ht
        exact ⟨q1, hc, Or.inl q2⟩
    · simp only [hlt, if_false, hi, ht]
      have hsc : s.self.size_ = s.self.capacity_ := by omega
      obtain ⟨p1, p2, p3, p4⟩ := regrow_spec E fails (fill s.self.size_) s (2 * s.self.capacity_)
        (s.self.size_ + 1) [value] hwf (hfill _) (by simp) (by omega) (by omega)
      refine ⟨p1, ?_, ?_, ?_, fun hnf hroom => p4 hnf (hroom hsc)⟩
      · intro hr _
        obtain ⟨q1, q2, _⟩ := p2 hr
        rw [q2, q1]
        exact ⟨rfl, rfl, rfl, fun h => h.elim⟩
      · intro hr hf
        exact absurd hf (p2 hr).2.2.1
      · intro ht
        obtain ⟨q1, q2, _⟩ := p3 ht
        exact ⟨q1, hc, q2⟩


theorem Frame.refl (h : Heap T) (p : Option Nat) : Frame h h p :=
  ⟨le_refl _, fun _ _ _ => rfl⟩

theorem Sound.unchanged {s : State T} (o : Outcome) (hwf : WF s.heap s.self) : Sound s ⟨o, s⟩ :=
  ⟨hwf, Frame.refl _ _, le_refl _, Or.inl rfl⟩

theorem take_append_replicate (l : List T) (n : Nat) (v : T) :
    (l ++ List.replicate (n - l.length) v).take n = l.take n ++ List.replicate (n - l.length) v := by
  rw [List.take_append_eq_append_take]
  congr 1
  rw [List.take_of_length_le (by simp)]

/-- Everything the proofs use of `Resize(size, value)`. -/
theorem Resize_val_spec (E : ElemTraits T) (fails : Nat → Bool) (s : State T) (n : Nat) (value : T)
    (hwf : WF s.heap s.self) :
    Sound s (Resize E fails s n (.val value)) ∧
    ((Resize E fails s n (.val value)).outcome = .returned →
      (Resize E fails s n (.val value)).st.self.size_ = n ∧
      elems (Resize E fails s n (.val value)).st.heap (Resize E fails s n (.val value)).st.self
        = (elems s.heap s.self).take n ++ List.replicate (n - s.self.size_) value ∧
      (Resize E fails s n (.val value)).st.self.capacity_ =
        (if n ≤ s.self.capacity_ then s.self.capacity_ else max (2 * s.self.capacity_) n) ∧
      ¬ FaultIn fails s.clock (Resize E fails s n (.val value)).st.clock) ∧
    ((Resize E fails s n (.val value)).outcome = .threw →
      (Resize E fails s n (.val value)).st.self = s.self ∧ n ≠ s.self.size_ ∧
      (FaultIn fails s.clock (Resize E fails s n (.val value)).st.clock ∨
        MAX_ARRAY_LEN < max (2 * s.self.capacity_) n) ∧
      (n ≤ s.self.capacity_ ∨ E.nothrowMove = false →
        elems (Resize E fails s n (.val value)).st.heap s.self = elems s.heap s.self)) ∧
    (NoFault fails s.clock →
      (s.self.capacity_ < n → max (2 * s.self.capacity_) n ≤ MAX_ARRAY_LEN) →
      (Resize E fails s n (.val value)).outcome = .returned) := by
  have hwf' := hwf
  obtain ⟨w1, w2, w3⟩ := hwf'
  have ht : twice s.self.capacity_ = 2 * s.self.capacity_ := twice_eq w2
  have hel := elems_length hwf
  rw [Resize_shape]
  by_cases h0 : n = s.self.size_
  · rw [if_pos h0]
    refine ⟨Sound.unchanged _ hwf, fun _ => ⟨h0.symm, ?_, ?_, ?_⟩, fun hc => (by cases hc), fun _ _ => rfl⟩
    · rw [h0, List.take_of_length_le (by omega)]
      simp
    · rw [if_pos (by omega)]
    · rintro ⟨j, j1, j2, _⟩
      simp only at j2
      omega
  · simp only [h0, if_false]
    by_cases hle : n ≤ s.self.capacity_
    · simp only [hle, if_true]
      obtain ⟨p1, p2, p3, p4⟩ := inplace_spec fails
        (initLoop fails (List.replicate (n - s.self.size_) value) s.self.size_) s n
        (List.replicate (n - s.self.size_) value) hwf (initLoop_fillSpec _ _ _)
        (by simp; omega) (by simp; omega)
      refine ⟨p1, ?_, ?_, fun hnf _ => p4 hnf⟩
      · intro hr
        obtain ⟨q1, q2, q3⟩ := p2 hr
        rw [q2, q1]
        refine ⟨rfl, ?_, rfl, q3⟩
        rw [← hel]
        exact take_append_replicate _ _ _
      · intro ht
        obtain ⟨q1, q2, q3⟩ := p3 ht
        exact ⟨q1, h0, Or.inl q2, fun _ => q3⟩
    · simp only [hle, if_false, ht]
      obtain ⟨p1, p2, p3, p4⟩ := regrow_spec E fails
        (initLoop fails (List.replicate (n - s.self.size_) value) s.self.size_) s
        (max (2 * s.self.capacity_) n) n
        (List.replicate (n - s.self.size_) value) hwf (initLoop_fillSpec _ _ _)
        (by simp; omega) (by omega) (by omega)
      refine ⟨p1, ?_, ?_, fun hnf hroom => p4 hnf (hroom (by omega))⟩
      · intro hr
        obtain ⟨q1, q2, q3, _⟩ := p2 hr
        rw [q2, q1]
        refine ⟨rfl, ?_, rfl, q3⟩
        rw [List.take_of_length_le (by omega)]
      · intro ht
        obtain ⟨q1, q2, q3, _⟩ := p3 ht
        refine ⟨q1, h0, q2, fun hor => ?_⟩
        rcases hor with hf | hE
        · exact hf.elim
        · simp only [elems, q3 hE]

/-- Everything the proofs use of `Reserve(capacity)`. -/
theorem Reserve_spec (E : ElemTraits T) (fails : Nat → Bool) (s : State T) (n : Nat)
    (hwf : WF s.heap s.self) :
    Sound s (Reserve E fails s n) ∧
    (n ≤ s.self.capacity_ → Reserve E fails s n = ⟨.returned, s⟩) ∧
    ((Reserve E fails s n).outcome = .returned →
      (Reserve E fails s n).st.self.size_ = s.self.size_ ∧
      (Reserve E fails s n).st.self.capacity_ = max n s.self.capacity_ ∧
      elems (Reserve E fails s n).st.heap (Reserve E fails s n).st.self = elems s.heap s.self ∧
      ¬ FaultIn fails s.clock (Reserve E fails s n).st.clock ∧
      (s.self.capacity_ < n → n ≤ MAX_ARRAY_LEN)) ∧
    ((Reserve E fails s n).outcome = .threw →
      (Reserve E fails s n).st.self = s.self ∧ s.self.capacity_ < n ∧
      (FaultIn fails s.clock (Reserve E fails s n).st.clock ∨ MAX_ARRAY_LEN < n) ∧
      (Reserve E fails s n).st.heap.read s.self.buffer_ = s.heap.read s.self.buffer_) ∧
    (NoFault fails s.clock → (s.self.capacity_ < n → n ≤ MAX_ARRAY_LEN) →
      (Reserve E fails s n).outcome = .returned) := by
  have hwf' := hwf
  obtain ⟨w1, w2, w3⟩ := hwf'
  rw [Reserve_eq]
  by_cases hle : n ≤ s.self.capacity_
  · rw [if_pos hle]
    refine ⟨Sound.unchanged _ hwf, fun _ => rfl, fun _ => ⟨rfl, ?_, rfl, ?_, fun h => by omega⟩,
      fun hc => (by cases hc), fun _ _ => rfl⟩
    · simp only; omega
    · rintro ⟨j, j1, j2, _⟩
      simp only at j2
      omega
  · rw [if_neg hle]
    obtain ⟨p1, p2, p3, p4⟩ := regrow_spec E fails (initLoop fails [] s.self.size_) s n
      s.self.size_ [] hwf (initLoop_fillSpec _ _ _) (by simp) (by omega) (by omega)
    refine ⟨p1, fun h => absurd h hle, ?_, ?_, fun hnf hroom => p4 hnf (hroom (by omega))⟩
    · intro hr
      obtain ⟨q1, q2, q3, q4⟩ := p2 hr
      rw [q2, q1]
      exact ⟨rfl, by simp only; omega, by simp, q3, fun _ => q4⟩
    · intro ht
      obtain ⟨q1, q2, q3, q4⟩ := p3 ht
      refine ⟨q1, by omega, q2, ?_⟩
      cases hE : E.nothrowMove with
      | false => exact q3 hE
      | true =>
        rcases q4 hE with hh | ⟨blk, clk, hf⟩
        · rw [hh]
        · simp [initLoop] at hf

/-- Everything the proofs use of `ShrinkToFit()`. -/
theorem ShrinkToFit_spec (E : ElemTraits T) (fails : Nat → Bool) (s : State T)
    (hwf : WF s.heap s.self) :
    Sound s (ShrinkToFit E fails s) ∧
    (s.self.size_ = s.self.capacity_ → ShrinkToFit E fails s = ⟨.returned, s⟩) ∧
    ((ShrinkToFit E fails s).outcome = .returned →
      (ShrinkToFit E fails s).st.self.size_ = s.self.size_ ∧
      (ShrinkToFit E fails s).st.self.capacity_ = s.self.size_ ∧
      elems (ShrinkToFit E fails s).st.heap (ShrinkToFit E fails s).st.self
        = elems s.heap s.self ∧
      (s.self.size_ = 0 → (ShrinkToFit E fails s).st.self.buffer_ = none) ∧
      ¬ FaultIn fails s.clock (ShrinkToFit E fails s).st.clock) ∧
    ((ShrinkToFit E fails s).outcome = .threw →
      (ShrinkToFit E fails s).st.self = s.self ∧
      FaultIn fails s.clock (ShrinkToFit E fails s).st.clock ∧
      (ShrinkToFit E fails s).st.heap.read s.self.buffer_ = s.heap.read s.self.buffer_) ∧
    (NoFault fails s.clock → (ShrinkToFit E fails s).outcome = .returned) := by
  have hwf' := hwf
  obtain ⟨w1, w2, w3⟩ := hwf'
  rw [ShrinkToFit_eq]
  by_cases heq : s.self.size_ = s.self.capacity_
  · rw [if_pos heq]
    refine ⟨Sound.unchanged _ hwf, fun _ => rfl, fun _ => ⟨rfl, heq.symm, rfl, ?_, ?_⟩,
      fun hc => (by cases hc), fun _ => rfl⟩
    · intro h0
      have : s.self.capacity_ = 0 := by omega
      rw [this] at w3
      exact w3.zero
    · rintro ⟨j, j1, j2, _⟩
      simp only at j2
      omega
  · rw [if_neg heq]
    by_cases h0 : s.self.size_ = 0
    · rw [if_pos h0]
      refine ⟨⟨⟨le_refl _, by simp only; omega, by simp only [h0]; rfl⟩, ⟨?_, ?_⟩, le_refl _,
        Or.inr (Or.inl rfl)⟩, fun h => absurd h heq, fun _ => ⟨rfl, rfl, ?_, fun _ => rfl, ?_⟩,
        fun hc => (by cases hc), fun _ => rfl⟩
      · simp [Heap.length_free]
      · intro a _ hne
        simp [Heap.block_free_opt, hne]
      · simp [elems, h0]
      · rintro ⟨j, j1, j2, _⟩
        simp only at j2
        omega
    · rw [if_neg h0]
      obtain ⟨p1, p2, p3, p4⟩ := regrow_spec E fails (initLoop fails [] s.self.size_) s
        s.self.size_ s.self.size_ [] hwf (initLoop_fillSpec _ _ _) (by simp) (le_refl _)
        (by omega)
      refine ⟨p1, fun h => absurd h heq, ?_, ?_, fun hnf => p4 hnf (by omega)⟩
      · intro hr
        obtain ⟨q1, q2, q3, q4⟩ := p2 hr
        rw [q2, q1]
        exact ⟨rfl, rfl, by simp, fun h => absurd h h0, q3⟩
      · intro ht
        obtain ⟨q1, q2, q3, q4⟩ := p3 ht
        have hff : FaultIn fails s.clock
            (regrow E fails (initLoop fails [] s.self.size_) s s.self.size_ s.self.size_).st.clock := by
          rcases q2 with hf | hm
          · exact hf
          · omega
        refine ⟨q1, hff, ?_⟩
        cases hE : E.nothrowMove with
        | false => exact q3 hE
        | true =>
          rcases q4 hE with hh | ⟨blk, clk, hf⟩
          · rw [hh]
          · simp [initLoop] at hf


/-! ### Reference arguments -/

theorem transferLoop_old (E : ElemTraits T) (fails : Nat → Bool) (k : Nat) (old new : List T)
    (clk : Nat) (ho : k ≤ old.length) (hn : k ≤ new.length) :
    (transferLoop E fails k 0 old new clk).old = transferred E k old := by
  obtain ⟨_, _, _, _, _, t6, t7⟩ := transferLoop_zero E fails k old new clk ho hn
  unfold transferred
  cases hE : E.nothrowMove with
  | false => simp [t6 hE]
  | true => simp [(t7 hE).2.2]

/-- The call `Resize(size, value)` is the call with an outside argument that holds the value
`Resize` reads through `value`. -/
theorem Resize_eq_val (E : ElemTraits T) (fails : Nat → Bool) (s : State T) (size : Nat)
    (value : Arg T) (hwf : WF s.heap s.self) :
    Resize E fails s size value
      = Resize E fails s size (.val (value.get E (resizeArgBlock E s size))) := by
  obtain ⟨h, clk, ⟨buf, sz, cap⟩⟩ := s
  obtain ⟨w1, w2, w3⟩ := hwf
  simp only at w1 w2 w3
  unfold Resize resizeArgBlock
  simp only
  by_cases h0 : size = sz
  · simp only [h0, if_true]
  · simp only [h0, if_false]
    by_cases hle : size ≤ cap
    · simp only [hle, if_true, fillLoopArg_eq, Arg.get]
    · simp only [hle, if_false, Arg.get]
      by_cases hc : fails clk = true ∨ MAX_ARRAY_LEN < max (twice cap) size
      · simp only [newArray, hc, if_true]
      · simp only [newArray, hc, if_false, Heap.read_append_old h _ buf w3.ne_length,
          Heap.read_append_new]
        have hold := transferLoop_old E fails sz (h.read buf)
          (List.replicate (max (twice cap) size) E.dflt) (clk + 1)
          (by rw [w3.read_length]; exact w1) (by simp; omega)
        rw [hold]

/-- The call `PushBack(value)` of the copy overload is the call with an outside argument that
holds the value `PushBack` reads through `value`. -/
theorem PushBack_eq_val (E : ElemTraits T) (fails : Nat → Bool) (s : State T) (value : Arg T)
    (hwf : WF s.heap s.self) :
    PushBack E fails s value = PushBack E fails s (.val (value.get E (pushArgBlock E s))) := by
  obtain ⟨h, clk, ⟨buf, sz, cap⟩⟩ := s
  obtain ⟨w1, w2, w3⟩ := hwf
  simp only at w1 w2 w3
  unfold PushBack pushArgBlock
  simp only
  by_cases h0 : cap = 0
  · subst h0
    have hb := w3.zero
    subst hb
    simp only [if_true, true_or, Heap.read_none, Arg.get]
  · simp only [h0, if_false, false_or]
    by_cases hlt : sz < cap
    · simp only [hlt, if_true, Arg.get]
    · simp only [hlt, if_false, Arg.get]
      by_cases hc : fails clk = true ∨ MAX_ARRAY_LEN < twice cap
      · simp only [newArray, hc, if_true]
      · simp only [newArray, hc, if_false, Heap.read_append_old h _ buf w3.ne_length,
          Heap.read_append_new]
        have hold := transferLoop_old E fails sz (h.read buf)
          (List.replicate (twice cap) E.dflt) (clk + 1)
          (by rw [w3.read_length]; exact w1)
          (by simp only [List.length_replicate]; rw [twice_eq w2]; omega)
        rw [hold]

/-- The move overload of `PushBack`: with spare capacity it is the in-place shape with the move
out of the argument; in the two other branches the old block is not kept, and the call is the
call with an outside argument that holds the value `PushBack` reads through `value`. -/
theorem PushBackMove_eq_val (E : ElemTraits T) (fails : Nat → Bool) (s : State T) (value : Arg T)
    (hwf : WF s.heap s.self) :
    PushBackMove E fails s value =
      if s.self.capacity_ ≠ 0 ∧ s.self.size_ < s.self.capacity_ then
        inplace (moveStepArg E fails s.self.size_ value) s (incr s.self.size_)
      else PushBackMove E fails s (.val (value.get E (pushArgBlock E s))) := by
  obtain ⟨h, clk, ⟨buf, sz, cap⟩⟩ := s
  obtain ⟨w1, w2, w3⟩ := hwf
  simp only at w1 w2 w3
  unfold PushBackMove pushArgBlock inplace moveStepArg
  simp only
  by_cases h0 : cap = 0
  · subst h0
    have hb := w3.zero
    subst hb
    simp only [if_true, true_or, Heap.read_none, Heap.write_none, ne_eq, not_true_eq_false,
      false_and, if_false, Arg.get, Arg.moved]
  · simp only [h0, if_false, false_or, ne_eq, not_false_eq_true, true_and]
    by_cases hlt : sz < cap
    · simp only [hlt, if_true, Arg.get]
      obtain ⟨a, blk, rfl, hblk, hlen, ha⟩ := w3.pos h0
      split
      · simp only [Bool.false_eq_true, if_false, Heap.write_read h a blk hblk]
      · rfl
    · simp only [hlt, if_false, Arg.get, Arg.moved]
      by_cases hc : fails clk = true ∨ MAX_ARRAY_LEN < twice cap
      · simp only [newArray, hc, if_true]
      · simp only [newArray, hc, if_false, Heap.read_append_old h _ buf w3.ne_length,
          Heap.read_append_new, Heap.free_write]
        have hold := transferLoop_old E fails sz (h.read buf)
          (List.replicate (twice cap) E.dflt) (clk + 1)
          (by rw [w3.read_length]; exact w1)
          (by simp only [List.length_replicate]; rw [twice_eq w2]; omega)
        rw [hold]

theorem inplace_sound (fill : List T → Nat → FillRes T) (s : State T) (sizeAfter : Nat)
    (hwf : WF s.heap s.self) (hlen : ∀ blk clk, (fill blk clk).blk.length = blk.length)
    (hclk : ∀ blk clk, clk ≤ (fill blk clk).clock) (hsz : sizeAfter ≤ s.self.capacity_) :
    Sound s (inplace fill s sizeAfter) := by
  obtain ⟨h, clk, ⟨buf, sz, cap⟩⟩ := s
  obtain ⟨w1, w2, w3⟩ := hwf
  simp only at w1 w2 w3 hsz
  have f1 := hlen (h.read buf) clk
  have f2 := hclk (h.read buf) clk
  unfold inplace
  simp only [Sound, WF]
  generalize fill (h.read buf) clk = r at f1 f2
  obtain ⟨b1, b2, _⟩ := overwrite_heap r.blk w3 (f1.trans w3.read_length)
  by_cases hr : r.ok = true
  · simp only [hr, if_true]
    exact ⟨⟨hsz, w2, b1⟩, b2, f2, Or.inl trivial⟩
  · simp only [hr, Bool.false_eq_true, if_false]
    exact ⟨⟨w1, w2, b1⟩, b2, f2, Or.inl trivial⟩

theorem Arg.length_moved (E : ElemTraits T) (value : Arg T) (blk : List T) :
    (value.moved E blk).length = blk.length := by
  cases value <;> simp [Arg.moved]

theorem Resize_sound (E : ElemTraits T) (fails : Nat → Bool) (s : State T) (n : Nat)
    (value : Arg T) (hwf : WF s.heap s.self) : Sound s (Resize E fails s n value) := by
  rw [Resize_eq_val E fails s n value hwf]
  exact (Resize_val_spec E fails s n _ hwf).1

theorem ResizeDefault_sound (E : ElemTraits T) (fails : Nat → Bool) (s : State T) (n : Nat)
    (hwf : WF s.heap s.self) : Sound s (ResizeDefault E fails s n) := by
  rw [ResizeDefault_eq]
  exact (Resize_val_spec E fails s n _ hwf).1

theorem PushBack_sound (E : ElemTraits T) (fails : Nat → Bool) (s : State T) (value : Arg T)
    (hwf : WF s.heap s.self) : Sound s (PushBack E fails s value) := by
  rw [PushBack_eq_val E fails s value hwf, PushBack_shape E fails s _ hwf]
  exact (pushCore_spec E fails _ s _ hwf (fun i => copyStep_fillSpec fails i _)).1

theorem PushBackMove_sound (E : ElemTraits T) (fails : Nat → Bool) (s : State T) (value : Arg T)
    (hwf : WF s.heap s.self) : Sound s (PushBackMove E fails s value) := by
  rw [PushBackMove_eq_val E fails s value hwf]
  split
  · rename_i hc
    refine inplace_sound _ s _ hwf (fun blk clk => ?_) (fun blk clk => ?_) ?_
    · unfold moveStepArg
      split
      · rfl
      · simp [Arg.length_moved]
    · unfold moveStepArg moveClock
      split <;> split <;> simp
    · rw [incr_eq (by have := hwf.2.1; omega)]
      omega
  · rw [PushBackMove_shape E fails s _ hwf]
    exact (pushCore_spec E fails _ s _ hwf (fun i => moveStep_fillSpec E fails i _)).1

theorem decr_succ {n : Nat} (hn : n ≤ MAX_ARRAY_LEN) : decr (n + 1) = n := by
  simp only [decr, SIZE_MOD, MAX_ARRAY_LEN] at *
  omega

theorem Back_of_elems {h : Heap T} {v : Vector} {l : List T} {x : T}
    (he : elems h v = l ++ [x]) (hs : v.size_ = l.length + 1) (hl : l.length ≤ MAX_ARRAY_LEN) :
    Back h v = some x := by
  simp only [Back, index, hs, decr_succ hl]
  have h1 : (elems h v).get? l.length = some x := by
    rw [he]; simp
  simp only [elems, List.get?_eq_getElem?, List.getElem?_take, hs] at h1
  rw [List.get?_eq_getElem?]
  simpa using h1

theorem index_getD {h : Heap T} {v : Vector} {k : Nat} {x : T} (d : T)
    (hk : index h v k = some x) : (h.read v.buffer_).getD k d = x := by
  simp only [index, List.get?_eq_getElem?] at hk
  simp [List.getD_eq_getElem?_getD, hk]

/-- An argument that is an element of the container is read with its value at the start of the
call when `PushBack` does not reallocate, and when the transfer to the new block copies. -/
theorem pushArgBlock_get (E : ElemTraits T) (s : State T) (k : Nat) (x : T)
    (hk : index s.heap s.self k = some x)
    (hc : s.self.size_ < s.self.capacity_ ∨ E.nothrowMove = false) :
    (Arg.slot k).get E (pushArgBlock E s) = x := by
  have hx := index_getD E.dflt hk
  unfold pushArgBlock transferred
  rcases hc with hc | hc
  · simp only [Arg.get, hc, or_true, if_true]
    exact hx
  · simp only [Arg.get, hc, Bool.false_eq_true, if_false, ite_self]
    exact hx

/-- What a successful `PushBack(const T&)` does, in terms of the value read through the
argument. -/
theorem PushBack_spec (E : ElemTraits T) (fails : Nat → Bool) (s : State T) (value : Arg T)
    (hwf : WF s.heap s.self) :
    ((PushBack E fails s value).outcome = .returned →
      ¬ FaultIn fails s.clock (PushBack E fails s value).st.clock →
      (PushBack E fails s value).st.self.size_ = s.self.size_ + 1 ∧
      elems (PushBack E fails s value).st.heap (PushBack E fails s value).st.self
        = elems s.heap s.self ++ [value.get E (pushArgBlock E s)] ∧
      (PushBack E fails s value).st.self.capacity_ =
        (if s.self.capacity_ = 0 then 1
          else if s.self.size_ < s.self.capacity_ then s.self.capacity_
          else 2 * s.self.capacity_) ∧
      (s.self.size_ < s.self.capacity_ →
        (PushBack E fails s value).st.self.buffer_ = s.self.buffer_)) ∧
    (NoFault fails s.clock →
      (s.self.size_ = s.self.capacity_ → 2 * s.self.capacity_ ≤ MAX_ARRAY_LEN) →
      (PushBack E fails s value).outcome = .returned) := by
  rw [PushBack_eq_val E fails s value hwf, PushBack_shape E fails s _ hwf]
  obtain ⟨_, p2, _, _, p5⟩ := pushCore_spec E fails
    (fun i => copyStep fails i (value.get E (pushArgBlock E s))) s _ hwf
    (fun i => copyStep_fillSpec fails i _)
  exact ⟨p2, p5⟩

/-- What `PushBack(T&&)` does when nothing fails, in the branches that do not keep the old
block. -/
theorem PushBackMove_spec (E : ElemTraits T) (fails : Nat → Bool) (s : State T) (value : Arg T)
    (hwf : WF s.heap s.self) (hnf : NoFault fails s.clock)
    (hroom : s.self.size_ = s.self.capacity_ → 2 * s.self.capacity_ ≤ MAX_ARRAY_LEN)
    (hc : ¬ (s.self.capacity_ ≠ 0 ∧ s.self.size_ < s.self.capacity_)) :
    (PushBackMove E fails s value).outcome = .returned ∧
    (PushBackMove E fails s value).st.self.size_ = s.self.size_ + 1 ∧
    elems (PushBackMove E fails s value).st.heap (PushBackMove E fails s value).st.self
      = elems s.heap s.self ++ [value.get E (pushArgBlock E s)] := by
  rw [PushBackMove_eq_val E fails s value hwf, if_neg hc, PushBackMove_shape E fails s _ hwf]
  obtain ⟨_, p2, _, _, p5⟩ := pushCore_spec E fails
    (fun i => moveStep E fails i (value.get E (pushArgBlock E s))) s _ hwf
    (fun i => moveStep_fillSpec E fails i _)
  have hr := p5 hnf hroom
  obtain ⟨q1, q2, _⟩ := p2 hr (hnf.not_faultIn (le_refl _))
  exact ⟨hr, q1, q2⟩

/-- What `PushBack(T&&)` does with spare capacity when nothing fails: the value is stored in the
first free slot and the object behind the argument is left moved-from. -/
theorem PushBackMove_inplace (E : ElemTraits T) (fails : Nat → Bool) (s : State T) (value : Arg T)
    (hwf : WF s.heap s.self) (hnf : NoFault fails s.clock)
    (hc : s.self.capacity_ ≠ 0 ∧ s.self.size_ < s.self.capacity_) :
    (PushBackMove E fails s value).outcome = .returned ∧
    (PushBackMove E fails s value).st.self.size_ = s.self.size_ + 1 ∧
    elems (PushBackMove E fails s value).st.heap (PushBackMove E fails s value).st.self
      = (value.moved E ((s.heap.read s.self.buffer_).set s.self.size_
          (value.get E (s.heap.read s.self.buffer_)))).take (s.self.size_ + 1) := by
  rw [PushBackMove_eq_val E fails s value hwf, if_pos hc]
  obtain ⟨h, clk, ⟨buf, sz, cap⟩⟩ := s
  obtain ⟨w1, w2, w3⟩ := hwf
  simp only at w1 w2 w3 hc hnf
  have hf : moveFails E fails clk = false := by
    simp [moveFails, hnf clk (le_refl _)]
  have hi : incr sz = sz + 1 := incr_eq (by omega)
  unfold inplace moveStepArg
  simp only [hf, Bool.false_eq_true, if_false, if_true, hi, true_and]
  obtain ⟨_, _, b3⟩ := overwrite_heap
    (value.moved E ((h.read buf).set sz (value.get E (h.read buf)))) w3
    (by rw [Arg.length_moved, List.length_set, w3.read_length])
  simp only [elems, b3]

theorem moved_slot_take (E : ElemTraits T) (blk : List T) (k sz : Nat) (x : T)
    (hk : k < sz) (hsz : sz < blk.length) (hx : blk.getD k E.dflt = x) :
    ((Arg.slot k).moved E (blk.set sz ((Arg.slot k).get E blk))).take (sz + 1)
      = (blk.take sz).set k (E.movedFrom x) ++ [x] := by
  have hne : sz ≠ k := by omega
  have hg : (blk.set sz x).getD k E.dflt = x := by
    rw [List.getD_eq_getElem?_getD, List.getElem?_set_ne hne, ← List.getD_eq_getElem?_getD, hx]
  simp only [Arg.moved, Arg.get, hx, hg]
  rw [List.set_comm _ _ _ hne, take_succ_set _ _ (by simpa using hsz), List.set_take]

/-- C2: when nothing fails, both `PushBack` overloads return with `size()` one larger. With an
argument `x` that is not an element of the container, the live elements become the old ones
followed by `x`, and `Back()` is `x`. With the element `v[k]` as argument, holding `x`: the copy
overload gives the same result when it has spare capacity or the transfer to the new block
copies; the move overload with spare capacity appends `x` and leaves `v[k]` moved-from, the other
elements unchanged; the move overload that reallocates with a copying transfer appends `x` and
leaves the old elements unchanged. -/
theorem C2_pushBack_appends (E : ElemTraits T) (fails : Nat → Bool) (s : State T)
    (value : Arg T) (hwf : WF s.heap s.self) (hnf : NoFault fails s.clock)
    (hroom : s.self.size_ = s.self.capacity_ → 2 * s.self.capacity_ ≤ MAX_ARRAY_LEN) :
    ((PushBack E fails s value).outcome = .returned ∧
      Size (PushBack E fails s value).st.self = Size s.self + 1 ∧
      (∀ x, value = .val x →
        elems (PushBack E fails s value).st.heap (PushBack E fails s value).st.self
          = elems s.heap s.self ++ [x] ∧
        Back (PushBack E fails s value).st.heap (PushBack E fails s value).st.self = some x) ∧
      (∀ k x, value = .slot k → k < Size s.self → index s.heap s.self k = some x →
        Size s.self < Capacity s.self ∨ E.nothrowMove = false →
        elems (PushBack E fails s value).st.heap (PushBack E fails s value).st.self
          = elems s.heap s.self ++ [x] ∧
        Back (PushBack E fails s value).st.heap (PushBack E fails s value).st.self = some x)) ∧
    ((PushBackMove E fails s value).outcome = .returned ∧
      Size (PushBackMove E fails s value).st.self = Size s.self + 1 ∧
      (∀ x, value = .val x →
        elems (PushBackMove E fails s value).st.heap (PushBackMove E fails s value).st.self
          = elems s.heap s.self ++ [x] ∧
        Back (PushBackMove E fails s value).st.heap (PushBackMove E fails s value).st.self
          = some x) ∧
      (∀ k x, value = .slot k → k < Size s.self → index s.heap s.self k = some x →
        (Size s.self < Capacity s.self →
          elems (PushBackMove E fails s value).st.heap (PushBackMove E fails s value).st.self
            = (elems s.heap s.self).set k (E.movedFrom x) ++ [x] ∧
          Back (PushBackMove E fails s value).st.heap (PushBackMove E fails s value).st.self
            = some x) ∧
        (Size s.self = Capacity s.self → E.nothrowMove = false →
          elems (PushBackMove E fails s value).st.heap (PushBackMove E fails s value).st.self
            = elems s.heap s.self ++ [x] ∧
          Back (PushBackMove E fails s value).st.heap (PushBackMove E fails s value).st.self
            = some x))) := by
  have hel := elems_length hwf
  have hl : (elems s.heap s.self).length ≤ MAX_ARRAY_LEN := by
    rw [hel]; exact hwf.1.trans hwf.2.1
  simp only [Size, Capacity]
  constructor
  · obtain ⟨p2, p5⟩ := PushBack_spec E fails s value hwf
    have hr := p5 hnf hroom
    obtain ⟨q1, q2, _⟩ := p2 hr (hnf.not_faultIn (le_refl _))
    refine ⟨hr, q1, fun x hx => ?_, fun k x hx hk hi hc => ?_⟩
    · subst hx
      exact ⟨q2, Back_of_elems q2 (by rw [q1, hel]) hl⟩
    · subst hx
      rw [pushArgBlock_get E s k x hi hc] at q2
      exact ⟨q2, Back_of_elems q2 (by rw [q1, hel]) hl⟩
  · by_cases hc : s.self.capacity_ ≠ 0 ∧ s.self.size_ < s.self.capacity_
    · obtain ⟨q0, q1, q2⟩ := PushBackMove_inplace E fails s value hwf hnf hc
      have hrl := hwf.2.2.read_length
      refine ⟨q0, q1, fun x hx => ?_, fun k x hx hk hi => ⟨fun _ => ?_, fun he _ => ?_⟩⟩
      · subst hx
        have e : elems (PushBackMove E fails s (.val x)).st.heap
            (PushBackMove E fails s (.val x)).st.self = elems s.heap s.self ++ [x] := by
          rw [q2]
          simp only [Arg.moved, Arg.get]
          rw [take_succ_set _ _ (by rw [hrl]; exact hc.2)]
          rfl
        exact ⟨e, Back_of_elems e (by rw [q1, hel]) hl⟩
      · subst hx
        have e : elems (PushBackMove E fails s (.slot k)).st.heap
            (PushBackMove E fails s (.slot k)).st.self
            = (elems s.heap s.self).set k (E.movedFrom x) ++ [x] := by
          rw [q2, moved_slot_take E _ k _ x hk (by rw [hrl]; exact hc.2) (index_getD E.dflt hi)]
          rfl
        exact ⟨e, Back_of_elems e (by rw [q1, List.length_set, hel])
          (by rw [List.length_set]; exact hl)⟩
      · omega
    · obtain ⟨q0, q1, q2⟩ := PushBackMove_spec E fails s value hwf hnf hroom hc
      refine ⟨q0, q1, fun x hx => ?_, fun k x hx hk hi => ⟨fun hlt => ?_, fun _ hE => ?_⟩⟩
      · subst hx
        exact ⟨q2, Back_of_elems q2 (by rw [q1, hel]) hl⟩
      · exact absurd ⟨by omega, hlt⟩ hc
      · subst hx
        rw [pushArgBlock_get E s k x hi (Or.inr hE)] at q2
        exact ⟨q2, Back_of_elems q2 (by rw [q1, hel]) hl⟩

theorem C2_pushBack_appends_witness :
    elems (PushBack intTraits never ⟨[some [5]], 0, ⟨some 0, 1, 1⟩⟩ (.val 7)).st.heap
      (PushBack intTraits never ⟨[some [5]], 0, ⟨some 0, 1, 1⟩⟩ (.val 7)).st.self = [5, 7] ∧
    elems (PushBackMove stringTraits never ⟨[some ["a", ""]], 0, ⟨some 0, 1, 2⟩⟩ (.slot 0)).st.heap
      (PushBackMove stringTraits never ⟨[some ["a", ""]], 0, ⟨some 0, 1, 2⟩⟩ (.slot 0)).st.self
      = ["", "a"] :=
  ⟨((C2_pushBack_appends intTraits never ⟨[some [5]], 0, ⟨some 0, 1, 1⟩⟩ (.val 7) (by decide)
      (fun _ _ => rfl) (by decide)).1.2.2.1 7 rfl).1,
   (((C2_pushBack_appends stringTraits never ⟨[some ["a", ""]], 0, ⟨some 0, 1, 2⟩⟩ (.slot 0)
      (by decide) (fun _ _ => rfl) (by decide)).2.2.2.2 0 "a" rfl (by decide) (by decide)).1
      (by decide)).1⟩

/-- C2, counterexample. The call `v.PushBack(v[0])` on the full container `["a"]` of a type with
a non-throwing move reallocates, moves `v[0]` into the new block and then reads the argument in
the old block: it appends the moved-from value `""`, not `"a"`. The call
`v.PushBack(std::move(v[0]))` on `["a"]` with spare capacity appends `"a"` and leaves
`v[0]` moved-from, so the elements below the old size are not unchanged. -/
theorem C2_pushBack_element_of_itself :
    index [some ["a"]] ⟨some 0, 1, 1⟩ 0 = some "a" ∧
    (PushBack stringTraits never ⟨[some ["a"]], 0, ⟨some 0, 1, 1⟩⟩ (.slot 0)).outcome
      = .returned ∧
    elems (PushBack stringTraits never ⟨[some ["a"]], 0, ⟨some 0, 1, 1⟩⟩ (.slot 0)).st.heap
      (PushBack stringTraits never ⟨[some ["a"]], 0, ⟨some 0, 1, 1⟩⟩ (.slot 0)).st.self
      = ["a", ""] ∧
    elems (PushBack stringTraits never ⟨[some ["a"]], 0, ⟨some 0, 1, 1⟩⟩ (.slot 0)).st.heap
      (PushBack stringTraits never ⟨[some ["a"]], 0, ⟨some 0, 1, 1⟩⟩ (.slot 0)).st.self
      ≠ elems [some ["a"]] ⟨some 0, 1, 1⟩ ++ ["a"] ∧
    (PushBackMove stringTraits never ⟨[some ["a", ""]], 0, ⟨some 0, 1, 2⟩⟩ (.slot 0)).outcome
      = .returned ∧
    index (PushBackMove stringTraits never ⟨[some ["a", ""]], 0, ⟨some 0, 1, 2⟩⟩ (.slot 0)).st.heap
      (PushBackMove stringTraits never ⟨[some ["a", ""]], 0, ⟨some 0, 1, 2⟩⟩ (.slot 0)).st.self 0
      = some "" ∧
    index [some ["a", ""]] ⟨some 0, 1, 2⟩ 0 = some "a" := by
  decide

/-- C3: in the growth branch `PushBack(const T&)` first moves the elements of a type with a
non-throwing move into the new block and only then copies the value; when that copy throws, the
members are restored but the old block holds moved-from values. The container `["a"]` is left as
`[""]` by a failed `PushBack("b")`. -/
theorem C3_pushBack_growth_rollback_loses_elements :
    PushBack stringTraits (failAt 1) ⟨[some ["a"]], 0, ⟨some 0, 1, 1⟩⟩ (.val "b")
      = ⟨.threw, ⟨[some [""], none], 2, ⟨some 0, 1, 1⟩⟩⟩ ∧
    elems [some ["a"]] ⟨some 0, 1, 1⟩ = ["a"] ∧
    elems [some [""], none] ⟨some 0, 1, 1⟩ = [""] := by
  decide

/-- C4: on a container of capacity 0, `PushBack` returns normally although the allocation (first
case) or the assignment of the value (second case) failed: the handler of that branch does not
rethrow. -/
theorem C4_pushBack_zero_capacity_swallows :
    failAt 0 0 = true ∧
    PushBack intTraits (failAt 0) ⟨[], 0, ⟨none, 0, 0⟩⟩ (.val 7)
      = ⟨.returned, ⟨[], 1, ⟨none, 0, 0⟩⟩⟩ ∧
    failAt 1 1 = true ∧
    PushBack stringTraits (failAt 1) ⟨[], 0, ⟨none, 0, 0⟩⟩ (.val "b")
      = ⟨.returned, ⟨[none], 2, ⟨none, 0, 0⟩⟩⟩ := by
  decide



theorem index_eq_elems (h : Heap T) (v : Vector) (i : Nat) (hi : i < v.size_) :
    index h v i = (elems h v)[i]? := by
  simp [index, elems, List.getElem?_take, hi]

/-- C5: `Reserve(n)` with `n <= capacity()` changes nothing at all; with `n > capacity()`, when
nothing fails (no fallible step fails and `n` slots can be allocated), it returns with
`capacity() == n`, the same `size()` and the same live elements in the same order. -/
theorem C5_reserve (E : ElemTraits T) (fails : Nat → Bool) (s : State T) (n : Nat)
    (hwf : WF s.heap s.self) :
    (n ≤ Capacity s.self → Reserve E fails s n = ⟨.returned, s⟩) ∧
    (Capacity s.self < n → NoFault fails s.clock → n ≤ MAX_ARRAY_LEN →
      (Reserve E fails s n).outcome = .returned ∧
      Capacity (Reserve E fails s n).st.self = n ∧
      Size (Reserve E fails s n).st.self = Size s.self ∧
      elems (Reserve E fails s n).st.heap (Reserve E fails s n).st.self = elems s.heap s.self ∧
      ∀ i, i < Size s.self →
        index (Reserve E fails s n).st.heap (Reserve E fails s n).st.self i
          = index s.heap s.self i) := by
  obtain ⟨_, p2, p3, _, p5⟩ := Reserve_spec E fails s n hwf
  refine ⟨p2, fun hlt hnf hm => ?_⟩
  have hr := p5 hnf (fun _ => hm)
  obtain ⟨q1, q2, q3, _⟩ := p3 hr
  simp only [Capacity] at hlt
  refine ⟨hr, by simp only [Capacity, q2]; omega, q1, q3, fun i hi => ?_⟩
  simp only [Size] at hi
  rw [index_eq_elems _ _ _ (by rw [q1]; exact hi), index_eq_elems _ _ _ hi, q3]

theorem C5_reserve_witness :
    Capacity (Reserve intTraits never ⟨[some [5, 6]], 0, ⟨some 0, 2, 2⟩⟩ 5).st.self = 5 ∧
    elems (Reserve intTraits never ⟨[some [5, 6]], 0, ⟨some 0, 2, 2⟩⟩ 5).st.heap
      (Reserve intTraits never ⟨[some [5, 6]], 0, ⟨some 0, 2, 2⟩⟩ 5).st.self = [5, 6] :=
  have h := (C5_reserve intTraits never ⟨[some [5, 6]], 0, ⟨some 0, 2, 2⟩⟩ 5 (by decide)).2
    (by decide) (fun _ _ => rfl) (by decide)
  ⟨h.2.1, h.2.2.2.1⟩

/-- Shape of a successful `Resize`, element by element. -/
theorem resize_pointwise {h h' : Heap T} {v v' : Vector} {n : Nat} {x : T} (hwf : WF h v)
    (hs : v'.size_ = n)
    (he : elems h' v' = (elems h v).take n ++ List.replicate (n - v.size_) x) :
    (∀ i, i < min v.size_ n → index h' v' i = index h v i) ∧
    (∀ i, v.size_ ≤ i → i < n → index h' v' i = some x) := by
  have hl := elems_length hwf
  constructor
  · intro i hi
    rw [index_eq_elems _ _ _ (by omega), index_eq_elems _ _ _ (by omega), he]
    rw [List.getElem?_append_left (by simp [hl]; omega), List.getElem?_take_of_lt (by omega)]
  · intro i h1 h2
    rw [index_eq_elems _ _ _ (by omega), he]
    rw [List.getElem?_append_right (by simp [hl]; omega)]
    simp only [List.length_take, hl]
    rw [List.getElem?_replicate]
    simp
    omega

/-- An argument that is not an element of the container is read with its value. -/
theorem resizeArgBlock_val (E : ElemTraits T) (s : State T) (n : Nat) (x : T) :
    (Arg.val x).get E (resizeArgBlock E s n) = x := rfl

/-- An argument that is an element of the container is read with its value at the start of the
call when `Resize` does not reallocate, and when the transfer to the new block copies. -/
theorem resizeArgBlock_get (E : ElemTraits T) (s : State T) (n k : Nat) (x : T)
    (hk : index s.heap s.self k = some x)
    (hc : n ≤ s.self.capacity_ ∨ E.nothrowMove = false) :
    (Arg.slot k).get E (resizeArgBlock E s n) = x := by
  have hx := index_getD E.dflt hk
  unfold resizeArgBlock transferred
  rcases hc with hc | hc
  · simp only [Arg.get, hc, if_true]
    exact hx
  · simp only [Arg.get, hc, Bool.false_eq_true, if_false, ite_self]
    exact hx

/-- When nothing fails, `Resize(n, value)` (and `Resize(n)` with `T()`) returns with
`size() == n`, the elements below `min(old size, n)` unchanged, every element in `[old size, n)`
equal to the value read through the argument, and capacity `c` if `n <= c` and `max(2 * c, n)`
otherwise; with `n` equal to the old size the call changes nothing. -/
theorem Resize_fills (E : ElemTraits T) (fails : Nat → Bool) (s : State T) (n : Nat)
    (value : Arg T) (hwf : WF s.heap s.self) (hnf : NoFault fails s.clock)
    (hroom : Capacity s.self < n → max (2 * Capacity s.self) n ≤ MAX_ARRAY_LEN) :
    ((Resize E fails s n value).outcome = .returned ∧
      Size (Resize E fails s n value).st.self = n ∧
      (∀ i, i < min (Size s.self) n →
        index (Resize E fails s n value).st.heap (Resize E fails s n value).st.self i
          = index s.heap s.self i) ∧
      (∀ i, Size s.self ≤ i → i < n →
        index (Resize E fails s n value).st.heap (Resize E fails s n value).st.self i
          = some (value.get E (resizeArgBlock E s n))) ∧
      elems (Resize E fails s n value).st.heap (Resize E fails s n value).st.self
        = (elems s.heap s.self).take n
          ++ List.replicate (n - Size s.self) (value.get E (resizeArgBlock E s n)) ∧
      Capacity (Resize E fails s n value).st.self
        = (if n ≤ Capacity s.self then Capacity s.self else max (2 * Capacity s.self) n) ∧
      (n = Size s.self → (Resize E fails s n value).st = s)) ∧
    ((ResizeDefault E fails s n).outcome = .returned ∧
      Size (ResizeDefault E fails s n).st.self = n ∧
      (∀ i, i < min (Size s.self) n →
        index (ResizeDefault E fails s n).st.heap (ResizeDefault E fails s n).st.self i
          = index s.heap s.self i) ∧
      (∀ i, Size s.self ≤ i → i < n →
        index (ResizeDefault E fails s n).st.heap (ResizeDefault E fails s n).st.self i
          = some E.dflt) ∧
      elems (ResizeDefault E fails s n).st.heap (ResizeDefault E fails s n).st.self
        = (elems s.heap s.self).take n ++ List.replicate (n - Size s.self) E.dflt ∧
      Capacity (ResizeDefault E fails s n).st.self
        = (if n ≤ Capacity s.self then Capacity s.self else max (2 * Capacity s.self) n) ∧
      (n = Size s.self → (ResizeDefault E fails s n).st = s)) := by
  have key : ∀ y : T, (Resize E fails s n (.val y)).outcome = .returned ∧
      Size (Resize E fails s n (.val y)).st.self = n ∧
      (∀ i, i < min (Size s.self) n →
        index (Resize E fails s n (.val y)).st.heap (Resize E fails s n (.val y)).st.self i
          = index s.heap s.self i) ∧
      (∀ i, Size s.self ≤ i → i < n →
        index (Resize E fails s n (.val y)).st.heap (Resize E fails s n (.val y)).st.self i = some y) ∧
      elems (Resize E fails s n (.val y)).st.heap (Resize E fails s n (.val y)).st.self
        = (elems s.heap s.self).take n ++ List.replicate (n - Size s.self) y ∧
      Capacity (Resize E fails s n (.val y)).st.self
        = (if n ≤ Capacity s.self then Capacity s.self else max (2 * Capacity s.self) n) ∧
      (n = Size s.self → (Resize E fails s n (.val y)).st = s) := by
    intro y
    obtain ⟨_, p2, _, p4⟩ := Resize_val_spec E fails s n y hwf
    have hr := p4 hnf hroom
    obtain ⟨q1, q2, q3, _⟩ := p2 hr
    obtain ⟨r1, r2⟩ := resize_pointwise hwf q1 q2
    refine ⟨hr, q1, r1, r2, q2, q3, fun h0 => ?_⟩
    simp only [Size] at h0
    simp [Resize, h0]
  refine ⟨?_, by rw [ResizeDefault_eq]; exact key E.dflt⟩
  rw [Resize_eq_val E fails s n value hwf]
  exact key _

/-- C7: the call `v.Resize(3, v[0])` on the full container `["a"]` of a type with a non-throwing
move reallocates, moves `v[0]` into the new block and then fills the new slots with the argument
as the old block holds it, the moved-from value: the result is `["a", "", ""]`, not
`["a", "a", "a"]`. The same call on a container with spare capacity fills with `"a"`. -/
theorem C7_resize_fills_with_moved_from_argument :
    index [some ["a"]] ⟨some 0, 1, 1⟩ 0 = some "a" ∧
    (Resize stringTraits never ⟨[some ["a"]], 0, ⟨some 0, 1, 1⟩⟩ 3 (.slot 0)).outcome
      = .returned ∧
    elems (Resize stringTraits never ⟨[some ["a"]], 0, ⟨some 0, 1, 1⟩⟩ 3 (.slot 0)).st.heap
      (Resize stringTraits never ⟨[some ["a"]], 0, ⟨some 0, 1, 1⟩⟩ 3 (.slot 0)).st.self
      = ["a", "", ""] ∧
    elems (Resize stringTraits never ⟨[some ["a", "", ""]], 0, ⟨some 0, 1, 3⟩⟩ 3 (.slot 0)).st.heap
      (Resize stringTraits never ⟨[some ["a", "", ""]], 0, ⟨some 0, 1, 3⟩⟩ 3 (.slot 0)).st.self
      = ["a", "a", "a"] := by
  decide

/-- C8: a `Resize` that has to reallocate moves the elements of a type with a non-throwing move
into the new block before it fills the new slots; when a fill then throws, the members are
restored but the old block holds moved-from values. Here `["a"]` becomes `[""]`. -/
theorem C8_resize_rollback_loses_elements :
    Resize stringTraits (failAt 1) ⟨[some ["a"]], 0, ⟨some 0, 1, 1⟩⟩ 2 (.val "b")
      = ⟨.threw, ⟨[some [""], none], 2, ⟨some 0, 1, 1⟩⟩⟩ ∧
    elems [some ["a"]] ⟨some 0, 1, 1⟩ = ["a"] ∧
    elems [some [""], none] ⟨some 0, 1, 1⟩ = [""] := by
  decide


theorem Frame.read {h h' : Heap T} {own p : Option Nat} {cap : Nat} (hf : Frame h h' own)
    (ho : Owns h p cap) (hne : ∀ a, p = some a → own ≠ some a) : h'.read p = h.read p := by
  cases p with
  | none => rfl
  | some a =>
    simp only [Heap.read]
    rw [hf.2 a (ho.lt rfl) (hne a rfl)]

theorem Frame.owns {h h' : Heap T} {own p : Option Nat} {cap : Nat} (hf : Frame h h' own)
    (ho : Owns h p cap) (hne : ∀ a, p = some a → own ≠ some a) : Owns h' p cap :=
  ho.transfer (fun a ha => by rw [hf.2 a (ho.lt ha) (hne a ha)])

theorem Frame.wf {h h' : Heap T} {own : Option Nat} {v : Vector} (hf : Frame h h' own)
    (hwf : WF h v) (hne : ∀ a, v.buffer_ = some a → own ≠ some a) : WF h' v :=
  ⟨hwf.1, hwf.2.1, hf.owns hwf.2.2 hne⟩

theorem Frame.elems {h h' : Heap T} {own : Option Nat} {v : Vector} (hf : Frame h h' own)
    (hwf : WF h v) (hne : ∀ a, v.buffer_ = some a → own ≠ some a) : elems h' v = elems h v := by
  simp only [VectorH.elems, hf.read hwf.2.2 hne]

theorem Frame.trans {h1 h2 h3 : Heap T} {own : Option Nat} (h12 : Frame h1 h2 own)
    (h23 : Frame h2 h3 own) : Frame h1 h3 own :=
  ⟨h12.1.trans h23.1, fun a ha hne => by
    rw [h23.2 a (by have := h12.1; omega) hne, h12.2 a ha hne]⟩

/-- Everything the proofs use of the copy constructor. -/
theorem copyCtor_spec (E : ElemTraits T) (fails : Nat → Bool) (h : Heap T) (clk : Nat)
    (other : Vector) (hwf : WF h other) :
    Sound ⟨h, clk, Vector.init⟩ (copyCtor E fails h clk other) ∧
    ((copyCtor E fails h clk other).outcome = .returned →
      (copyCtor E fails h clk other).st.self.size_ = other.size_ ∧
      (copyCtor E fails h clk other).st.self.capacity_ = other.capacity_ ∧
      elems (copyCtor E fails h clk other).st.heap (copyCtor E fails h clk other).st.self
        = elems h other ∧
      ¬ FaultIn fails clk (copyCtor E fails h clk other).st.clock) ∧
    ((copyCtor E fails h clk other).outcome = .threw →
      (copyCtor E fails h clk other).st.self = ⟨none, 0, 0⟩ ∧
      FaultIn fails clk (copyCtor E fails h clk other).st.clock) ∧
    (NoFault fails clk → (copyCtor E fails h clk other).outcome = .returned) := by
  obtain ⟨buf, sz, cap⟩ := other
  obtain ⟨w1, w2, w3⟩ := hwf
  simp only at w1 w2 w3
  have hne := w3.ne_length
  have hrl := w3.read_length
  unfold copyCtor
  simp only [Sound, WF, Vector.init]
  by_cases hc : 0 < cap
  · simp only [hc, if_true]
    by_cases hnew : fails clk = true
    · have e : newArray E fails h clk cap = none := by simp [newArray, hnew]
      rw [e]
      simp only [reduceCtorEq, false_implies, true_implies, true_and, and_true, le_refl,
        Nat.le_add_right, Nat.zero_le, true_or]
      refine ⟨⟨rfl, Frame.refl _ _⟩, ⟨clk, le_refl _, by omega, hnew⟩, fun hnf => ?_⟩
      have := hnf clk (le_refl _)
      simp [this] at hnew
    · have hf0 : fails clk = false := by simpa using hnew
      rw [newArray_ok E fails h clk cap hf0 w2]
      simp only [Heap.read_append_old h _ buf hne, Heap.read_append_new, copyLoop_eq_initLoop]
      have hnf1 : ¬ FaultIn fails clk (clk + 1) := fun hf => by simp [hf.one] at hf0
      have hw := window_eq E (h.read buf) sz 0 (by omega)
      simp only [List.drop_zero] at hw
      have f1 := initLoop_length fails (window E (h.read buf) sz 0) 0
        (List.replicate cap E.dflt) (clk + 1)
      have f2 := initLoop_clock_le fails (window E (h.read buf) sz 0) 0
        (List.replicate cap E.dflt) (clk + 1)
      have f4 := initLoop_ok_blk fails (window E (h.read buf) sz 0) 0
        (List.replicate cap E.dflt) (clk + 1)
      have f5 := (initLoop_fillSpec fails (window E (h.read buf) sz 0) 0).ok_iff
        (List.replicate cap E.dflt) (clk + 1)
      generalize initLoop fails (window E (h.read buf) sz 0) 0 (List.replicate cap E.dflt)
        (clk + 1) = r at f1 f2 f4 f5
      simp only [List.length_replicate] at f1
      by_cases hr : r.ok = true
      · simp only [hr, if_true, reduceCtorEq, false_implies, true_implies, true_and, and_true,
          implies_true]
        have b1 : Heap.block ((h ++ [some (List.replicate cap E.dflt)]).write (some h.length)
            r.blk) h.length = some r.blk := by
          simp [Heap.block_write]
        refine ⟨⟨⟨w1, w2, ?_⟩, ⟨?_, ?_⟩, by omega, Or.inr (Or.inr ⟨_, rfl, le_refl _⟩)⟩, ?_, ?_⟩
        · simp [Owns, b1, hc, f1]
        · simp [Heap.length_write]
        · intro a ha _
          have : a ≠ h.length := by omega
          simp [Heap.block_write, Heap.block_append, ha, this]
        · simp only [elems, Heap.read_some, b1, Option.getD_some]
          rw [f4 hr (by simp [window_length]; omega), hw]
          simp only [List.take_zero, List.nil_append, List.length_take, Nat.zero_add]
          rw [List.take_append_of_le_length (by simp; omega)]
          simp [List.take_take]
        · intro hf
          rcases hf.split (b := clk + 1) with h1 | h1
          · exact hnf1 h1
          · exact (f5.1 hr) h1
      · simp only [hr, if_false, reduceCtorEq, false_implies, true_implies, true_and, and_true,
          implies_true, Bool.false_eq_true, le_refl, Nat.zero_le, true_or]
        have hff : FaultIn fails clk r.clock :=
          (not_not.1 (fun hc => hr (f5.2 hc))).mono (by omega) (le_refl _)
        refine ⟨⟨rfl, ⟨?_, ?_⟩, by omega⟩, hff, fun hnf => ?_⟩
        · simp [Heap.length_free, Heap.length_write]
        · intro a ha _
          have hne1 : a ≠ h.length := by omega
          simp [Heap.block_free, Heap.block_write, Heap.block_append, ha, hne1]
        · exact absurd hff (hnf.not_faultIn (le_refl _))
  · have hc0 : cap = 0 := by omega
    subst hc0
    have hb := w3.zero
    subst hb
    have hs : sz = 0 := by omega
    subst hs
    simp only [Nat.lt_irrefl, if_false, copyLoop, if_true, Heap.write_none, Heap.read_none,
      reduceCtorEq, false_implies, true_implies, true_and, and_true, implies_true, le_refl,
      true_or, w3]
    refine ⟨⟨Nat.zero_le _, Frame.refl _ _⟩, ?_⟩
    rintro ⟨j, j1, j2, _⟩
    omega


theorem Frame.weaken {h h' : Heap T} {own : Option Nat} (hf : Frame h h' none) :
    Frame h h' own :=
  ⟨hf.1, fun a ha _ => hf.2 a ha (by simp)⟩

theorem Frame.free {h h' : Heap T} {own : Option Nat} (hf : Frame h h' own) :
    Frame h (h'.free own) own :=
  ⟨by rw [Heap.length_free]; exact hf.1, fun a ha hne => by
    rw [Heap.block_free_opt, if_neg hne, hf.2 a ha hne]⟩

/-- Everything the proofs use of the copy assignment between two distinct objects. -/
theorem copyAssign_spec (E : ElemTraits T) (fails : Nat → Bool) (s : State T)
    (thisAddr otherAddr : Nat) (other : Vector) (hwf : WF s.heap s.self)
    (hwo : WF s.heap other) (hne : thisAddr ≠ otherAddr) :
    Sound s (copyAssign E fails s thisAddr otherAddr other) ∧
    ((copyAssign E fails s thisAddr otherAddr other).outcome = .returned →
      (copyAssign E fails s thisAddr otherAddr other).st.self.size_ = other.size_ ∧
      (copyAssign E fails s thisAddr otherAddr other).st.self.capacity_ = other.capacity_ ∧
      ((∀ a, other.buffer_ = some a → s.self.buffer_ ≠ some a) →
        elems (copyAssign E fails s thisAddr otherAddr other).st.heap
          (copyAssign E fails s thisAddr otherAddr other).st.self = elems s.heap other) ∧
      ¬ FaultIn fails s.clock (copyAssign E fails s thisAddr otherAddr other).st.clock) ∧
    ((copyAssign E fails s thisAddr otherAddr other).outcome = .threw →
      (copyAssign E fails s thisAddr otherAddr other).st.self = s.self ∧
      (copyAssign E fails s thisAddr otherAddr other).st.heap.read s.self.buffer_
        = s.heap.read s.self.buffer_ ∧
      FaultIn fails s.clock (copyAssign E fails s thisAddr otherAddr other).st.clock) ∧
    (NoFault fails s.clock →
      (copyAssign E fails s thisAddr otherAddr other).outcome = .returned) := by
  obtain ⟨⟨c1, c2, c3, c4⟩, p2, p3, p4⟩ := copyCtor_spec E fails s.heap s.clock other hwo
  unfold copyAssign
  simp only [hne, ne_eq, not_false_eq_true, if_true]
  simp only [Vector.init] at c1 c2 c3 c4
  cases hr : (copyCtor E fails s.heap s.clock other).outcome with
  | returned =>
    simp only [Swap, destroy, Heap.free_none, reduceCtorEq, false_implies, true_implies, and_true,
      implies_true]
    obtain ⟨q1, q2, q3, q4⟩ := p2 hr
    have hfr : ∀ a, (copyCtor E fails s.heap s.clock other).st.self.buffer_ = some a →
        s.self.buffer_ ≠ some a := by
      intro a ha hb
      have hlt := hwf.2.2.lt hb
      rcases c4 with h1 | h1 | ⟨b, h1, h2⟩
      · rw [h1] at ha; cases ha
      · rw [h1] at ha; cases ha
      · rw [h1] at ha
        cases ha
        omega
    have hF : Frame (copyCtor E fails s.heap s.clock other).st.heap
        ((copyCtor E fails s.heap s.clock other).st.heap.free s.self.buffer_) s.self.buffer_ :=
      (Frame.refl _ _).free
    refine ⟨⟨hF.wf c1 hfr, (Frame.weaken c2).free, c3, ?_⟩, q1, q2, fun hdis => ?_, q4⟩
    · rcases c4 with h1 | h1 | h1
      · exact Or.inr (Or.inl h1)
      · exact Or.inr (Or.inl h1)
      · exact Or.inr (Or.inr h1)
    · have := hF.elems c1 hfr
      simp only [elems] at this q3 ⊢
      rw [this, q3]
  | threw =>
    simp only [reduceCtorEq, false_implies, true_implies, true_and, and_true]
    obtain ⟨_, q2⟩ := p3 hr
    have hF : Frame s.heap (copyCtor E fails s.heap s.clock other).st.heap s.self.buffer_ :=
      Frame.weaken c2
    refine ⟨⟨⟨hwf.1, hwf.2.1, c2.owns hwf.2.2 (fun _ _ => by simp)⟩, hF, c3, Or.inl rfl⟩,
      ⟨c2.read hwf.2.2 (fun _ _ => by simp), q2⟩, fun hnf => ?_⟩
    exact absurd q2 (hnf.not_faultIn (le_refl _))

/-- C9: copy assignment between distinct objects (which own distinct blocks) either returns, and then the target has the
source's `size()`, `capacity()` and elements while the source's block is untouched, or throws,
and then the target's members and its whole block are as before and the source's block is
untouched; when nothing fails it returns. Assigning an object to itself changes nothing. -/
theorem C9_copy_assign_strong (E : ElemTraits T) (fails : Nat → Bool) (s : State T)
    (thisAddr otherAddr : Nat) (other : Vector) (hwf : WF s.heap s.self)
    (hwo : WF s.heap other) :
    (thisAddr ≠ otherAddr → (∀ a, other.buffer_ = some a → s.self.buffer_ ≠ some a) →
      ((copyAssign E fails s thisAddr otherAddr other).outcome = .returned →
        Size (copyAssign E fails s thisAddr otherAddr other).st.self = Size other ∧
        Capacity (copyAssign E fails s thisAddr otherAddr other).st.self = Capacity other ∧
        elems (copyAssign E fails s thisAddr otherAddr other).st.heap
          (copyAssign E fails s thisAddr otherAddr other).st.self = elems s.heap other ∧
        (copyAssign E fails s thisAddr otherAddr other).st.heap.read (Data other)
          = s.heap.read (Data other)) ∧
      ((copyAssign E fails s thisAddr otherAddr other).outcome = .threw →
        (copyAssign E fails s thisAddr otherAddr other).st.self = s.self ∧
        (copyAssign E fails s thisAddr otherAddr other).st.heap.read (Data s.self)
          = s.heap.read (Data s.self) ∧
        elems (copyAssign E fails s thisAddr otherAddr other).st.heap
          (copyAssign E fails s thisAddr otherAddr other).st.self = elems s.heap s.self ∧
        (copyAssign E fails s thisAddr otherAddr other).st.heap.read (Data other)
          = s.heap.read (Data other)) ∧
      (NoFault fails s.clock →
        (copyAssign E fails s thisAddr otherAddr other).outcome = .returned)) ∧
    (thisAddr = otherAddr → copyAssign E fails s thisAddr otherAddr other = ⟨.returned, s⟩) := by
  constructor
  · intro hne hdis
    obtain ⟨⟨_, c2, _, _⟩, p2, p3, p4⟩ :=
      copyAssign_spec E fails s thisAddr otherAddr other hwf hwo hne
    have hro := c2.read hwo.2.2 (fun a ha hb => hdis a ha hb)
    refine ⟨fun hr => ?_, fun ht => ?_, p4⟩
    · obtain ⟨q1, q2, q3, _⟩ := p2 hr
      exact ⟨q1, q2, q3 hdis, hro⟩
    · obtain ⟨q1, q2, _⟩ := p3 ht
      refine ⟨q1, q2, ?_, hro⟩
      rw [q1]
      simp only [elems, q2]
  · intro he
    simp [copyAssign, he]

theorem C9_copy_assign_strong_witness :
    elems (copyAssign intTraits never ⟨[some [5], some [7, 8, 0]], 0, ⟨some 0, 1, 1⟩⟩ 0 1
      ⟨some 1, 2, 3⟩).st.heap
      (copyAssign intTraits never ⟨[some [5], some [7, 8, 0]], 0, ⟨some 0, 1, 1⟩⟩ 0 1
        ⟨some 1, 2, 3⟩).st.self = [7, 8] :=
  (((C9_copy_assign_strong intTraits never ⟨[some [5], some [7, 8, 0]], 0, ⟨some 0, 1, 1⟩⟩ 0 1
    ⟨some 1, 2, 3⟩ (by decide) (by decide)).1 (by decide) (by decide)).1 (by decide)).2.2.1



theorem get?_set_cases (l : List Vector) (i j : Nat) (x v : Vector)
    (h : (l.set i x).get? j = some v) : (j = i ∧ v = x ∧ i < l.length) ∨ (j ≠ i ∧ l.get? j = some v) := by
  simp only [List.get?_eq_getElem?, List.getElem?_set] at h ⊢
  by_cases hij : i = j
  · subst hij
    simp only [if_true] at h
    by_cases hl : i < l.length
    · simp only [hl, if_true, Option.some.injEq] at h
      exact Or.inl ⟨rfl, h.symm, hl⟩
    · simp [hl] at h
  · simp only [hij, if_false] at h
    exact Or.inr ⟨fun e => hij e.symm, h⟩

theorem get?_append_cases (l : List Vector) (j : Nat) (x v : Vector)
    (h : (l ++ [x]).get? j = some v) : (j = l.length ∧ v = x) ∨ (j < l.length ∧ l.get? j = some v) := by
  simp only [List.get?_eq_getElem?] at h ⊢
  by_cases hj : j < l.length
  · rw [List.getElem?_append_left hj] at h
    exact Or.inr ⟨hj, h⟩
  · rw [List.getElem?_append_right (by omega)] at h
    by_cases hj2 : j = l.length
    · subst hj2
      simp at h
      exact Or.inl ⟨rfl, h.symm⟩
    · have : j - l.length ≠ 0 := by omega
      obtain ⟨k, hk⟩ := Nat.exists_eq_succ_of_ne_zero this
      rw [hk] at h
      simp at h

theorem get?_lt {l : List Vector} {j : Nat} {v : Vector} (h : l.get? j = some v) : j < l.length := by
  simp only [List.get?_eq_getElem?] at h
  by_contra hc
  rw [List.getElem?_eq_none (by omega)] at h
  cases h

/-- A member function that is `Sound` keeps the invariant of the world. -/
theorem Inv.member {w : World T} (i : Nat) (f : State T → Result T) (hinv : Inv w)
    (hs : ∀ v, w.objs.get? i = some v → Sound ⟨w.heap, w.clock, v⟩ (f ⟨w.heap, w.clock, v⟩)) :
    Inv (w.member i f) := by
  unfold World.member
  cases hv : w.objs.get? i with
  | none => exact hinv
  | some v =>
    obtain ⟨s1, s2, _, s4⟩ := hs v hv
    simp only at s1 s2 s4 ⊢
    have hother : ∀ j vj, j ≠ i → w.objs.get? j = some vj →
        ∀ a, vj.buffer_ = some a → v.buffer_ ≠ some a :=
      fun j vj hji hj a ha => hinv.2 j i vj v a hji hj hv ha
    have hfresh : ∀ j vj a, j ≠ i → w.objs.get? j = some vj → vj.buffer_ = some a →
        (f ⟨w.heap, w.clock, v⟩).st.self.buffer_ ≠ some a := by
      intro j vj a hji hj ha hb
      rcases s4 with h1 | h1 | ⟨b, h1, h2⟩
      · rw [h1] at hb
        exact hother j vj hji hj a ha hb
      · rw [h1] at hb; cases hb
      · rw [h1] at hb
        cases hb
        have := (hinv.1 j vj hj).2.2.lt ha
        omega
    constructor
    · intro j vj hj
      rcases get?_set_cases _ _ _ _ _ hj with ⟨_, rfl, _⟩ | ⟨hji, hj'⟩
      · exact s1
      · exact s2.wf (hinv.1 j vj hj') (hother j vj hji hj')
    · intro j k vj vk a hjk hj hk ha hb
      rcases get?_set_cases _ _ _ _ _ hj with ⟨rfl, rfl, _⟩ | ⟨hji, hj'⟩
      · rcases get?_set_cases _ _ _ _ _ hk with ⟨rfl, _, _⟩ | ⟨hki, hk'⟩
        · exact hjk rfl
        · exact hfresh k vk a hki hk' hb ha
      · rcases get?_set_cases _ _ _ _ _ hk with ⟨rfl, rfl, _⟩ | ⟨hki, hk'⟩
        · exact hfresh j vj a hji hj' ha hb
        · exact hinv.2 j k vj vk a hjk hj' hk' ha hb

/-- A constructor that is `Sound` keeps the invariant of the world. -/
theorem Inv.construct {w : World T} (r : Result T) (hinv : Inv w)
    (hs : Sound ⟨w.heap, w.clock, Vector.init⟩ r) : Inv (w.construct r) := by
  obtain ⟨s1, s2, _, s4⟩ := hs
  simp only [Vector.init] at s1 s2 s4
  have hkeep : ∀ j vj, w.objs.get? j = some vj → WF r.st.heap vj :=
    fun j vj hj => s2.wf (hinv.1 j vj hj) (fun _ _ => by simp)
  unfold World.construct
  cases r.outcome with
  | threw => exact ⟨hkeep, hinv.2⟩
  | returned =>
    simp only
    have hfresh : ∀ j vj a, w.objs.get? j = some vj → vj.buffer_ = some a →
        r.st.self.buffer_ ≠ some a := by
      intro j vj a hj ha hb
      rcases s4 with h1 | h1 | ⟨b, h1, h2⟩
      · rw [h1] at hb; cases hb
      · rw [h1] at hb; cases hb
      · rw [h1] at hb
        cases hb
        have := (hinv.1 j vj hj).2.2.lt ha
        omega
    constructor
    · intro j vj hj
      rcases get?_append_cases _ _ _ _ hj with ⟨_, rfl⟩ | ⟨_, hj'⟩
      · exact s1
      · exact hkeep j vj hj'
    · intro j k vj vk a hjk hj hk ha hb
      rcases get?_append_cases _ _ _ _ hj with ⟨rfl, rfl⟩ | ⟨hjl, hj'⟩
      · rcases get?_append_cases _ _ _ _ hk with ⟨rfl, _⟩ | ⟨hkl, hk'⟩
        · exact hjk rfl
        · exact hfresh k vk a hk' hb ha
      · rcases get?_append_cases _ _ _ _ hk with ⟨rfl, rfl⟩ | ⟨hkl, hk'⟩
        · exact hfresh j vj a hj' ha hb
        · exact hinv.2 j k vj vk a hjk hj' hk' ha hb


theorem WF.init (h : Heap T) : WF h Vector.init :=
  ⟨le_refl _, Nat.zero_le _, rfl⟩

theorem rangeCtor_eq (E : ElemTraits T) (fails : Nat → Bool) (h : Heap T) (clk : Nat)
    (vals : List T) : rangeCtor E fails h clk vals = initListCtor E fails h clk vals := rfl

/-- Everything the proofs use of the constructors from a sequence of values. -/
theorem initListCtor_spec (E : ElemTraits T) (fails : Nat → Bool) (h : Heap T) (clk : Nat)
    (vals : List T) :
    Sound ⟨h, clk, Vector.init⟩ (initListCtor E fails h clk vals) ∧
    ((initListCtor E fails h clk vals).outcome = .returned →
      (initListCtor E fails h clk vals).st.self.size_ = vals.length ∧
      (initListCtor E fails h clk vals).st.self.capacity_ = vals.length ∧
      elems (initListCtor E fails h clk vals).st.heap (initListCtor E fails h clk vals).st.self
        = vals ∧
      (vals = [] → (initListCtor E fails h clk vals).st.self.buffer_ = none) ∧
      ¬ FaultIn fails clk (initListCtor E fails h clk vals).st.clock) ∧
    ((initListCtor E fails h clk vals).outcome = .threw →
      (initListCtor E fails h clk vals).st.self = ⟨none, 0, 0⟩ ∧
      (FaultIn fails clk (initListCtor E fails h clk vals).st.clock ∨
        MAX_ARRAY_LEN < vals.length)) ∧
    (NoFault fails clk → vals.length ≤ MAX_ARRAY_LEN →
      (initListCtor E fails h clk vals).outcome = .returned) := by
  unfold initListCtor
  simp only [Sound, WF, Vector.init]
  by_cases hc : 0 < vals.length
  · simp only [hc, if_true]
    by_cases hnew : fails clk = true ∨ MAX_ARRAY_LEN < vals.length
    · have e : newArray E fails h clk vals.length = none := by simp [newArray, hnew]
      rw [e]
      simp only [reduceCtorEq, false_implies, true_implies, true_and, and_true, le_refl,
        Nat.le_add_right, Nat.zero_le, true_or]
      refine ⟨⟨rfl, Frame.refl _ _⟩, ?_, fun hnf hm => ?_⟩
      · rcases hnew with hf | hm
        · exact Or.inl ⟨clk, le_refl _, by omega, hf⟩
        · exact Or.inr hm
      · have := hnf clk (le_refl _)
        rcases hnew with hf | hm'
        · simp [this] at hf
        · omega
    · have hm : vals.length ≤ MAX_ARRAY_LEN := by
        by_contra hcc
        exact hnew (Or.inr (by omega))
      have hf0 : fails clk = false := by
        cases hfc : fails clk with
        | false => rfl
        | true => exact absurd (Or.inl hfc) hnew
      rw [newArray_ok E fails h clk vals.length hf0 hm]
      simp only [Heap.read_append_new]
      have hnf1 : ¬ FaultIn fails clk (clk + 1) := fun hf => by simp [hf.one] at hf0
      have f1 := initLoop_length fails vals 0 (List.replicate vals.length E.dflt) (clk + 1)
      have f2 := initLoop_clock_le fails vals 0 (List.replicate vals.length E.dflt) (clk + 1)
      have f4 := initLoop_ok_blk fails vals 0 (List.replicate vals.length E.dflt) (clk + 1)
      have f5 := (initLoop_fillSpec fails vals 0).ok_iff (List.replicate vals.length E.dflt)
        (clk + 1)
      generalize initLoop fails vals 0 (List.replicate vals.length E.dflt) (clk + 1) = r
        at f1 f2 f4 f5
      simp only [List.length_replicate] at f1
      by_cases hr : r.ok = true
      · simp only [hr, if_true, reduceCtorEq, false_implies, true_implies, true_and, and_true,
          implies_true, le_refl]
        have b1 : Heap.block ((h ++ [some (List.replicate vals.length E.dflt)]).write
            (some h.length) r.blk) h.length = some r.blk := by
          simp [Heap.block_write]
        refine ⟨⟨⟨hm, ?_⟩, ⟨?_, ?_⟩, by omega, Or.inr (Or.inr ⟨_, rfl, le_refl _⟩)⟩, ?_, ?_, ?_⟩
        · simp [Owns, b1, hc, f1]
        · simp [Heap.length_write]
        · intro a ha _
          have : a ≠ h.length := by omega
          simp [Heap.block_write, Heap.block_append, ha, this]
        · simp only [elems, Heap.read_some, b1, Option.getD_some]
          rw [f4 hr (by simp)]
          simp
        · intro hv
          rw [hv] at hc
          simp at hc
        · intro hf
          rcases hf.split (b := clk + 1) with h1 | h1
          · exact hnf1 h1
          · exact (f5.1 hr) h1
      · simp only [hr, if_false, reduceCtorEq, false_implies, true_implies, true_and, and_true,
          implies_true, Bool.false_eq_true, le_refl, Nat.zero_le, true_or]
        have hff : FaultIn fails clk r.clock :=
          (not_not.1 (fun hc => hr (f5.2 hc))).mono (by omega) (le_refl _)
        refine ⟨⟨rfl, ⟨?_, ?_⟩, by omega⟩, Or.inl hff, fun hnf _ => ?_⟩
        · simp [Heap.length_free, Heap.length_write]
        · intro a ha _
          have hne1 : a ≠ h.length := by omega
          simp [Heap.block_free, Heap.block_write, Heap.block_append, ha, hne1]
        · exact absurd hff (hnf.not_faultIn (le_refl _))
  · have hv : vals = [] := List.length_eq_zero.1 (by omega)
    subst hv
    simp only [List.length_nil, Nat.lt_irrefl, if_false, initLoop, if_true, Heap.write_none,
      reduceCtorEq, false_implies, true_implies, true_and, and_true, implies_true, le_refl,
      true_or]
    refine ⟨⟨⟨Nat.zero_le _, rfl⟩, Frame.refl _ _⟩, rfl, ?_⟩
    rintro ⟨j, j1, j2, _⟩
    omega

theorem Clear_sound (s : State T) (hwf : WF s.heap s.self) : Sound s ⟨.returned, Clear s⟩ :=
  ⟨⟨Nat.zero_le _, hwf.2.1, hwf.2.2⟩, Frame.refl _ _, le_refl _, Or.inl rfl⟩

theorem PopBack_sound (s : State T) (hwf : WF s.heap s.self) (hne : s.self.size_ ≠ 0) :
    Sound s ⟨.returned, PopBack s⟩ := by
  obtain ⟨h, clk, ⟨b, sz, cap⟩⟩ := s
  obtain ⟨h1, h2, h3⟩ := hwf
  simp only at h1 h2 h3 hne
  have hd : decr sz ≤ cap := by
    unfold MAX_ARRAY_LEN at h2
    unfold decr SIZE_MOD
    omega
  simp only [Sound, WF, PopBack]
  exact ⟨⟨hd, h2, h3⟩, Frame.refl _ _, Nat.le_refl _, Or.inl trivial⟩

theorem storeIndex_sound (s : State T) (idx : Nat) (x : T) (hwf : WF s.heap s.self) :
    Sound s ⟨.returned, storeIndex s idx x⟩ := by
  obtain ⟨b1, b2, _⟩ := overwrite_heap ((s.heap.read s.self.buffer_).set idx x) hwf.2.2
    (by rw [List.length_set]; exact hwf.2.2.read_length)
  exact ⟨⟨hwf.1, hwf.2.1, b1⟩, b2, le_refl _, Or.inl rfl⟩

theorem copyAssign_sound (E : ElemTraits T) (fails : Nat → Bool) (s : State T)
    (thisAddr otherAddr : Nat) (other : Vector) (hwf : WF s.heap s.self)
    (hwo : WF s.heap other) : Sound s (copyAssign E fails s thisAddr otherAddr other) := by
  by_cases hne : thisAddr = otherAddr
  · have : copyAssign E fails s thisAddr otherAddr other = ⟨.returned, s⟩ := by
      simp [copyAssign, hne]
    rw [this]
    exact Sound.unchanged _ hwf
  · exact (copyAssign_spec E fails s thisAddr otherAddr other hwf hwo hne).1


/-- The invariant survives a change of the object table in which every object either owns
nothing or is an old object found at index `π k`, with owners kept distinct. -/
theorem Inv.remap {w : World T} (hinv : Inv w) (h' : Heap T) (clk : Nat) (objs' : List Vector)
    (own : Option Nat) (hF : Frame w.heap h' own) (π : Nat → Nat)
    (hmap : ∀ k vk, objs'.get? k = some vk →
      (vk.buffer_ = none ∧ WF h' vk) ∨
      (w.objs.get? (π k) = some vk ∧ ∀ a, vk.buffer_ = some a → own ≠ some a))
    (hinj : ∀ k k' vk vk', k ≠ k' → objs'.get? k = some vk → objs'.get? k' = some vk' →
      vk.buffer_ ≠ none → vk'.buffer_ ≠ none → π k ≠ π k') :
    Inv ⟨h', clk, objs'⟩ := by
  constructor
  · intro k vk hk
    rcases hmap k vk hk with ⟨_, hw⟩ | ⟨ho, hne⟩
    · exact hw
    · exact hF.wf (hinv.1 _ vk ho) hne
  · intro k k' vk vk' a hkk hk hk' ha hb
    rcases hmap k vk hk with ⟨hn, _⟩ | ⟨ho, _⟩
    · rw [hn] at ha; cases ha
    · rcases hmap k' vk' hk' with ⟨hn', _⟩ | ⟨ho', _⟩
      · rw [hn'] at hb; cases hb
      · exact hinv.2 (π k) (π k') vk vk' a
          (hinj k k' vk vk' hkk hk hk' (by rw [ha]; simp) (by rw [hb]; simp)) ho ho' ha hb

theorem Vector.eta (v : Vector) : (⟨v.buffer_, v.size_, v.capacity_⟩ : Vector) = v := rfl

theorem step_inv (E : ElemTraits T) (fails : Nat → Bool) (w : World T) (op : Op T)
    (hinv : Inv w) (hv : op.valid w) : Inv (step E fails w op) := by
  cases op with
  | defaultCtor =>
    have : step E fails w .defaultCtor
        = w.construct ⟨.returned, ⟨w.heap, w.clock, Vector.init⟩⟩ := rfl
    rw [this]
    exact Inv.construct _ hinv (Sound.unchanged _ (WF.init _))
  | copyCtor src =>
    simp only [step]
    cases ho : w.objs.get? src with
    | none => exact hinv
    | some o => exact Inv.construct _ hinv (copyCtor_spec E fails _ _ o (hinv.1 src o ho)).1
  | moveCtor src =>
    simp only [step]
    cases ho : w.objs.get? src with
    | none => exact hinv
    | some o =>
      simp only [moveCtor, Vector.eta]
      refine Inv.remap hinv w.heap w.clock _ none (Frame.refl _ _)
        (fun k => if k = w.objs.length then src else k) ?_ ?_
      · intro k vk hk
        rcases get?_append_cases _ _ _ _ hk with ⟨hkl, rfl⟩ | ⟨hkl, hk'⟩
        · rw [List.length_set] at hkl
          refine Or.inr ⟨?_, fun _ _ => by simp⟩
          beta_reduce
          rw [if_pos hkl]
          exact ho
        · rw [List.length_set] at hkl
          rcases get?_set_cases _ _ _ _ _ hk' with ⟨_, rfl, _⟩ | ⟨_, hk''⟩
          · exact Or.inl ⟨rfl, WF.init _⟩
          · refine Or.inr ⟨?_, fun _ _ => by simp⟩
            beta_reduce
            rw [if_neg (by omega)]
            exact hk''
      · intro k k' vk vk' hkk hk hk' hb hb'
        have key : ∀ j vj, (w.objs.set src ⟨none, 0, 0⟩ ++ [o]).get? j = some vj →
            vj.buffer_ ≠ none → (j = w.objs.length ∨ (j < w.objs.length ∧ j ≠ src)) := by
          intro j vj hj hbj
          rcases get?_append_cases _ _ _ _ hj with ⟨hjl, _⟩ | ⟨hjl, hj'⟩
          · rw [List.length_set] at hjl
            exact Or.inl hjl
          · rw [List.length_set] at hjl
            rcases get?_set_cases _ _ _ _ _ hj' with ⟨_, rfl, _⟩ | ⟨hjs, _⟩
            · exact absurd rfl hbj
            · exact Or.inr ⟨hjl, hjs⟩
        have hsl := get?_lt ho
        beta_reduce
        rcases key k vk hk hb with h1 | ⟨h1, h2⟩ <;>
          rcases key k' vk' hk' hb' with h3 | ⟨h3, h4⟩
        · omega
        · rw [if_pos h1, if_neg (by omega)]
          exact fun e => h4 e.symm
        · rw [if_neg (by omega), if_pos h3]
          exact h2
        · rw [if_neg (by omega), if_neg (by omega)]
          exact hkk
  | initListCtor vals =>
    exact Inv.construct _ hinv (initListCtor_spec E fails _ _ vals).1
  | rangeCtor vals =>
    exact Inv.construct _ hinv (initListCtor_spec E fails _ _ vals).1
  | sizedCtor n =>
    exact Inv.construct _ hinv (ResizeDefault_sound E fails _ n (WF.init _))
  | sizedValueCtor n x =>
    exact Inv.construct _ hinv (Resize_sound E fails _ n (.val x) (WF.init _))
  | copyAssign dst src =>
    simp only [step]
    cases ho : w.objs.get? src with
    | none => exact hinv
    | some o =>
      exact Inv.member dst _ hinv
        (fun v hv => copyAssign_sound E fails _ dst src o (hinv.1 dst v hv) (hinv.1 src o ho))
  | moveAssign dst src =>
    simp only [step]
    cases hd : w.objs.get? dst with
    | none => exact hinv
    | some d =>
      cases ho : w.objs.get? src with
      | none => exact hinv
      | some o =>
        simp only
        by_cases hds : dst = src
        · subst hds
          have hod : o = d := by rw [hd] at ho; exact (Option.some.inj ho).symm
          subst hod
          simp only [moveAssign, ne_eq, not_true_eq_false, if_false]
          refine Inv.remap hinv w.heap w.clock _ none (Frame.refl _ _) (fun k => k) ?_ ?_
          · intro k vk hk
            rcases get?_set_cases _ _ _ _ _ hk with ⟨rfl, rfl, _⟩ | ⟨_, hk'⟩
            · exact Or.inr ⟨hd, fun _ _ => by simp⟩
            · rcases get?_set_cases _ _ _ _ _ hk' with ⟨rfl, rfl, _⟩ | ⟨_, hk''⟩
              · exact Or.inr ⟨hd, fun _ _ => by simp⟩
              · exact Or.inr ⟨hk'', fun _ _ => by simp⟩
          · intro k k' _ _ hkk _ _ _ _
            exact hkk
        · simp only [moveAssign, ne_eq, hds, not_false_eq_true, if_true, moveCtor, Swap, destroy,
            Vector.eta]
          refine Inv.remap hinv _ w.clock _ d.buffer_ (Frame.refl _ _).free
            (fun k => if k = dst then src else k) ?_ ?_
          · intro k vk hk
            rcases get?_set_cases _ _ _ _ _ hk with ⟨rfl, rfl, _⟩ | ⟨hkd, hk'⟩
            · refine Or.inr ⟨?_, fun a ha hb => ?_⟩
              · beta_reduce
                rw [if_pos rfl]
                exact ho
              · exact hinv.2 src k vk d a (fun e => hds e.symm) ho hd ha hb
            · rcases get?_set_cases _ _ _ _ _ hk' with ⟨_, rfl, _⟩ | ⟨_, hk''⟩
              · exact Or.inl ⟨rfl, WF.init _⟩
              · refine Or.inr ⟨?_, fun a ha hb => ?_⟩
                · beta_reduce
                  rw [if_neg hkd]
                  exact hk''
                · exact hinv.2 k dst vk d a hkd hk'' hd ha hb
          · intro k k' vk vk' hkk hk hk' hb hb'
            have key : ∀ j vj, ((w.objs.set src ⟨none, 0, 0⟩).set dst o).get? j = some vj →
                vj.buffer_ ≠ none → (j = dst ∨ (j ≠ dst ∧ j ≠ src)) := by
              intro j vj hj hbj
              rcases get?_set_cases _ _ _ _ _ hj with ⟨hjd, _, _⟩ | ⟨hjd, hj'⟩
              · exact Or.inl hjd
              · rcases get?_set_cases _ _ _ _ _ hj' with ⟨_, rfl, _⟩ | ⟨hjs, _⟩
                · exact absurd rfl hbj
                · exact Or.inr ⟨hjd, hjs⟩
            beta_reduce
            rcases key k vk hk hb with h1 | ⟨h1, h2⟩ <;>
              rcases key k' vk' hk' hb' with h3 | ⟨h3, h4⟩
            · omega
            · rw [if_pos h1, if_neg h3]
              exact fun e => h4 e.symm
            · rw [if_neg h1, if_pos h3]
              exact h2
            · rw [if_neg h1, if_neg h3]
              exact hkk
  | reserve i n =>
    exact Inv.member i _ hinv (fun v hv => (Reserve_spec E fails _ n (hinv.1 i v hv)).1)
  | shrinkToFit i =>
    exact Inv.member i _ hinv (fun v hv => (ShrinkToFit_spec E fails _ (hinv.1 i v hv)).1)
  | resize i n x =>
    exact Inv.member i _ hinv (fun v hv => Resize_sound E fails _ n x (hinv.1 i v hv))
  | resizeDefault i n =>
    exact Inv.member i _ hinv (fun v hv => ResizeDefault_sound E fails _ n (hinv.1 i v hv))
  | clear i =>
    exact Inv.member i _ hinv (fun v hv => Clear_sound _ (hinv.1 i v hv))
  | pushBack i x =>
    exact Inv.member i _ hinv (fun v hv => PushBack_sound E fails _ x (hinv.1 i v hv))
  | pushBackMove i x =>
    exact Inv.member i _ hinv (fun v hv => PushBackMove_sound E fails _ x (hinv.1 i v hv))
  | popBack i =>
    exact Inv.member i (fun s => ⟨.returned, PopBack s⟩) hinv
      (fun v hv' => PopBack_sound ⟨w.heap, w.clock, v⟩ (hinv.1 i v hv') (hv v hv'))
  | swap i j =>
    simp only [step]
    cases ha : w.objs.get? i with
    | none => exact hinv
    | some a =>
      cases hb : w.objs.get? j with
      | none => exact hinv
      | some b =>
        simp only [Swap, Vector.eta]
        refine Inv.remap hinv w.heap w.clock _ none (Frame.refl _ _)
          (fun k => if k = j then i else if k = i then j else k) ?_ ?_
        · intro k vk hk
          refine Or.inr ⟨?_, fun _ _ => by simp⟩
          beta_reduce
          rcases get?_set_cases _ _ _ _ _ hk with ⟨rfl, rfl, _⟩ | ⟨hkj, hk'⟩
          · rw [if_pos rfl]
            exact ha
          · rw [if_neg hkj]
            rcases get?_set_cases _ _ _ _ _ hk' with ⟨rfl, rfl, _⟩ | ⟨hki, hk''⟩
            · rw [if_pos rfl]
              exact hb
            · rw [if_neg hki]
              exact hk''
        · intro k k' _ _ hkk _ _ _ _
          beta_reduce
          split_ifs <;> omega
  | store i idx x =>
    exact Inv.member i _ hinv (fun v hv => storeIndex_sound _ idx x (hinv.1 i v hv))



theorem Inv.initial : Inv (World.initial : World T) := by
  constructor
  · intro i v hv
    cases i with
    | zero =>
      simp only [World.initial, defaultCtor, List.get?_cons_zero, Option.some.injEq] at hv
      subst hv
      exact WF.init _
    | succ n => simp [World.initial] at hv
  · intro i j vi vj a _ hi _ ha
    cases i with
    | zero =>
      simp only [World.initial, defaultCtor, List.get?_cons_zero, Option.some.injEq] at hi
      subst hi
      cases ha
    | succ n => simp [World.initial] at hi

theorem run_inv (E : ElemTraits T) (fails : Nat → Bool) (ops : List (Op T)) (w : World T)
    (hinv : Inv w) (hv : ValidFrom E fails w ops) : Inv (run E fails w ops) := by
  induction ops generalizing w with
  | nil => exact hinv
  | cons op rest ih => exact ih _ (step_inv E fails w op hinv hv.1) hv.2

theorem ValidFrom.firstOps (E : ElemTraits T) (fails : Nat → Bool) (ops : List (Op T)) (w : World T)
    (k : Nat) (hv : ValidFrom E fails w ops) : ValidFrom E fails w (ops.take k) := by
  induction ops generalizing w k with
  | nil => simpa using hv
  | cons op rest ih =>
    cases k with
    | zero => exact trivial
    | succ k => exact ⟨hv.1, ih _ k hv.2⟩

/-- C1: run any program of public operations from a world holding one default-constructed
`Vector`, each `PopBack` applied to a non-empty container only; after every call (after the
first `k` calls, for every `k`), whatever calls failed, every object has
`size() <= capacity()`. -/
theorem C1_size_le_capacity (E : ElemTraits T) (fails : Nat → Bool) (ops : List (Op T))
    (k : Nat) (hv : ValidFrom E fails World.initial ops) :
    ∀ v ∈ (run E fails World.initial (ops.take k)).objs, Size v ≤ Capacity v := by
  intro v hmem
  have hinv := run_inv E fails (ops.take k) World.initial Inv.initial
    (ValidFrom.firstOps E fails ops _ k hv)
  obtain ⟨i, hi⟩ := List.get?_of_mem hmem
  exact (hinv.1 i v hi).1

theorem C1_size_le_capacity_witness :
    (run stringTraits (failAt 3) World.initial
      ([.pushBack 0 (.val "a"), .pushBack 0 (.slot 0), .popBack 0, .resize 0 5 (.val "c")].take 4)).objs
        = [⟨some 2, 5, 5⟩] ∧
    Size (⟨some 2, 5, 5⟩ : Vector) ≤ Capacity (⟨some 2, 5, 5⟩ : Vector) :=
  ⟨by decide, C1_size_le_capacity stringTraits (failAt 3)
    [.pushBack 0 (.val "a"), .pushBack 0 (.slot 0), .popBack 0, .resize 0 5 (.val "c")] 4
    ⟨trivial, trivial, by simp only [Op.valid]; decide, trivial, trivial⟩ ⟨some 2, 5, 5⟩
    (by decide)⟩

theorem get?_set_ne' (l : List Vector) (i j : Nat) (x : Vector) (h : j ≠ i) :
    (l.set i x).get? j = l.get? j := by
  simp only [List.get?_eq_getElem?]
  exact List.getElem?_set_ne (fun e => h e.symm)

/-- A sound member call on object `i` leaves every other object and its elements alone. -/
theorem member_independent {w : World T} (i j : Nat) (f : State T → Result T) (vj : Vector)
    (hinv : Inv w)
    (hs : ∀ v, w.objs.get? i = some v → Sound ⟨w.heap, w.clock, v⟩ (f ⟨w.heap, w.clock, v⟩))
    (hji : j ≠ i) (hj : w.objs.get? j = some vj) :
    (w.member i f).objs.get? j = some vj ∧ elems (w.member i f).heap vj = elems w.heap vj := by
  unfold World.member
  cases hv : w.objs.get? i with
  | none => exact ⟨hj, rfl⟩
  | some v =>
    obtain ⟨_, s2, _, _⟩ := hs v hv
    simp only at s2 ⊢
    refine ⟨by rw [get?_set_ne' _ _ _ _ hji]; exact hj, ?_⟩
    exact s2.elems (hinv.1 j vj hj) (fun a ha => hinv.2 j i vj v a hji hj hv ha)

/-- A valid mutating call on object `i` leaves every other object and its elements alone. -/
theorem step_independent (E : ElemTraits T) (fails : Nat → Bool) (w : World T) (op : Op T)
    (i j : Nat) (vj : Vector) (hinv : Inv w) (hv : op.valid w) (ht : op.target = some i)
    (hji : j ≠ i) (hj : w.objs.get? j = some vj) :
    (step E fails w op).objs.get? j = some vj ∧
      elems (step E fails w op).heap vj = elems w.heap vj := by
  cases op <;> simp only [Op.target, Option.some.injEq, reduceCtorEq] at ht <;> subst ht
  case reserve i n =>
    exact member_independent _ j _ vj hinv
      (fun v hv => (Reserve_spec E fails _ n (hinv.1 _ v hv)).1) hji hj
  case shrinkToFit i =>
    exact member_independent _ j _ vj hinv
      (fun v hv => (ShrinkToFit_spec E fails _ (hinv.1 _ v hv)).1) hji hj
  case resize i n x =>
    exact member_independent _ j _ vj hinv
      (fun v hv => Resize_sound E fails _ n x (hinv.1 _ v hv)) hji hj
  case resizeDefault i n =>
    exact member_independent _ j _ vj hinv
      (fun v hv => ResizeDefault_sound E fails _ n (hinv.1 _ v hv)) hji hj
  case clear i =>
    exact member_independent _ j _ vj hinv (fun v hv => Clear_sound _ (hinv.1 _ v hv)) hji hj
  case pushBack i x =>
    exact member_independent _ j _ vj hinv
      (fun v hv => PushBack_sound E fails _ x (hinv.1 _ v hv)) hji hj
  case pushBackMove i x =>
    exact member_independent _ j _ vj hinv
      (fun v hv => PushBackMove_sound E fails _ x (hinv.1 _ v hv)) hji hj
  case popBack i =>
    exact member_independent i j (fun s => ⟨.returned, PopBack s⟩) vj hinv
      (fun v hv' => PopBack_sound ⟨w.heap, w.clock, v⟩ (hinv.1 _ v hv') (hv v hv')) hji hj
  case store i idx x =>
    exact member_independent _ j _ vj hinv
      (fun v hv => storeIndex_sound _ idx x (hinv.1 _ v hv)) hji hj


theorem initLoop_fail_at (fails : Nat → Bool) (vals : List T) (i : Nat) (blk : List T)
    (clk k : Nat) (hk : k < vals.length) (hf : fails (clk + k) = true)
    (hb : ∀ j, clk ≤ j → j < clk + k → fails j = false) :
    (initLoop fails vals i blk clk).ok = false ∧
      (initLoop fails vals i blk clk).clock = clk + k + 1 := by
  induction vals generalizing i blk clk k with
  | nil => simp at hk
  | cons x xs ih =>
    simp only [initLoop]
    cases k with
    | zero =>
      simp only [Nat.add_zero] at hf
      simp [hf]
    | succ k =>
      have h0 : fails clk = false := hb clk (le_refl _) (by omega)
      simp only [h0, Bool.false_eq_true, if_false]
      have := ih (i + 1) (blk.set i x) (clk + 1) k (by simpa using hk)
        (by rw [show clk + 1 + k = clk + (k + 1) by omega]; exact hf)
        (fun j h1 h2 => hb j (by omega) (by omega))
      refine ⟨this.1, ?_⟩
      rw [this.2]
      omega

/-- The copy constructor when the copy of the element at position `k` is the step that fails. -/
theorem copyCtor_fail_at (E : ElemTraits T) (fails : Nat → Bool) (h : Heap T) (clk : Nat)
    (other : Vector) (k : Nat) (hwf : WF h other) (hk : k < other.size_)
    (hf : fails (clk + 1 + k) = true)
    (hb : ∀ j, clk ≤ j → j < clk + 1 + k → fails j = false) :
    (copyCtor E fails h clk other).outcome = .threw ∧
    (copyCtor E fails h clk other).st.clock = clk + 1 + k + 1 ∧
    (copyCtor E fails h clk other).st.heap.length = h.length + 1 ∧
    (copyCtor E fails h clk other).st.heap.block h.length = none := by
  obtain ⟨buf, sz, cap⟩ := other
  obtain ⟨w1, w2, w3⟩ := hwf
  simp only at w1 w2 w3 hk
  have hc : 0 < cap := by omega
  have hf0 : fails clk = false := hb clk (le_refl _) (by omega)
  unfold copyCtor
  simp only [hc, if_true]
  rw [newArray_ok E fails h clk cap hf0 w2]
  simp only [Heap.read_append_old h _ buf w3.ne_length, Heap.read_append_new,
    copyLoop_eq_initLoop]
  obtain ⟨f1, f2⟩ := initLoop_fail_at fails (window E (h.read buf) sz 0) 0
    (List.replicate cap E.dflt) (clk + 1) k (by rw [window_length]; exact hk) hf
    (fun j h1 h2 => hb j (by omega) h2)
  generalize initLoop fails (window E (h.read buf) sz 0) 0 (List.replicate cap E.dflt)
    (clk + 1) = r at f1 f2
  simp only [f1, Bool.false_eq_true, if_false, true_and, f2]
  refine ⟨?_, ?_⟩
  · simp [Heap.length_free, Heap.length_write]
  · simp [Heap.block_free]

/-- C11: when, in the copy construction from a source of size `n`, the copy of the element at
position `k < n` is the step that fails, the constructor throws, the object under construction
is left empty (`size() == 0`, `capacity() == 0`, `buffer_ == nullptr`), the block it had
allocated is released, and the source's block, hence its elements, are unchanged. -/
theorem C11_copy_ctor_failure (E : ElemTraits T) (fails : Nat → Bool) (h : Heap T) (clk : Nat)
    (src : Vector) (k : Nat) (hwf : WF h src) (hk : k < Size src)
    (hf : fails (clk + 1 + k) = true)
    (hb : ∀ j, clk ≤ j → j < clk + 1 + k → fails j = false) :
    (copyCtor E fails h clk src).outcome = .threw ∧
    Size (copyCtor E fails h clk src).st.self = 0 ∧
    Capacity (copyCtor E fails h clk src).st.self = 0 ∧
    Data (copyCtor E fails h clk src).st.self = none ∧
    (copyCtor E fails h clk src).st.heap.length = h.length + 1 ∧
    (copyCtor E fails h clk src).st.heap.block h.length = none ∧
    (copyCtor E fails h clk src).st.heap.read (Data src) = h.read (Data src) ∧
    elems (copyCtor E fails h clk src).st.heap src = elems h src ∧
    WF (copyCtor E fails h clk src).st.heap src := by
  obtain ⟨q1, _, q3, q4⟩ := copyCtor_fail_at E fails h clk src k hwf hk hf hb
  obtain ⟨⟨_, c2, _, _⟩, _, p3, _⟩ := copyCtor_spec E fails h clk src hwf
  obtain ⟨r1, _⟩ := p3 q1
  simp only [Vector.init] at c2
  rw [r1]
  exact ⟨q1, rfl, rfl, rfl, q3, q4, c2.read hwf.2.2 (fun _ _ => by simp),
    c2.elems hwf (fun _ _ => by simp), c2.wf hwf (fun _ _ => by simp)⟩

theorem C11_copy_ctor_failure_witness :
    (copyCtor stringTraits (failAt 2) [some ["a", "b", "c"]] 0 ⟨some 0, 3, 3⟩).outcome = .threw ∧
    Size (copyCtor stringTraits (failAt 2) [some ["a", "b", "c"]] 0 ⟨some 0, 3, 3⟩).st.self = 0 ∧
    elems (copyCtor stringTraits (failAt 2) [some ["a", "b", "c"]] 0 ⟨some 0, 3, 3⟩).st.heap
      ⟨some 0, 3, 3⟩ = ["a", "b", "c"] :=
  have h := C11_copy_ctor_failure stringTraits (failAt 2) [some ["a", "b", "c"]] 0
    ⟨some 0, 3, 3⟩ 1 (by decide) (by decide) (by decide) (by decide)
  ⟨h.1, h.2.1, h.2.2.2.2.2.2.2.1⟩


/-- C10: copy construction, when nothing fails, adds an object `c` with the source's `size()`,
`capacity()` and elements and leaves the source as it was; afterwards any valid mutating call on
the copy leaves the source's members and elements unchanged, and any valid mutating call on the
source leaves the copy's members and elements unchanged. -/
theorem C10_copy_ctor_independent (E : ElemTraits T) (fails fails' : Nat → Bool) (w : World T)
    (src : Nat) (sv : Vector) (hinv : Inv w) (hsrc : w.objs.get? src = some sv)
    (hnf : NoFault fails w.clock) :
    ∃ c, (step E fails w (.copyCtor src)).objs.get? w.objs.length = some c ∧
      Size c = Size sv ∧ Capacity c = Capacity sv ∧
      elems (step E fails w (.copyCtor src)).heap c = elems w.heap sv ∧
      (∀ i, i < Size sv →
        index (step E fails w (.copyCtor src)).heap c i = index w.heap sv i) ∧
      (step E fails w (.copyCtor src)).objs.get? src = some sv ∧
      elems (step E fails w (.copyCtor src)).heap sv = elems w.heap sv ∧
      (∀ op : Op T, op.valid (step E fails w (.copyCtor src)) →
        op.target = some w.objs.length →
        (step E fails' (step E fails w (.copyCtor src)) op).objs.get? src = some sv ∧
        elems (step E fails' (step E fails w (.copyCtor src)) op).heap sv
          = elems (step E fails w (.copyCtor src)).heap sv) ∧
      (∀ op : Op T, op.valid (step E fails w (.copyCtor src)) → op.target = some src →
        (step E fails' (step E fails w (.copyCtor src)) op).objs.get? w.objs.length = some c ∧
        elems (step E fails' (step E fails w (.copyCtor src)) op).heap c
          = elems (step E fails w (.copyCtor src)).heap c) := by
  have hinv' := step_inv E fails w (.copyCtor src) hinv trivial
  have hwf := hinv.1 src sv hsrc
  obtain ⟨⟨_, c2, _, _⟩, p2, _, p4⟩ := copyCtor_spec E fails w.heap w.clock sv hwf
  have hr := p4 hnf
  obtain ⟨q1, q2, q3, _⟩ := p2 hr
  simp only [Vector.init] at c2
  have hlt := get?_lt hsrc
  have hstep : step E fails w (.copyCtor src)
      = ⟨(copyCtor E fails w.heap w.clock sv).st.heap, (copyCtor E fails w.heap w.clock sv).st.clock,
          w.objs ++ [(copyCtor E fails w.heap w.clock sv).st.self]⟩ := by
    simp only [step, hsrc, World.construct, hr]
  have hnew : (step E fails w (.copyCtor src)).objs.get? w.objs.length
      = some (copyCtor E fails w.heap w.clock sv).st.self := by
    rw [hstep]
    simp [List.get?_eq_getElem?]
  have hold : (step E fails w (.copyCtor src)).objs.get? src = some sv := by
    rw [hstep]
    simp only [List.get?_eq_getElem?] at hsrc ⊢
    rw [List.getElem?_append_left hlt]
    exact hsrc
  have hne : src ≠ w.objs.length := by omega
  have hsame : elems (step E fails w (.copyCtor src)).heap sv = elems w.heap sv := by
    rw [hstep]
    exact c2.elems hwf (fun _ _ => by simp)
  refine ⟨_, hnew, q1, q2, ?_, ?_, hold, hsame, ?_, ?_⟩
  · rw [hstep]; exact q3
  · intro i hi
    simp only [Size] at hi
    rw [hstep]
    simp only
    rw [index_eq_elems _ _ _ (by rw [q1]; exact hi), index_eq_elems _ _ _ hi, q3]
  · intro op hv ht
    exact step_independent E fails' _ op _ src sv hinv' hv ht hne hold
  · intro op hv ht
    exact step_independent E fails' _ op _ _ _ hinv' hv ht (fun e => hne e.symm) hnew

theorem C10_copy_ctor_independent_witness :
    (step intTraits never (run intTraits never World.initial [.pushBack 0 (.val 5), .pushBack 0 (.val 6)])
      (.copyCtor 0)).objs.get? 0 = some ⟨some 1, 2, 2⟩ ∧
    elems (step intTraits never (run intTraits never World.initial [.pushBack 0 (.val 5), .pushBack 0 (.val 6)])
      (.copyCtor 0)).heap ⟨some 1, 2, 2⟩ = [5, 6] :=
  have h := C10_copy_ctor_independent intTraits never never
    (run intTraits never World.initial [.pushBack 0 (.val 5), .pushBack 0 (.val 6)]) 0 ⟨some 1, 2, 2⟩
    (run_inv intTraits never _ _ Inv.initial ⟨trivial, trivial, trivial⟩) (by decide)
    (fun _ _ => rfl)
  h.elim (fun _ hc => ⟨hc.2.2.2.2.2.1, hc.2.2.2.2.2.2.1⟩)

/-- C12: move construction gives the new object exactly the source's `buffer_`, `size()` and
`capacity()`, hence its elements, and leaves the source empty without storage; move assignment
between distinct objects (which own distinct blocks) does the same for the target, releases the target's old block and runs
no fallible step; move-assigning an object to itself changes nothing. Neither function has a
failing outcome. -/
theorem C12_move (s : State T) (thisAddr otherAddr : Nat) (other : Vector)
    (hwo : WF s.heap other) :
    ((moveCtor other).1 = other ∧ elems s.heap (moveCtor other).1 = elems s.heap other ∧
      (moveCtor other).2 = ⟨none, 0, 0⟩) ∧
    (thisAddr ≠ otherAddr → (∀ a, other.buffer_ = some a → s.self.buffer_ ≠ some a) →
      (moveAssign s thisAddr otherAddr other).1.self = other ∧
      Size (moveAssign s thisAddr otherAddr other).1.self = Size other ∧
      Capacity (moveAssign s thisAddr otherAddr other).1.self = Capacity other ∧
      elems (moveAssign s thisAddr otherAddr other).1.heap
        (moveAssign s thisAddr otherAddr other).1.self = elems s.heap other ∧
      WF (moveAssign s thisAddr otherAddr other).1.heap
        (moveAssign s thisAddr otherAddr other).1.self ∧
      (moveAssign s thisAddr otherAddr other).2 = ⟨none, 0, 0⟩ ∧
      (moveAssign s thisAddr otherAddr other).1.clock = s.clock ∧
      (∀ a, s.self.buffer_ = some a →
        (moveAssign s thisAddr otherAddr other).1.heap.block a = none)) ∧
    (thisAddr = otherAddr → moveAssign s thisAddr otherAddr other = (s, other)) := by
  refine ⟨⟨rfl, rfl, rfl⟩, fun hne hdis => ?_, fun he => by simp [moveAssign, he]⟩
  have hF : Frame s.heap (s.heap.free s.self.buffer_) s.self.buffer_ := (Frame.refl _ _).free
  simp only [moveAssign, ne_eq, hne, not_false_eq_true, if_true, moveCtor, Swap, destroy,
    Vector.eta, true_and]
  refine ⟨hF.elems hwo hdis, hF.wf hwo hdis, fun a ha => ?_⟩
  rw [ha, Heap.block_free]
  simp

theorem C12_move_witness :
    (moveAssign (⟨[some [5], some [7, 8, 0]], 0, ⟨some 0, 1, 1⟩⟩ : State Int) 0 1
      ⟨some 1, 2, 3⟩).1.self = ⟨some 1, 2, 3⟩ ∧
    elems (moveAssign (⟨[some [5], some [7, 8, 0]], 0, ⟨some 0, 1, 1⟩⟩ : State Int) 0 1
      ⟨some 1, 2, 3⟩).1.heap ⟨some 1, 2, 3⟩ = [7, 8] ∧
    (moveAssign (⟨[some [5], some [7, 8, 0]], 0, ⟨some 0, 1, 1⟩⟩ : State Int) 0 1
      ⟨some 1, 2, 3⟩).2 = ⟨none, 0, 0⟩ :=
  have h := (C12_move (⟨[some [5], some [7, 8, 0]], 0, ⟨some 0, 1, 1⟩⟩ : State Int) 0 1
    ⟨some 1, 2, 3⟩ (by decide)).2.1 (by decide) (by decide)
  ⟨h.1, h.2.2.2.1, h.2.2.2.2.2.1⟩


/-- What a successful `PushBack` does. -/
theorem PushSucceeds.spec {E : ElemTraits T} {fails : Nat → Bool} {s : State T} {x : Arg T}
    (hs : PushSucceeds E fails s x) (hwf : WF s.heap s.self) :
    WF (PushBack E fails s x).st.heap (PushBack E fails s x).st.self ∧
    (PushBack E fails s x).st.self.size_ = s.self.size_ + 1 ∧
    elems (PushBack E fails s x).st.heap (PushBack E fails s x).st.self
      = elems s.heap s.self ++ [x.get E (pushArgBlock E s)] ∧
    (PushBack E fails s x).st.self.capacity_ =
      (if s.self.capacity_ = 0 then 1
        else if s.self.size_ < s.self.capacity_ then s.self.capacity_
        else 2 * s.self.capacity_) ∧
    (s.self.size_ < s.self.capacity_ →
      (PushBack E fails s x).st.self.buffer_ = s.self.buffer_) := by
  obtain ⟨h1, h2⟩ := hs
  obtain ⟨q1, q2, q3, q4⟩ := (PushBack_spec E fails s x hwf).1 h1 h2
  exact ⟨(PushBack_sound E fails s x hwf).1, q1, q2, q3, q4⟩

theorem pushMany_spec (E : ElemTraits T) (fails : Nat → Bool) (xs : List (Arg T)) (s : State T)
    (hwf : WF s.heap s.self) (hs : PushesSucceed E fails s xs) :
    WF (pushMany E fails s xs).heap (pushMany E fails s xs).self ∧
    (pushMany E fails s xs).self.size_ = s.self.size_ + xs.length ∧
    (s.self.size_ + xs.length ≤ s.self.capacity_ →
      (pushMany E fails s xs).self.capacity_ = s.self.capacity_ ∧
      (pushMany E fails s xs).self.buffer_ = s.self.buffer_) := by
  induction xs generalizing s with
  | nil => exact ⟨hwf, rfl, fun _ => ⟨rfl, rfl⟩⟩
  | cons x xs ih =>
    obtain ⟨h1, h2⟩ := hs
    obtain ⟨q0, q1, _, q3, q4⟩ := h1.spec hwf
    obtain ⟨r0, r1, r3⟩ := ih _ q0 h2
    simp only [pushMany, List.length_cons]
    refine ⟨r0, by rw [r1, q1]; omega, fun hfit => ?_⟩
    have hlt : s.self.size_ < s.self.capacity_ := by omega
    have hc : (PushBack E fails s x).st.self.capacity_ = s.self.capacity_ := by
      rw [q3, if_neg (by omega), if_pos hlt]
    obtain ⟨t1, t2⟩ := r3 (by rw [q1, hc]; omega)
    exact ⟨by rw [t1, hc], by rw [t2, q4 hlt]⟩

/-- Successful calls of `PushBack` with arguments outside the container append the values of
the arguments in order. -/
theorem pushMany_elems (E : ElemTraits T) (fails : Nat → Bool) (xs : List T) (s : State T)
    (hwf : WF s.heap s.self) (hs : PushesSucceed E fails s (xs.map Arg.val)) :
    elems (pushMany E fails s (xs.map Arg.val)).heap (pushMany E fails s (xs.map Arg.val)).self
      = elems s.heap s.self ++ xs := by
  induction xs generalizing s with
  | nil => simp [pushMany]
  | cons x xs ih =>
    obtain ⟨h1, h2⟩ := hs
    obtain ⟨q0, _, q2, _⟩ := h1.spec hwf
    simp only [List.map_cons, pushMany]
    rw [ih _ q0 h2, q2]
    simp [Arg.get]

theorem PushesSucceed.firstCalls (E : ElemTraits T) (fails : Nat → Bool) (xs : List (Arg T))
    (s : State T) (j : Nat) (hs : PushesSucceed E fails s xs) :
    PushesSucceed E fails s (xs.take j) := by
  induction xs generalizing s j with
  | nil => simpa using hs
  | cons x xs ih =>
    cases j with
    | zero => exact trivial
    | succ j => exact ⟨hs.1, ih _ j hs.2⟩

theorem PushesSucceed.step (E : ElemTraits T) (fails : Nat → Bool) (xs : List (Arg T))
    (s : State T) (j : Nat) (x : Arg T) (hs : PushesSucceed E fails s xs)
    (hj : xs.get? j = some x) :
    PushSucceeds E fails (pushMany E fails s (xs.take j)) x := by
  induction xs generalizing s j with
  | nil => simp at hj
  | cons y ys ih =>
    cases j with
    | zero =>
      simp only [List.get?_cons_zero, Option.some.injEq] at hj
      subst hj
      exact hs.1
    | succ j =>
      simp only [List.get?_cons_succ] at hj
      exact ih _ j hs.2 hj

/-- C13: appending `k` elements one at a time with successful `PushBack` calls to an empty
container, whatever the arguments `xs` refer to, gives `size() == k` (and the elements are the
values of the arguments when these are objects outside the container); each of those calls
leaves `capacity()` unchanged, or at least doubles it, or takes it from 0 to exactly 1. -/
theorem C13_push_growth (E : ElemTraits T) (fails : Nat → Bool) (s : State T)
    (xs : List (Arg T)) (hwf : WF s.heap s.self) (hempty : Size s.self = 0)
    (hs : PushesSucceed E fails s xs) :
    Size (pushMany E fails s xs).self = xs.length ∧
    (∀ vals : List T, xs = vals.map Arg.val →
      elems (pushMany E fails s xs).heap (pushMany E fails s xs).self = vals) ∧
    ∀ j x, xs.get? j = some x →
      Capacity (PushBack E fails (pushMany E fails s (xs.take j)) x).st.self
          = Capacity (pushMany E fails s (xs.take j)).self ∨
      2 * Capacity (pushMany E fails s (xs.take j)).self
          ≤ Capacity (PushBack E fails (pushMany E fails s (xs.take j)) x).st.self ∨
      (Capacity (pushMany E fails s (xs.take j)).self = 0 ∧
        Capacity (PushBack E fails (pushMany E fails s (xs.take j)) x).st.self = 1) := by
  obtain ⟨_, r1, _⟩ := pushMany_spec E fails xs s hwf hs
  simp only [Size] at hempty
  have he : elems s.heap s.self = [] := by simp [elems, hempty]
  refine ⟨by simp only [Size, r1, hempty]; omega, fun vals hv => ?_, fun j x hj => ?_⟩
  · subst hv
    rw [pushMany_elems E fails vals s hwf hs, he]
    rfl
  obtain ⟨w0, _, _⟩ := pushMany_spec E fails (xs.take j) s hwf (hs.firstCalls E fails xs s j)
  obtain ⟨_, _, _, q3, _⟩ := (hs.step E fails xs s j x hj).spec w0
  simp only [Capacity]
  rw [q3]
  by_cases h0 : (pushMany E fails s (xs.take j)).self.capacity_ = 0
  · exact Or.inr (Or.inr ⟨h0, by rw [if_pos h0]⟩)
  · rw [if_neg h0]
    by_cases hlt : (pushMany E fails s (xs.take j)).self.size_
        < (pushMany E fails s (xs.take j)).self.capacity_
    · exact Or.inl (by rw [if_pos hlt])
    · exact Or.inr (Or.inl (by rw [if_neg hlt]))

theorem C13_push_growth_witness :
    Size (pushMany intTraits never (defaultCtor [] 0) [.val 1, .val 2, .val 3]).self = 3 ∧
    elems (pushMany intTraits never (defaultCtor [] 0) [.val 1, .val 2, .val 3]).heap
      (pushMany intTraits never (defaultCtor [] 0) [.val 1, .val 2, .val 3]).self = [1, 2, 3] :=
  have h := C13_push_growth intTraits never (defaultCtor [] 0) [.val 1, .val 2, .val 3]
    (by decide) rfl
    ⟨⟨by decide, fun hf => hf.elim (fun _ hj => by simp [never] at hj)⟩,
     ⟨by decide, fun hf => hf.elim (fun _ hj => by simp [never] at hj)⟩,
     ⟨by decide, fun hf => hf.elim (fun _ hj => by simp [never] at hj)⟩, trivial⟩
  ⟨h.1, h.2.1 [1, 2, 3] rfl⟩

/-- C14: after a `Reserve(n)` that returned, successful `PushBack` calls that bring the size up
to at most `n` (so `n >= size()`) never reallocate, whatever their arguments refer to: after each
of them `capacity()` is the capacity right after the `Reserve`, which is `max(n, old capacity)`,
and `buffer_` is the block the `Reserve` left. -/
theorem C14_reserve_then_push (E : ElemTraits T) (fails : Nat → Bool) (s : State T) (n : Nat)
    (xs : List (Arg T)) (hwf : WF s.heap s.self)
    (hr : (Reserve E fails s n).outcome = .returned)
    (hfit : Size s.self + xs.length ≤ n)
    (hs : PushesSucceed E fails (Reserve E fails s n).st xs) :
    Capacity (Reserve E fails s n).st.self = max n (Capacity s.self) ∧
    ∀ j, j ≤ xs.length →
      Capacity (pushMany E fails (Reserve E fails s n).st (xs.take j)).self
        = max n (Capacity s.self) ∧
      Data (pushMany E fails (Reserve E fails s n).st (xs.take j)).self
        = Data (Reserve E fails s n).st.self ∧
      Size (pushMany E fails (Reserve E fails s n).st (xs.take j)).self = Size s.self + j := by
  obtain ⟨p1, _, p3, _⟩ := Reserve_spec E fails s n hwf
  obtain ⟨q1, q2, _⟩ := p3 hr
  simp only [Size, Capacity, Data] at *
  refine ⟨q2, fun j hj => ?_⟩
  obtain ⟨_, r1, r3⟩ := pushMany_spec E fails (xs.take j) _ p1.1 (hs.firstCalls E fails xs _ j)
  have hl : (xs.take j).length = j := by simp; omega
  rw [hl] at r1 r3
  obtain ⟨t1, t2⟩ := r3 (by rw [q1, q2]; omega)
  exact ⟨by rw [t1, q2], t2, by rw [r1, q1]⟩

theorem C14_reserve_then_push_witness :
    Capacity (pushMany intTraits never
      (Reserve intTraits never ⟨[some [5]], 0, ⟨some 0, 1, 1⟩⟩ 3).st
      ([Arg.val 6, Arg.slot 0].take 2)).self = 3 :=
  ((C14_reserve_then_push intTraits never ⟨[some [5]], 0, ⟨some 0, 1, 1⟩⟩ 3
    [Arg.val 6, Arg.slot 0]
    (by decide) (by decide) (by decide)
    ⟨⟨by decide, fun hf => hf.elim (fun _ hj => by simp [never] at hj)⟩,
     ⟨by decide, fun hf => hf.elim (fun _ hj => by simp [never] at hj)⟩, trivial⟩).2 2
    (by decide)).1


/-- C15: `At(i)` throws `std::out_of_range` exactly when `i >= size()`; for `i < size()` it
returns the slot `operator[]` returns; so `At(size())` always throws and `At(size() - 1)`
succeeds on a non-empty container. `At` only reads: it returns no new state. -/
theorem C15_at (h : Heap T) (v : Vector) (i : Nat) :
    (At h v i = none ↔ i ≥ Size v) ∧
    (i < Size v → At h v i = some (index h v i)) ∧
    At h v (Size v) = none ∧
    (Size v ≠ 0 → Size v < SIZE_MOD →
      At h v (decr (Size v)) = some (index h v (decr (Size v))) ∧ decr (Size v) = Size v - 1) := by
  refine ⟨?_, ?_, ?_, ?_⟩
  · simp only [At, Size]
    split <;> simp_all
  · intro hi
    simp only [Size] at hi
    simp only [At]
    rw [if_neg (by omega)]
  · simp [At, Size]
  · intro h0 hlt
    simp only [Size] at h0 hlt ⊢
    have hd : decr v.size_ = v.size_ - 1 := by
      unfold SIZE_MOD at hlt
      unfold decr SIZE_MOD
      omega
    rw [hd]
    simp only [At]
    rw [if_neg (by omega)]
    exact ⟨rfl, trivial⟩

theorem C15_at_witness :
    At ([some [5, 6, 0]] : Heap Int) ⟨some 0, 2, 3⟩ (decr 2) = some (some 6) :=
  ((C15_at ([some [5, 6, 0]] : Heap Int) ⟨some 0, 2, 3⟩ 0).2.2.2 (by decide) (by decide)).1


/-- Two sequences agree, under the ordering, at every position they share. -/
theorem lex_cons_cons_iff (lt : T → T → Bool) (x y : T) (xs ys : List T)
    (hxy : lt x y = false) (hyx : lt y x = false) :
    LexBefore lt (x :: xs) (y :: ys) ↔ LexBefore lt xs ys := by
  constructor
  · rintro (⟨i, u, v, ha, hb, hlt, hall⟩ | ⟨hall, hlen⟩)
    · cases i with
      | zero =>
        simp only [List.get?_cons_zero, Option.some.injEq] at ha hb
        subst ha; subst hb
        rw [hxy] at hlt
        cases hlt
      | succ i =>
        refine Or.inl ⟨i, u, v, ha, hb, hlt, fun j u' v' hj hu hv => ?_⟩
        exact hall (j + 1) u' v' (by omega) hu hv
    · refine Or.inr ⟨fun j u v hu hv => hall (j + 1) u v hu hv, ?_⟩
      simpa using hlen
  · rintro (⟨i, u, v, ha, hb, hlt, hall⟩ | ⟨hall, hlen⟩)
    · refine Or.inl ⟨i + 1, u, v, ha, hb, hlt, fun j u' v' hj hu hv => ?_⟩
      cases j with
      | zero =>
        simp only [List.get?_cons_zero, Option.some.injEq] at hu hv
        subst hu; subst hv
        exact ⟨hxy, hyx⟩
      | succ j => exact hall j u' v' (by omega) hu hv
    · refine Or.inr ⟨fun j u v hu hv => ?_, by simpa using hlen⟩
      cases j with
      | zero =>
        simp only [List.get?_cons_zero, Option.some.injEq] at hu hv
        subst hu; subst hv
        exact ⟨hxy, hyx⟩
      | succ j => exact hall j u v hu hv

/-- The algorithm `std::lexicographical_compare` decides the lexicographic order of the
specification. -/
theorem lex_iff_LexBefore (lt : T → T → Bool) (a b : List T) :
    lexicographical_compare lt a b = true ↔ LexBefore lt a b := by
  induction a generalizing b with
  | nil =>
    cases b with
    | nil =>
      simp only [lexicographical_compare, Bool.false_eq_true, false_iff]
      rintro (⟨i, u, v, ha, _⟩ | ⟨_, hlen⟩)
      · simp at ha
      · simp at hlen
    | cons y ys =>
      simp only [lexicographical_compare, true_iff]
      exact Or.inr ⟨fun j u v hu _ => by simp at hu, by simp⟩
  | cons x xs ih =>
    cases b with
    | nil =>
      simp only [lexicographical_compare, Bool.false_eq_true, false_iff]
      rintro (⟨i, u, v, _, hb, _⟩ | ⟨_, hlen⟩)
      · simp at hb
      · simp at hlen
    | cons y ys =>
      simp only [lexicographical_compare]
      by_cases hxy : lt x y = true
      · simp only [hxy, if_true, true_iff]
        exact Or.inl ⟨0, x, y, rfl, rfl, hxy, fun j _ _ hj _ _ => by omega⟩
      · have hxy' : lt x y = false := by simpa using hxy
        by_cases hyx : lt y x = true
        · simp only [hxy', hyx, Bool.false_eq_true, if_false, if_true, false_iff]
          rintro (⟨i, u, v, ha, hb, hlt, hall⟩ | ⟨hall, _⟩)
          · cases i with
            | zero =>
              simp only [List.get?_cons_zero, Option.some.injEq] at ha hb
              subst ha; subst hb
              rw [hxy'] at hlt
              cases hlt
            | succ i =>
              have := (hall 0 x y (by omega) rfl rfl).2
              rw [hyx] at this
              cases this
          · have := (hall 0 x y rfl rfl).2
            rw [hyx] at this
            cases this
        · have hyx' : lt y x = false := by simpa using hyx
          simp only [hxy', hyx', Bool.false_eq_true, if_false]
          rw [ih ys, lex_cons_cons_iff lt x y xs ys hxy' hyx']

/-- Neither sequence is before the other exactly when they have the same length and no position
distinguishes them under the ordering. -/
theorem lex_neither_iff (lt : T → T → Bool) (a b : List T) :
    (lexicographical_compare lt a b = false ∧ lexicographical_compare lt b a = false) ↔
      (a.length = b.length ∧
        ∀ j u v, a.get? j = some u → b.get? j = some v → lt u v = false ∧ lt v u = false) := by
  induction a generalizing b with
  | nil =>
    cases b with
    | nil => simp [lexicographical_compare]
    | cons y ys => simp [lexicographical_compare]
  | cons x xs ih =>
    cases b with
    | nil => simp [lexicographical_compare]
    | cons y ys =>
      simp only [lexicographical_compare, List.length_cons, Nat.add_right_cancel_iff]
      by_cases hxy : lt x y = true
      · simp only [hxy, if_true, reduceCtorEq, false_and, false_iff, not_and, not_forall]
        intro _
        exact ⟨0, x, y, rfl, rfl, by simp [hxy]⟩
      · have hxy' : lt x y = false := by simpa using hxy
        by_cases hyx : lt y x = true
        · simp only [hxy', hyx, if_true, Bool.false_eq_true, if_false, reduceCtorEq, and_false,
            false_iff, not_and, not_forall]
          intro _
          exact ⟨0, x, y, rfl, rfl, by simp [hyx]⟩
        · have hyx' : lt y x = false := by simpa using hyx
          simp only [hxy', hyx', Bool.false_eq_true, if_false]
          rw [ih ys]
          constructor
          · rintro ⟨hl, hall⟩
            refine ⟨hl, fun j u v hu hv => ?_⟩
            cases j with
            | zero =>
              simp only [List.get?_cons_zero, Option.some.injEq] at hu hv
              subst hu; subst hv
              exact ⟨hxy', hyx'⟩
            | succ j => exact hall j u v hu hv
          · rintro ⟨hl, hall⟩
            exact ⟨hl, fun j u v hu hv => hall (j + 1) u v hu hv⟩



theorem elems_get?_iff (h : Heap T) (v : Vector) (j : Nat) (u : T) :
    (elems h v).get? j = some u ↔ j < v.size_ ∧ index h v j = some u := by
  simp only [elems, index, List.get?_eq_getElem?, List.getElem?_take]
  by_cases hj : j < v.size_
  · simp [hj]
  · simp [hj]

/-- C16: as the code computes it, `a == b` holds exactly when the sizes are equal and at no
index below the size the ordering of the element type tells the two elements apart; the
equality of the element type is not consulted. `a != b` is the negation. -/
theorem C16_eq_by_ordering (E : ElemTraits T) (h : Heap T) (a b : Vector) (hwa : WF h a)
    (hwb : WF h b) :
    (opEq E h a b = true ↔
      Size a = Size b ∧
        ∀ i x y, i < Size a → index h a i = some x → index h b i = some y →
          E.lt x y = false ∧ E.lt y x = false) ∧
    opNe E h a b = !(opEq E h a b) := by
  refine ⟨?_, rfl⟩
  have hla := elems_length hwa
  have hlb := elems_length hwb
  have key := lex_neither_iff E.lt (elems h a) (elems h b)
  simp only [opEq, opLe, opGt, Bool.and_eq_true, Bool.not_eq_true', Size]
  rw [and_comm, key, hla, hlb]
  constructor
  · rintro ⟨hl, hall⟩
    refine ⟨hl, fun i x y hi hx hy => ?_⟩
    exact hall i x y ((elems_get?_iff h a i x).2 ⟨hi, hx⟩)
      ((elems_get?_iff h b i y).2 ⟨by omega, hy⟩)
  · rintro ⟨hl, hall⟩
    refine ⟨hl, fun j u v hu hv => ?_⟩
    obtain ⟨h1, h2⟩ := (elems_get?_iff h a j u).1 hu
    obtain ⟨_, h4⟩ := (elems_get?_iff h b j v).1 hv
    exact hall j u v h1 h2 h4

theorem C16_eq_by_ordering_witness :
    Size (⟨some 0, 3, 3⟩ : Vector) = Size (⟨some 1, 3, 4⟩ : Vector) :=
  ((C16_eq_by_ordering intTraits [some [1, 2, 3], some [1, 2, 3, 0]] ⟨some 0, 3, 3⟩
    ⟨some 1, 3, 4⟩ (by decide) (by decide)).1.1 (by decide)).1

/-- C16, as stated, fails: with an element type ordered by its first component only, the
containers `[(1, 0)]` and `[(1, 1)]` compare `==` although their elements at index 0 are not
equal. -/
theorem C16_eq_ignores_element_equality :
    ¬ (opEq keyedTraits [some [(1, 0)], some [(1, 1)]] ⟨some 0, 1, 1⟩ ⟨some 1, 1, 1⟩ = true ↔
      (Size (⟨some 0, 1, 1⟩ : Vector) = Size (⟨some 1, 1, 1⟩ : Vector) ∧
        ∀ i, i < Size (⟨some 0, 1, 1⟩ : Vector) →
          index ([some [(1, 0)], some [(1, 1)]] : Heap (Int × Int)) ⟨some 0, 1, 1⟩ i
            = index ([some [(1, 0)], some [(1, 1)]] : Heap (Int × Int)) ⟨some 1, 1, 1⟩ i)) := by
  decide


/-- C17: `a < b` is the lexicographic comparison of the live elements in the words of the
specification; it reads nothing but the two sequences of live elements; `a > b` is `b < a`,
`a <= b` is `!(b < a)` and `a >= b` is `!(a < b)`; and `[1,2,3] < [1,2,4]`, `[1,2] < [1,2,3]`,
`[2] > [1,9,9]`. -/
theorem C17_lexicographic (E : ElemTraits T) (h : Heap T) (a b : Vector) :
    (opLt E h a b = true ↔ LexBefore E.lt (elems h a) (elems h b)) ∧
    (∀ (h' : Heap T) (a' b' : Vector), elems h' a' = elems h a → elems h' b' = elems h b →
      opLt E h' a' b' = opLt E h a b) ∧
    opGt E h a b = opLt E h b a ∧
    opLe E h a b = !(opLt E h b a) ∧
    opGe E h a b = !(opLt E h a b) ∧
    opLt intTraits [some [1, 2, 3], some [1, 2, 4]] ⟨some 0, 3, 3⟩ ⟨some 1, 3, 3⟩ = true ∧
    opLt intTraits [some [1, 2, 9], some [1, 2, 3]] ⟨some 0, 2, 3⟩ ⟨some 1, 3, 3⟩ = true ∧
    opGt intTraits [some [2], some [1, 9, 9]] ⟨some 0, 1, 1⟩ ⟨some 1, 3, 3⟩ = true := by
  refine ⟨lex_iff_LexBefore E.lt _ _, ?_, rfl, rfl, rfl, by decide, by decide, by decide⟩
  intro h' a' b' ha hb
  simp only [opLt, ha, hb]

theorem lex_asymm (lt : T → T → Bool) (hasym : ∀ x y, lt x y = true → lt y x = false)
    (a b : List T) (hab : lexicographical_compare lt a b = true) :
    lexicographical_compare lt b a = false := by
  induction a generalizing b with
  | nil =>
    cases b with
    | nil => rfl
    | cons y ys => rfl
  | cons x xs ih =>
    cases b with
    | nil => simp [lexicographical_compare] at hab
    | cons y ys =>
      simp only [lexicographical_compare] at hab ⊢
      by_cases hxy : lt x y = true
      · simp [hasym x y hxy, hxy]
      · have hxy' : lt x y = false := by simpa using hxy
        simp only [hxy', Bool.false_eq_true, if_false] at hab
        by_cases hyx : lt y x = true
        · simp [hyx] at hab
        · have hyx' : lt y x = false := by simpa using hyx
          simp only [hyx', Bool.false_eq_true, if_false] at hab
          simp only [hxy', hyx', Bool.false_eq_true, if_false]
          exact ih ys hab

theorem lex_neither_iff_eq (lt : T → T → Bool) (hst : StrictTotal lt) (a b : List T) :
    (lexicographical_compare lt a b = false ∧ lexicographical_compare lt b a = false) ↔
      a = b := by
  rw [lex_neither_iff]
  constructor
  · rintro ⟨hl, hall⟩
    apply List.ext_get?
    intro j
    cases ha : a.get? j with
    | none =>
      have : a.length ≤ j := by
        simp only [List.get?_eq_getElem?] at ha
        exact List.getElem?_eq_none_iff.1 ha
      symm
      simp only [List.get?_eq_getElem?]
      exact List.getElem?_eq_none (by omega)
    | some u =>
      have hj : j < b.length := by rw [← hl]; exact List.get?_eq_some.1 ha |>.1
      cases hb : b.get? j with
      | none =>
        simp only [List.get?_eq_getElem?] at hb
        have := List.getElem?_eq_none_iff.1 hb
        omega
      | some v =>
        obtain ⟨h1, h2⟩ := hall j u v ha hb
        rw [hst.2.2 u v h1 h2]
  · rintro rfl
    refine ⟨rfl, fun j u v hu hv => ?_⟩
    rw [hu] at hv
    cases hv
    exact ⟨hst.1 u, hst.1 u⟩

/-- C20: `a == b` holds exactly when neither `a < b` nor `b < a`; and when the ordering of the
elements is a strict total order, exactly one of `a < b`, `a == b`, `a > b` holds, `a <= b` is
`a < b || a == b`, and `a == b` holds exactly when the two sequences of live elements are equal
as lists (the capacities play no part). -/
theorem C20_eq_from_ordering (E : ElemTraits T) (h : Heap T) (a b : Vector) :
    (opEq E h a b = true ↔ (opLt E h a b = false ∧ opLt E h b a = false)) ∧
    (StrictTotal E.lt →
      ((opLt E h a b = true ∧ opEq E h a b = false ∧ opGt E h a b = false) ∨
        (opLt E h a b = false ∧ opEq E h a b = true ∧ opGt E h a b = false) ∨
        (opLt E h a b = false ∧ opEq E h a b = false ∧ opGt E h a b = true)) ∧
      (opLe E h a b = true ↔ (opLt E h a b = true ∨ opEq E h a b = true)) ∧
      (opEq E h a b = true ↔ elems h a = elems h b)) := by
  have hdef : opEq E h a b = true ↔ (opLt E h a b = false ∧ opLt E h b a = false) := by
    simp only [opEq, opLe, opGt, opLt, Bool.and_eq_true, Bool.not_eq_true']
    exact and_comm
  refine ⟨hdef, fun hst => ?_⟩
  have hasym := lex_asymm E.lt hst.2.1
  have heq : opEq E h a b = true ↔ elems h a = elems h b := by
    rw [hdef]
    exact lex_neither_iff_eq E.lt hst _ _
  refine ⟨?_, ?_, heq⟩
  · cases hab : opLt E h a b with
    | true =>
      have hba : opLt E h b a = false := hasym _ _ hab
      refine Or.inl ⟨rfl, ?_, hba⟩
      cases he : opEq E h a b with
      | false => rfl
      | true =>
        have := (hdef.1 he).1
        rw [hab] at this
        cases this
    | false =>
      cases hba : opLt E h b a with
      | true =>
        refine Or.inr (Or.inr ⟨rfl, ?_, hba⟩)
        cases he : opEq E h a b with
        | false => rfl
        | true =>
          have := (hdef.1 he).2
          rw [hba] at this
          cases this
      | false => exact Or.inr (Or.inl ⟨rfl, hdef.2 ⟨hab, hba⟩, hba⟩)
  · have hle : opLe E h a b = !(opLt E h b a) := rfl
    rw [hle, hdef]
    cases hab : opLt E h a b with
    | true =>
      have hba : opLt E h b a = false := hasym _ _ hab
      simp [hba]
    | false =>
      cases hba : opLt E h b a <;> simp

theorem intTraits_strictTotal : StrictTotal intTraits.lt := by
  refine ⟨fun x => ?_, fun x y hxy => ?_, fun x y h1 h2 => ?_⟩
  · simp [intTraits]
  · simp only [intTraits, decide_eq_true_eq, decide_eq_false_iff_not] at hxy ⊢
    omega
  · simp only [intTraits, decide_eq_false_iff_not] at h1 h2
    omega

theorem C20_eq_from_ordering_witness :
    opEq intTraits [some [1, 2, 3], some [1, 2, 3, 0]] ⟨some 0, 3, 3⟩ ⟨some 1, 3, 4⟩ = true :=
  ((C20_eq_from_ordering intTraits [some [1, 2, 3], some [1, 2, 3, 0]] ⟨some 0, 3, 3⟩
    ⟨some 1, 3, 4⟩).2 intTraits_strictTotal).2.2.2 (by decide)


theorem Outcome.threw_of_ne {o : Outcome} (h : o ≠ .returned) : o = .threw := by
  cases o with
  | returned => exact absurd rfl h
  | threw => rfl

/-- C19: construction from a sequence of `k` values (initializer list or forward range), when
nothing fails, returns an object with `size() == k`, `capacity() == k` and element `i` equal to
the `i`-th value; for `k == 0` the object is empty with `buffer_ == nullptr`. The constructor
throws exactly when the allocation or a copy fails, and the object is then left with size 0,
capacity 0 and no storage. -/
theorem C19_sequence_ctor (E : ElemTraits T) (fails : Nat → Bool) (h : Heap T) (clk : Nat)
    (vals : List T) :
    rangeCtor E fails h clk vals = initListCtor E fails h clk vals ∧
    (NoFault fails clk → vals.length ≤ MAX_ARRAY_LEN →
      (initListCtor E fails h clk vals).outcome = .returned ∧
      Size (initListCtor E fails h clk vals).st.self = vals.length ∧
      Capacity (initListCtor E fails h clk vals).st.self = vals.length ∧
      elems (initListCtor E fails h clk vals).st.heap (initListCtor E fails h clk vals).st.self
        = vals ∧
      (∀ i, i < vals.length →
        index (initListCtor E fails h clk vals).st.heap
          (initListCtor E fails h clk vals).st.self i = vals.get? i) ∧
      (vals = [] → Data (initListCtor E fails h clk vals).st.self = none)) ∧
    ((FaultIn fails clk (initListCtor E fails h clk vals).st.clock ∨
        MAX_ARRAY_LEN < vals.length) ↔
      (initListCtor E fails h clk vals).outcome = .threw) ∧
    ((initListCtor E fails h clk vals).outcome = .threw →
      Size (initListCtor E fails h clk vals).st.self = 0 ∧
      Capacity (initListCtor E fails h clk vals).st.self = 0 ∧
      Data (initListCtor E fails h clk vals).st.self = none) := by
  obtain ⟨_, p2, p3, p4⟩ := initListCtor_spec E fails h clk vals
  refine ⟨rfl, fun hnf hm => ?_, ⟨fun hf => ?_, fun ht => (p3 ht).2⟩, fun ht => ?_⟩
  · have hr := p4 hnf hm
    obtain ⟨q1, q2, q3, q4, _⟩ := p2 hr
    refine ⟨hr, q1, q2, q3, fun i hi => ?_, q4⟩
    rw [index_eq_elems _ _ _ (by rw [q1]; exact hi), q3, List.get?_eq_getElem?]
  · cases hr : (initListCtor E fails h clk vals).outcome with
    | threw => rfl
    | returned =>
      obtain ⟨_, q2, _, _, q5⟩ := p2 hr
      rcases hf with hf | hf
      · exact absurd hf q5
      · have hw := (initListCtor_spec E fails h clk vals).1.1.2.1
        rw [q2] at hw
        omega
  · rw [(p3 ht).1]
    exact ⟨rfl, rfl, rfl⟩

theorem C19_sequence_ctor_witness :
    elems (initListCtor intTraits never [] 0 [4, 5, 6]).st.heap
      (initListCtor intTraits never [] 0 [4, 5, 6]).st.self = [4, 5, 6] ∧
    Capacity (initListCtor intTraits never [] 0 [4, 5, 6]).st.self = 3 :=
  have h := (C19_sequence_ctor intTraits never [] 0 [4, 5, 6]).2.1 (fun _ _ => rfl) (by decide)
  ⟨h.2.2.2.1, h.2.2.1⟩


end VectorH
